import Mathlib

/-!
Verification of the `mditor` text-editing substrate.

The development shallowly embeds the two text engines of the repository:

* the piece-tree engine (`crates/piece_tree/src/piece_tree.rs`), and
* the rope engine (`crates/rope/src/rope.rs`, `crates/rope/src/node.rs`),

together with the chunked UTF-8 loader
(`crates/text_buffer/src/buffer_builder.rs`, `crates/text_buffer/src/io.rs`)
and the `TextBuffer` facade (`crates/text_buffer/src/buffer.rs`).

Strings are embedded as lists of bytes (`List Nat`), since every offset in the
source is a byte offset and line-break detection inspects raw bytes.  Rust's
`usize` subtraction in the source is either checked-in-context or explicitly
`saturating_sub`; both are rendered as truncated `Nat` subtraction, which
coincides with `saturating_sub`.

The piece tree itself is a red-black tree of pieces with `size_left`/`lf_left`
aggregates that the source recomputes from the actual subtrees after every
structural change (`recompute_tree_metadata`), so the aggregates always equal
the true in-order sums.  All observable operations (`insert`, `delete`,
`get_text`, `get_lines_content`, `get_offset_at`, `get_position_at`,
`compute_buffer_metadata`) are functions of the in-order sequence of pieces
and of the backing buffers; rotations and recolourings permute the tree shape
but keep that sequence.  The embedding therefore represents the tree state by
its in-order piece sequence plus the buffer list and the cached
`length`/`line_count`, and each tree descent is rendered as the corresponding
left-to-right scan of the sequence.  Where the source's descent order leaves a
tie between pieces sharing a boundary offset, the scan resolves it to the
leftmost piece; this is noted at each such definition.
-/

set_option maxHeartbeats 1000000
set_option maxRecDepth 100000

namespace Mditor

/-- A byte (`u8` in the source); values are in `[0, 256)` at every use site. -/
abbrev Byte := Nat

/-- `StringBuffer::create_line_starts`, auxiliary scanner.  `i` is the byte
index of the head of the remaining input inside the whole buffer.  On `\r\n`
it records `i + 2` and consumes both bytes; on a lone `\r` or on `\n` it
records `i + 1`. -/
def createLineStartsAux : List Nat → Nat → List Nat
  | [], _ => []
  | 13 :: 10 :: rest, i => (i + 2) :: createLineStartsAux rest (i + 2)
  | 13 :: rest, i => (i + 1) :: createLineStartsAux rest (i + 1)
  | 10 :: rest, i => (i + 1) :: createLineStartsAux rest (i + 1)
  | _ :: rest, i => createLineStartsAux rest (i + 1)

/-- `StringBuffer::create_line_starts`: byte offsets at which lines start;
element 0 is always 0. -/
def createLineStarts (text : List Nat) : List Nat :=
  0 :: createLineStartsAux text 0

/-- The number of line breaks of a byte string, counting CR, LF and CRLF as
one each — by definition of `create_line_starts`, one break per recorded
line start after the leading 0. -/
def numberOfLineBreaks (text : List Nat) : Nat :=
  (createLineStarts text).length - 1

/-- `BufferCursor`: 0-based (line, column) position inside a backing buffer. -/
structure BufferCursor where
  line : Nat
  column : Nat
deriving DecidableEq, Repr

/-- `Piece`: a view into a backing buffer.  The source field `end` is a Lean
keyword and is rendered as `stop`. -/
structure Piece where
  bufferIdx : Nat
  start : BufferCursor
  stop : BufferCursor
  length : Nat
  lineFeedCnt : Nat
deriving DecidableEq, Repr

/-- `StringBuffer`: an immutable byte string plus its precomputed line
starts. -/
structure StringBuffer where
  buffer : List Nat
  lineStarts : List Nat
deriving DecidableEq, Repr

/-- `StringBuffer::new`. -/
def StringBuffer.new (buffer : List Nat) : StringBuffer :=
  ⟨buffer, createLineStarts buffer⟩

/-- The default used to render Rust's (never-failing, under the maintained
invariants) indexing of the buffer list. -/
def emptyStringBuffer : StringBuffer := ⟨[], [0]⟩

/-- The default used to render Rust's (never-failing) indexing of pieces. -/
def emptyPiece : Piece := ⟨0, ⟨0, 0⟩, ⟨0, 0⟩, 0, 0⟩

/-- `PieceTree`: the engine state.  `pieces` is the in-order sequence of the
red-black tree's nodes (see the header comment); `buffers` is the backing
buffer list (index 0 is the reserved empty buffer); `length` and `lineCount`
are the cached totals maintained by `compute_buffer_metadata`. -/
structure PieceTree where
  buffers : List StringBuffer
  pieces : List Piece
  length : Nat
  lineCount : Nat
deriving DecidableEq, Repr

/-- `PieceTree::compute_buffer_metadata`: walking the right spine and adding
`lf_left + piece.line_feed_cnt` resp. `size_left + piece.length` at each node
totals exactly the in-order sums, since the aggregates equal the true left
subtree sums. -/
def computeBufferMetadata (t : PieceTree) : PieceTree :=
  { t with
    length := (t.pieces.map Piece.length).sum
    lineCount := 1 + (t.pieces.map Piece.lineFeedCnt).sum }

/-- `PieceTree::new`: one piece per chunk, spanning the whole chunk, appended
left to right via `rb_insert_right`. -/
def PieceTree.new (chunks : List StringBuffer) : PieceTree :=
  let base : PieceTree :=
    { buffers := [StringBuffer.new []], pieces := [], length := 0, lineCount := 1 }
  if chunks = [] then base
  else
    let pieces := (List.range chunks.length).map (fun i =>
      let chunk := chunks.getD i emptyStringBuffer
      let ls := chunk.lineStarts
      Piece.mk (i + 1) ⟨0, 0⟩
        ⟨ls.length - 1, chunk.buffer.length - ls.getD (ls.length - 1) 0⟩
        chunk.buffer.length (ls.length - 1))
    computeBufferMetadata
      { base with buffers := base.buffers ++ chunks, pieces := pieces }

/-- `PieceTree::offset_in_buffer`. -/
def PieceTree.offsetInBuffer (t : PieceTree) (bufferIdx : Nat) (cursor : BufferCursor) : Nat :=
  (t.buffers.getD bufferIdx emptyStringBuffer).lineStarts.getD cursor.line 0 + cursor.column

/-- The binary-search loop inside `PieceTree::position_in_buffer`.  `mid` is
the value of the source's `mid` variable entering the iteration (returned
when the loop condition `low <= high` fails); `fuel` bounds the iteration
count (the interval shrinks every non-breaking iteration, so
`high + 2` steps always suffice). -/
def positionSearch (ls : List Nat) (target : Nat) : Nat → Nat → Nat → Nat → Nat
  | _, _, mid, 0 => mid
  | low, high, mid, fuel + 1 =>
    if low ≤ high then
      let m := (low + high) / 2
      if m = high then m
      else if target < ls.getD m 0 then
        if m = 0 then m else positionSearch ls target low (m - 1) m fuel
      else if ls.getD (m + 1) 0 ≤ target then
        positionSearch ls target (m + 1) high m fuel
      else m
    else mid

/-- `PieceTree::position_in_buffer`: convert a byte remainder within a piece
into a `BufferCursor` of its backing buffer, clamping the target to the
piece's end offset. -/
def PieceTree.positionInBuffer (t : PieceTree) (piece : Piece) (remainder : Nat) : BufferCursor :=
  let ls := (t.buffers.getD piece.bufferIdx emptyStringBuffer).lineStarts
  let startOffset := ls.getD piece.start.line 0 + piece.start.column
  let endOffset := ls.getD piece.stop.line 0 + piece.stop.column
  let target := min (startOffset + remainder) endOffset
  let mid := positionSearch ls target piece.start.line piece.stop.line piece.start.line
    (piece.stop.line + 2)
  ⟨mid, target - ls.getD mid 0⟩

/-- `PieceTree::get_line_feed_cnt`: CRLF-aware count of line breaks between
two cursors of one backing buffer. -/
def PieceTree.getLineFeedCnt (t : PieceTree) (bufferIdx : Nat)
    (start stop : BufferCursor) : Nat :=
  if stop.column = 0 then stop.line - start.line
  else
    let sb := t.buffers.getD bufferIdx emptyStringBuffer
    let ls := sb.lineStarts
    if stop.line = ls.length - 1 then stop.line - start.line
    else
      let nextLineStartOffset := ls.getD (stop.line + 1) 0
      let endOffset := ls.getD stop.line 0 + stop.column
      if endOffset + 1 < nextLineStartOffset then stop.line - start.line
      else if 0 < endOffset ∧ sb.buffer.getD (endOffset - 1) 0 = 13 then
        stop.line - start.line + 1
      else stop.line - start.line

/-- `PieceTree::piece_from_range`. -/
def PieceTree.pieceFromRange (t : PieceTree) (bufferIdx : Nat)
    (start stop : BufferCursor) : Piece :=
  let startOff := t.offsetInBuffer bufferIdx start
  let endOff := t.offsetInBuffer bufferIdx stop
  ⟨bufferIdx, start, stop, endOff - startOff, t.getLineFeedCnt bufferIdx start stop⟩

/-- `PieceTree::node_at` rendered on the in-order sequence: the tree descent
by `size_left` locates the leftmost piece whose closed span contains the
offset; `idx` and `nodeStart` accumulate the index and starting document
offset of the current piece. -/
def nodeAtAux : List Piece → Nat → Nat → Nat → Option (Nat × Nat × Nat)
  | [], _, _, _ => none
  | p :: ps, offset, idx, nodeStart =>
    if offset ≤ p.length then some (idx, offset, nodeStart)
    else nodeAtAux ps (offset - p.length) (idx + 1) (nodeStart + p.length)

/-- `PieceTree::node_at`. -/
def PieceTree.nodeAt (t : PieceTree) (offset : Nat) : Option (Nat × Nat × Nat) :=
  nodeAtAux t.pieces offset 0 0

/-- `str::is_char_boundary` (byte-level): true at 0 and at the length, false
past the end, and otherwise true iff the byte is not a UTF-8 continuation
byte. -/
def isCharBoundary (text : List Nat) (i : Nat) : Bool :=
  if i = 0 then true
  else
    match text.get? i with
    | none => i = text.length
    | some b => b < 0x80 || 0xC0 ≤ b

/-- The byte length of the UTF-8 character led by `b` (for valid lead
bytes); used to render `text.char_indices().nth(1)` on a valid `&str`. -/
def utf8CharLen (b : Nat) : Nat :=
  if b < 0x80 then 1 else if b < 0xE0 then 2 else if b < 0xF0 then 3 else 4

/-- The backup loop of `create_new_pieces`:
`while split > 0 && !text.is_char_boundary(split) { split -= 1 }`. -/
def backupToBoundary (text : List Nat) : Nat → Nat
  | 0 => 0
  | s + 1 => if isCharBoundary text (s + 1) then s + 1 else backupToBoundary text s

/-- `AVG_BUF` from `create_new_pieces`. -/
def AVG_BUF : Nat := 65535

/-- One iteration of `create_new_pieces`: the split position chosen for the
head chunk of `text` (ASCII 13 = `\r`, 10 = `\n`).  `text.char_indices().nth(1)`
on a valid `&str` is the byte length of the first character (or the total
length for a single-character string). -/
def chunkSplit (text : List Nat) : Nat :=
  let maxSplit := min text.length AVG_BUF
  let split := backupToBoundary text maxSplit
  let split := if split = 0 then min (utf8CharLen (text.getD 0 0)) text.length else split
  if split < text.length ∧ 0 < split ∧ text.getD (split - 1) 0 = 13 ∧
      text.getD split 0 = 10 then
    split + 1
  else if split < text.length ∧ 0 < split ∧ text.getD (split - 1) 0 = 13 then
    let split := split - 1
    if split = 0 ∧ 2 ≤ text.length ∧ text.getD 0 0 = 13 ∧ text.getD 1 0 = 10 then 2
    else split
  else split

/-- The chunk partition computed by the `while !text.is_empty()` loop of
`create_new_pieces`.  The loop consumes `chunkSplit text ≥ 1` bytes per
iteration for every text a Rust `&str` can hold (proved below for
shape-valid UTF-8), so `text.length` fuel always suffices. -/
def createChunksAux : Nat → List Nat → List (List Nat)
  | 0, _ => []
  | _ + 1, [] => []
  | fuel + 1, text =>
    let split := chunkSplit text
    text.take split :: createChunksAux fuel (text.drop split)

/-- The chunk partition of `create_new_pieces`. -/
def createChunks (text : List Nat) : List (List Nat) :=
  createChunksAux text.length text

/-- One chunk of `create_new_pieces` turned into its fresh backing buffer and
whole-buffer piece. -/
def mkChunkPiece (bufIdx : Nat) (chunk : List Nat) : StringBuffer × Piece :=
  let ls := createLineStarts chunk
  let endLine := ls.length - 1
  let endCol := chunk.length - ls.getD endLine 0
  (⟨chunk, ls⟩, ⟨bufIdx, ⟨0, 0⟩, ⟨endLine, endCol⟩, chunk.length, ls.length - 1⟩)

/-- The buffer-appending fold of `create_new_pieces`. -/
def appendChunkPieces : List StringBuffer → List (List Nat) →
    List StringBuffer × List Piece
  | bufs, [] => (bufs, [])
  | bufs, c :: cs =>
    let pr := mkChunkPiece bufs.length c
    let r := appendChunkPieces (bufs ++ [pr.1]) cs
    (r.1, pr.2 :: r.2)

/-- `PieceTree::create_new_pieces`: push one fresh backing buffer per chunk
and return the corresponding pieces. -/
def PieceTree.createNewPieces (t : PieceTree) (text : List Nat) :
    PieceTree × List Piece :=
  let r := appendChunkPieces t.buffers (createChunks text)
  ({ t with buffers := r.1 }, r.2)

/-- Insert the block `xs` before index `i` of `l` (how a run of
`rb_insert_left`/`rb_insert_right` calls places new pieces in the in-order
sequence). -/
def insertManyAt (i : Nat) (xs l : List Piece) : List Piece :=
  l.take i ++ xs ++ l.drop i

/-- `PieceTree::insert`. -/
def PieceTree.insert (t : PieceTree) (offset : Nat) (value : List Nat) : PieceTree :=
  if value = [] then t
  else
    let offset := if t.length < offset then t.length else offset
    let r := t.createNewPieces value
    let t := r.1
    let newPieces := r.2
    if t.pieces = [] then
      computeBufferMetadata { t with pieces := newPieces }
    else
      match t.nodeAt offset with
      | none =>
        computeBufferMetadata { t with pieces := t.pieces ++ newPieces }
      | some (idx, remainder, nodeStart) =>
        let node := t.pieces.getD idx emptyPiece
        if nodeStart = offset then
          computeBufferMetadata { t with pieces := insertManyAt idx newPieces t.pieces }
        else if offset < nodeStart + node.length then
          let splitPos := t.positionInBuffer node remainder
          let rightPiece := t.pieceFromRange node.bufferIdx splitPos node.stop
          let leftPiece := t.pieceFromRange node.bufferIdx node.start splitPos
          let newRight := if 0 < rightPiece.length then [rightPiece] else []
          computeBufferMetadata
            { t with pieces :=
                t.pieces.take idx ++ [leftPiece] ++ newPieces ++ newRight ++
                  t.pieces.drop (idx + 1) }
        else
          computeBufferMetadata
            { t with pieces := insertManyAt (idx + 1) newPieces t.pieces }

/-- `PieceTree::delete`. -/
def PieceTree.delete (t : PieceTree) (offset cnt : Nat) : PieceTree :=
  if cnt = 0 ∨ t.pieces = [] ∨ t.length ≤ offset then t
  else
    let cnt := if t.length < offset + cnt then t.length - offset else cnt
    match t.nodeAt offset with
    | none => t
    | some (startIdx, startRem, startNodeStart) =>
      let endOffset := offset + cnt
      let endHit := (t.nodeAt endOffset).elim
        (let lastIdx := t.pieces.length - 1
         (lastIdx, (t.pieces.getD lastIdx emptyPiece).length))
        (fun x => (x.1, x.2.1))
      let endIdx := endHit.1
      let endRem := endHit.2
      if startIdx = endIdx then
        let node := t.pieces.getD startIdx emptyPiece
        let startCursor := t.positionInBuffer node startRem
        let endCursor := t.positionInBuffer node endRem
        if startNodeStart = offset ∧ cnt = node.length then
          let zero := t.pieceFromRange node.bufferIdx startCursor startCursor
          computeBufferMetadata { t with pieces := t.pieces.set startIdx zero }
        else if startNodeStart = offset then
          let np := t.pieceFromRange node.bufferIdx endCursor node.stop
          computeBufferMetadata { t with pieces := t.pieces.set startIdx np }
        else if startNodeStart + node.length = endOffset then
          let np := t.pieceFromRange node.bufferIdx node.start startCursor
          computeBufferMetadata { t with pieces := t.pieces.set startIdx np }
        else
          let leftPiece := t.pieceFromRange node.bufferIdx node.start startCursor
          let rightPiece := t.pieceFromRange node.bufferIdx endCursor node.stop
          let newRight := if 0 < rightPiece.length then [rightPiece] else []
          computeBufferMetadata
            { t with pieces :=
                t.pieces.take startIdx ++ [leftPiece] ++ newRight ++
                  t.pieces.drop (startIdx + 1) }
      else
        let startNode := t.pieces.getD startIdx emptyPiece
        let endNode := t.pieces.getD endIdx emptyPiece
        let startCursor := t.positionInBuffer startNode startRem
        let newStart := t.pieceFromRange startNode.bufferIdx startNode.start startCursor
        let endCursor := t.positionInBuffer endNode endRem
        let newEnd := t.pieceFromRange endNode.bufferIdx endCursor endNode.stop
        let newPieces := (List.range t.pieces.length).map (fun i =>
          if i = startIdx then newStart
          else if i = endIdx then newEnd
          else if startIdx < i ∧ i < endIdx then
            let p := t.pieces.getD i emptyPiece
            t.pieceFromRange p.bufferIdx ⟨0, 0⟩ ⟨0, 0⟩
          else t.pieces.getD i emptyPiece)
        computeBufferMetadata { t with pieces := newPieces }

/-- `PieceTree::get_text`: concatenate the in-order pieces, with the source's
guards against invalid pieces. -/
def PieceTree.getText (t : PieceTree) : List Nat :=
  t.pieces.foldl (fun out p =>
    if p.length = 0 then out
    else if t.buffers.length ≤ p.bufferIdx then out
    else
      let sb := t.buffers.getD p.bufferIdx emptyStringBuffer
      let start := sb.lineStarts.getD p.start.line 0 + p.start.column
      let stop := sb.lineStarts.getD p.stop.line 0 + p.stop.column
      if start ≤ stop ∧ stop ≤ sb.buffer.length then
        out ++ ((sb.buffer.drop start).take (stop - start))
      else out) []

/-- `PieceTree::strip_trailing_eol_range`: new end index of `[start, stop)`
after removing one trailing CRLF, LF or CR. -/
def stripTrailingEolRange (s : List Nat) (start stop : Nat) : Nat :=
  if stop ≤ start then stop
  else if start + 2 ≤ stop ∧ s.getD (stop - 2) 0 = 13 ∧ s.getD (stop - 1) 0 = 10 then
    stop - 2
  else if s.getD (stop - 1) 0 = 10 ∨ s.getD (stop - 1) 0 = 13 then stop - 1
  else stop

/-- `PieceTree::char_code_at`. -/
def charCodeAt (s : List Nat) (idx : Nat) : Option Nat :=
  s.get? idx

/-- The mutable state of the `get_lines_content` traversal. -/
structure LinesAcc where
  lines : List (List Nat)
  currentLine : List Nat
  danglingCr : Bool

/-- The byte slice `&buffer[start..stop]`. -/
def slice (s : List Nat) (start stop : Nat) : List Nat :=
  (s.drop start).take (stop - start)

/-- The body of the `for_each_inorder` closure inside
`PieceTree::get_lines_content`, processing one piece. -/
def getLinesStep (t : PieceTree) (acc : LinesAcc) (piece : Piece) : LinesAcc :=
  if t.buffers.length ≤ piece.bufferIdx then acc
  else
    let sb := t.buffers.getD piece.bufferIdx emptyStringBuffer
    let buffer := sb.buffer
    let lineStarts := sb.lineStarts
    let pieceStartLine := piece.start.line
    let pieceEndLine := piece.stop.line
    if lineStarts.length ≤ pieceStartLine ∨ lineStarts.length ≤ pieceEndLine then acc
    else
      let pieceStartOffset := lineStarts.getD pieceStartLine 0 + piece.start.column
      let pieceEndOffset := lineStarts.getD pieceEndLine 0 + piece.stop.column
      if pieceEndOffset < pieceStartOffset ∨ buffer.length < pieceStartOffset then acc
      else
        let pieceLength := pieceEndOffset - pieceStartOffset
        if pieceLength = 0 then acc
        else
          -- dangling CR handling across the piece boundary
          let adj :=
            if acc.danglingCr then
              if charCodeAt buffer pieceStartOffset = some 10 then
                (pieceStartOffset + 1, pieceLength - 1)
              else (pieceStartOffset, pieceLength)
            else (pieceStartOffset, pieceLength)
          let acc1 :=
            if acc.danglingCr then
              { lines := acc.lines ++ [acc.currentLine], currentLine := [],
                danglingCr := false }
            else acc
          let pieceStartOffset := adj.1
          let pieceLength := adj.2
          if acc.danglingCr ∧ pieceLength = 0 then acc1
          else if pieceStartLine = pieceEndLine then
            let stop := pieceStartOffset + pieceLength
            if 0 < pieceLength ∧ charCodeAt buffer (stop - 1) = some 13 then
              { acc1 with
                danglingCr := true
                currentLine :=
                  if pieceStartOffset < stop - 1 then
                    acc1.currentLine ++ slice buffer pieceStartOffset (stop - 1)
                  else acc1.currentLine }
            else
              { acc1 with currentLine := acc1.currentLine ++ slice buffer pieceStartOffset stop }
          else
            -- text before the first line start inside the piece
            let firstLineNextStart := lineStarts.getD (pieceStartLine + 1) 0
            let segEnd0 := min firstLineNextStart pieceEndOffset
            let segEnd := stripTrailingEolRange buffer pieceStartOffset segEnd0
            let firstLine :=
              if pieceStartOffset < segEnd then
                acc1.currentLine ++ slice buffer pieceStartOffset segEnd
              else acc1.currentLine
            let lines1 := acc1.lines ++ [firstLine]
            -- intermediate full lines inside the piece
            let midLines := ((List.range (pieceEndLine - (pieceStartLine + 1))).map
              (fun k =>
                let line := pieceStartLine + 1 + k
                let start := lineStarts.getD line 0
                let stop := min (lineStarts.getD (line + 1) 0) buffer.length
                let trimmedEnd := stripTrailingEolRange buffer start stop
                if start < trimmedEnd then slice buffer start trimmedEnd else []))
            let lines2 := lines1 ++ midLines
            -- last (partial) line segment of the piece
            let endLineStart := lineStarts.getD pieceEndLine 0
            let endAbs := pieceEndOffset
            if piece.stop.column = 0 then
              if 0 < endLineStart ∧ charCodeAt buffer (endLineStart - 1) = some 13 then
                { lines := lines2.dropLast, currentLine := [], danglingCr := true }
              else
                { lines := lines2, currentLine := [], danglingCr := false }
            else
              if 0 < endAbs ∧ charCodeAt buffer (endAbs - 1) = some 13 then
                { lines := lines2, danglingCr := true
                  currentLine :=
                    if endLineStart < endAbs - 1 then slice buffer endLineStart (endAbs - 1)
                    else [] }
              else
                { lines := lines2, danglingCr := false
                  currentLine :=
                    if endLineStart < endAbs then slice buffer endLineStart endAbs
                    else [] }

/-- `PieceTree::get_lines_content`. -/
def PieceTree.getLinesContent (t : PieceTree) : List (List Nat) :=
  let acc := t.pieces.foldl (getLinesStep t) ⟨[], [], false⟩
  if acc.danglingCr then acc.lines ++ [acc.currentLine, []]
  else acc.lines ++ [acc.currentLine]

/-- `PieceTree::get_line_content` (1-based; out of range yields empty). -/
def PieceTree.getLineContent (t : PieceTree) (lineNumber : Nat) : List Nat :=
  let lines := t.getLinesContent
  if lineNumber = 0 then []
  else if lineNumber ≤ lines.length then lines.getD (lineNumber - 1) []
  else []

/-- `PieceTree::get_line_length`. -/
def PieceTree.getLineLength (t : PieceTree) (lineNumber : Nat) : Nat :=
  (t.getLineContent lineNumber).length

/-- `PieceTree::get_accumulated_value`: bytes of a piece accumulated up to
its internal line `index` (an `isize` in the source). -/
def PieceTree.getAccumulatedValue (t : PieceTree) (p : Piece) (index : Int) : Nat :=
  if index < 0 then 0
  else
    let ls := (t.buffers.getD p.bufferIdx emptyStringBuffer).lineStarts
    let idx := index.toNat
    let expectedLineStartIndex := p.start.line + idx + 1
    if p.stop.line < expectedLineStartIndex then
      (ls.getD p.stop.line 0 + p.stop.column) - (ls.getD p.start.line 0 + p.start.column)
    else
      ls.getD expectedLineStartIndex 0 - (ls.getD p.start.line 0 + p.start.column)

/-- The descent loop of `PieceTree::get_offset_at` rendered on the in-order
sequence: at each piece the frame-local `lf_left`/`size_left` are zero, the
hit test is `lf_left + piece_lf + 1 >= line`, and skipping a piece performs
`line -= lf_left + piece_lf` and `left_len += size_left + piece_len`.  The
tree prefers the left subtree whenever it can still cover the target line,
which on the sequence is the leftmost matching piece. -/
def getOffsetAtAux (t : PieceTree) (column : Nat) : List Piece → Nat → Nat → Nat
  | [], _, leftLen => leftLen
  | p :: ps, lineNumber, leftLen =>
    if lineNumber ≤ p.lineFeedCnt + 1 then
      leftLen + t.getAccumulatedValue p ((lineNumber : Int) - 2) + (column - 1)
    else
      getOffsetAtAux t column ps (lineNumber - p.lineFeedCnt) (leftLen + p.length)

/-- `PieceTree::get_offset_at` (1-based line/column in, 0-based offset out). -/
def PieceTree.getOffsetAt (t : PieceTree) (lineNumber column : Nat) : Nat :=
  if lineNumber = 0 then 0
  else getOffsetAtAux t column t.pieces lineNumber 0

/-- `PieceTree::get_index_of`: line feeds strictly before an accumulated byte
position inside a piece, with the CRLF end-of-piece adjustment. -/
def PieceTree.getIndexOf (t : PieceTree) (p : Piece) (accumulatedValue : Nat) : Nat × Nat :=
  let startOff := t.offsetInBuffer p.bufferIdx p.start
  let endOff := t.offsetInBuffer p.bufferIdx p.stop
  let pos := t.positionInBuffer p accumulatedValue
  let lineCnt := pos.line - p.start.line
  if endOff - startOff = accumulatedValue then
    let realLineCnt := t.getLineFeedCnt p.bufferIdx p.start pos
    if realLineCnt ≠ lineCnt then (realLineCnt, 0) else (lineCnt, pos.column)
  else (lineCnt, pos.column)

/-- The descent loop of `PieceTree::get_position_at` rendered on the in-order
sequence (hit test `size_left + piece_len >= offset`, skip performs the
saturating subtractions of the source; boundary ties resolve to the leftmost
piece, cf. the header comment). -/
def getPositionAtAux (t : PieceTree) (originalOffset : Nat) :
    List Piece → Nat → Nat → BufferCursor
  | [], _, _ => ⟨1, 1⟩
  | p :: ps, offset, lfCnt =>
    if offset ≤ p.length then
      let ir := t.getIndexOf p offset
      let index := ir.1
      let remainder := ir.2
      let lfCnt := lfCnt + index
      if index = 0 then
        let lineStartOffset := t.getOffsetAt (lfCnt + 1) 1
        let column0 := originalOffset - lineStartOffset
        ⟨lfCnt + 1, column0 + 1⟩
      else ⟨lfCnt + 1, remainder + 1⟩
    else
      let offset := offset - p.length
      let lfCnt := lfCnt + p.lineFeedCnt
      if ps = [] then
        let lineStartOffset := t.getOffsetAt (lfCnt + 1) 1
        let column0 := originalOffset - offset - lineStartOffset
        ⟨lfCnt + 1, column0 + 1⟩
      else getPositionAtAux t originalOffset ps offset lfCnt

/-- `PieceTree::get_position_at` (0-based offset in, 1-based position out). -/
def PieceTree.getPositionAt (t : PieceTree) (offset : Nat) : BufferCursor :=
  getPositionAtAux t offset t.pieces offset 0

/-! ## The rope engine (`crates/rope/src/node.rs`, `crates/rope/src/rope.rs`)

The rope is a persistent tree of immutable nodes behind `Rc` pointers; edits
build fresh nodes bottom-up.  The embedding is the evident inductive type.
`split_text_to_leaves` walks a `GraphemeCursor` from the external
`unicode_segmentation` crate; that crate's boundary test is abstracted as a
parameter `gb text pos` standing for `cursor.is_boundary(text, 0).unwrap_or(false)`
at byte position `pos` of `text`.  A grapheme cursor always reports the end of
the string as a boundary, which is the single fact about `gb` the theorems
assume. -/

/-- `MAX_CHUNK_SIZE` (the production value 128; `cfg!(test)` shrinks it to 16
in the crate's own tests). -/
def MAX_CHUNK_SIZE : Nat := 128

/-- `TREE_ORDER`. -/
def TREE_ORDER : Nat := 16

/-- The number of `\n` bytes of a byte string
(`value.matches('\n').count()`). -/
def countNl (l : List Nat) : Nat := l.count 10

/-- `Node`: either a `Leaf` (stored newline count and byte chunk) or a
`Branch` (stored newline count, height, byte length, cumulative `keys`, and
children). -/
inductive Node where
  | leaf (newLines : Nat) (chunk : List Nat)
  | branch (newLines height length : Nat) (keys : List Nat) (children : List Node)

/-- `Leaf::new`, also `Node::new()`'s payload: the empty leaf. -/
def Node.newLeaf : Node := .leaf 0 []

/-- `impl From<&str> for Leaf`: the newline count is computed from the
chunk at construction. -/
def mkLeaf (chunk : List Nat) : Node := .leaf (countNl chunk) chunk

/-- `Node::is_leaf`. -/
def Node.isLeaf : Node → Bool
  | .leaf _ _ => true
  | .branch _ _ _ _ _ => false

/-- `Node::len` (leaves: chunk length; branches: the stored length). -/
def Node.len : Node → Nat
  | .leaf _ c => c.length
  | .branch _ _ l _ _ => l

/-- `Node::height` (leaves have height 1). -/
def Node.height : Node → Nat
  | .leaf _ _ => 1
  | .branch _ h _ _ _ => h

/-- `Node::new_lines` (the stored counts). -/
def Node.newLines : Node → Nat
  | .leaf nl _ => nl
  | .branch nl _ _ _ _ => nl

/-- `Node::children` (empty for leaves). -/
def Node.children : Node → List Node
  | .leaf _ _ => []
  | .branch _ _ _ _ cs => cs

section RopeDefs

variable (gb : List Nat → Nat → Bool)

/-- The advancing `while` loop of `split_text_to_leaves`:
`while !text.is_char_boundary(cur) || !cursor.is_boundary(text, 0).unwrap_or(false)`
increment the cursor.  `fuel` bounds the iterations; `text.length + 1` steps
reach the end of the text from any starting position at most `text.length`,
where both tests hold. -/
def advanceCursor (text : List Nat) : Nat → Nat → Nat
  | pos, 0 => pos
  | pos, fuel + 1 =>
    if ¬ (isCharBoundary text pos) ∨ ¬ (gb text pos) then
      advanceCursor text (pos + 1) fuel
    else pos

/-- The chunking loop of `Leaf::split_text_to_leaves`
(`while cursor.cur_cursor() < text.len()`); `fuel = text.length` suffices
since every iteration advances the cursor by at least one byte. -/
def splitLoop (text : List Nat) (chunkSize : Nat) : Nat → Nat → List Node
  | _, 0 => []
  | start, fuel + 1 =>
    if text.length ≤ start then []
    else
      let stop := advanceCursor gb text (min (start + chunkSize) text.length)
        (text.length + 1)
      mkLeaf (slice text start stop) :: splitLoop text chunkSize stop fuel

/-- `Leaf::split_text_to_leaves`.  `num_chunks` and `chunk_size` use
`div_ceil`, written out as `(a + b - 1) / b`. -/
def splitTextToLeaves (text : List Nat) : List Node :=
  if text.isEmpty then []
  else
    let numChunks := (text.length + MAX_CHUNK_SIZE - 1) / MAX_CHUNK_SIZE
    let chunkSize := (text.length + numChunks - 1) / numChunks
    splitLoop gb text chunkSize 0 text.length

end RopeDefs

/-- The cumulative `keys` of a branch: running total of the children's
lengths, excluding the final total (`chunk.iter().take(len - 1)`). -/
def prefixKeys : List Node → Nat → List Nat
  | [], _ => []
  | [_], _ => []
  | c :: rest, acc => (acc + c.len) :: prefixKeys rest (acc + c.len)

/-- One parent branch of `create_parent_branches`: totals over its chunk of
children, `keys` over all but the last, and the supplied height (the source
computes `children.first().unwrap().height() + 1` from the whole input
list). -/
def branchOf (h : Nat) (chunk : List Node) : Node :=
  .branch ((chunk.map Node.newLines).sum) h ((chunk.map Node.len).sum)
    (prefixKeys chunk 0) chunk

/-- `children.chunks(parent_capacity)`: consecutive groups of `cap` children
(the last group may be shorter).  `fuel = l.length` suffices when
`cap ≥ 1`. -/
def groupChildren (cap : Nat) : Nat → List Node → List (List Node)
  | 0, _ => []
  | _ + 1, [] => []
  | fuel + 1, l => l.take cap :: groupChildren cap fuel (l.drop cap)

/-- `Node::create_parent_branches`. -/
def createParentBranches (children : List Node) : List Node :=
  if children.isEmpty then []
  else
    let numParents := (children.length + TREE_ORDER - 1) / TREE_ORDER
    let parentCapacity := (children.length + numParents - 1) / numParents
    let h := (children.headD Node.newLeaf).height + 1
    (groupChildren parentCapacity children.length children).map (branchOf h)

/-- The `while curr_nodes.len() > 1` loop of `Node::create_root`; each round
strictly shrinks a list of length at least 2, so `fuel = nodes.length`
suffices. -/
def createRootAux : Nat → List Node → List Node
  | 0, l => l
  | fuel + 1, l => if l.length ≤ 1 then l else createRootAux fuel (createParentBranches l)

/-- `Node::create_root`. -/
def createRoot (nodes : List Node) : Node :=
  (createRootAux nodes.length nodes).headD Node.newLeaf

/-- The structural size of a node: one per node, summed over children.  The
recursions of the source that are not structural in the embedding (descending
into a selected child, or the `truncate_root` loop) use it as fuel; a node's
size strictly dominates the size of each of its children, so this fuel never
runs out on the recursion paths the source takes. -/
def Node.size : Node → Nat
  | .leaf _ _ => 1
  | .branch _ _ _ _ cs => 1 + sizeList cs
where sizeList : List Node → Nat
  | [] => 0
  | c :: cs => c.size + sizeList cs

/-- Total size of a list of nodes. -/
def nodeListSize (l : List Node) : Nat := (l.map Node.size).sum

/-- The `while !curr_nodes.is_empty()` loop of `Node::truncate_root`:
descend while the front node is a branch with at most one child.  Every
round moves to the front node's children, of strictly smaller total size. -/
def truncateRootAux : Nat → List Node → Node
  | 0, _ => Node.newLeaf
  | _ + 1, [] => Node.newLeaf
  | fuel + 1, root :: _ =>
    if root.isLeaf then root
    else if 1 < root.children.length then root
    else truncateRootAux fuel root.children

/-- `Node::truncate_root`. -/
def truncateRoot (nodes : List Node) : Node :=
  truncateRootAux (nodeListSize nodes + 1) nodes

/-- The `left < right` binary-search loop of `slice::binary_search` from the
Rust standard library, specialized to `Nat` keys: returns `(true, mid)` on an
equal hit and `(false, left)` at the insertion point.  Each iteration halves
the interval, so `keys.length + 2` fuel suffices. -/
def binarySearch (keys : List Nat) (target : Nat) : Nat → Nat → Nat → Bool × Nat
  | left, _, 0 => (false, left)
  | left, right, fuel + 1 =>
    if left < right then
      let mid := left + (right - left) / 2
      let v := keys.getD mid 0
      if v < target then binarySearch keys target (mid + 1) right fuel
      else if target < v then binarySearch keys target left mid fuel
      else (true, mid)
    else (false, left)

/-- `keys.binary_search(&index)` with both result cases of the callers:
`Ok(pos) → pos + 1`, `Err(pos) → pos`. -/
def searchChildIdx (keys : List Nat) (index : Nat) : Nat :=
  match binarySearch keys index 0 keys.length (keys.length + 2) with
  | (true, pos) => pos + 1
  | (false, pos) => pos

/-- `Branch::find_child_by_index`: child position and remaining index inside
that child. -/
def findChildByIndex (keys : List Nat) (index : Nat) : Nat × Nat :=
  match binarySearch keys index 0 keys.length (keys.length + 2) with
  | (true, pos) => (pos + 1, index - keys.getD pos 0)
  | (false, pos) => (pos, index - (if pos = 0 then 0 else keys.getD (pos - 1) 0))

/-- The `for i in start_child..=end_child` loop of
`Branch::find_children_by_range`: each target is `(child index, sub-range)`
with the sub-range stored as a `(lo, hi)` pair. -/
def fcbrLoop (keys : List Nat) (length start stop : Nat) :
    List Nat → Nat → List (Nat × Nat × Nat)
  | [], _ => []
  | i :: is, offset =>
    let childEnd := if i < keys.length then keys.getD i 0 else length
    let rest := fcbrLoop keys length start stop is childEnd
    if start < childEnd ∧ offset < stop then
      (i, start - offset, min (stop - offset) (childEnd - offset)) :: rest
    else rest

/-- `Branch::find_children_by_range` (over the branch's `keys`, stored
`length` and child count). -/
def findChildrenByRange (keys : List Nat) (length childCount start stop : Nat) :
    List (Nat × Nat × Nat) :=
  if stop ≤ start then []
  else
    let startChild := searchChildIdx keys start
    let endChild :=
      match binarySearch keys stop 0 keys.length (keys.length + 2) with
      | (true, pos) => pos + 1
      | (false, pos) => min pos (childCount - 1)
    let offset0 := if startChild = 0 then 0 else keys.getD (startChild - 1) 0
    fcbrLoop keys length start stop
      ((List.range (endChild + 1 - startChild)).map (· + startChild)) offset0

section RopeOps

variable (gb : List Nat → Nat → Bool)

/-- `Leaf::insert`: splice the text in at `index` (`split_at`), keep a single
leaf when the result still fits in `MAX_CHUNK_SIZE`, else re-split. -/
def leafInsert (chunk : List Nat) (index : Nat) (text : List Nat) : List Node :=
  let newText := chunk.take index ++ text ++ chunk.drop index
  if newText.length ≤ MAX_CHUNK_SIZE then [mkLeaf newText]
  else splitTextToLeaves gb newText

/-- `Leaf::delete` (`replace_range(range, "")` then re-split). -/
def leafDelete (chunk : List Nat) (lo hi : Nat) : List Node :=
  splitTextToLeaves gb (chunk.take lo ++ chunk.drop hi)

/-- `Node::insert_recursive` / `Branch::insert`, with recursion depth bounded
by `fuel` (one unit per tree level; `sizeOf` of the node dominates its
height).  The source's shortcut
`new_children.len() == 1 && Rc::ptr_eq(&new_children[0], target_child)` is
always false — both `Leaf::insert` and `Branch::insert` allocate fresh `Rc`s
on every path — so the splice
`children[..i] ++ new_children ++ children[i+1..]` is the only live path. -/
def insertRecAux : Nat → Node → Nat → List Nat → List Node
  | 0, _, _, _ => []
  | _ + 1, .leaf _ chunk, index, text => leafInsert gb chunk index text
  | fuel + 1, .branch _ _ _ keys children, index, text =>
    let fc := findChildByIndex keys index
    let newChildren := insertRecAux fuel (children.getD fc.1 Node.newLeaf) fc.2 text
    createParentBranches
      (children.take fc.1 ++ newChildren ++ children.drop (fc.1 + 1))

/-- `Node::insert_recursive`. -/
def Node.insertRec (n : Node) (index : Nat) (text : List Nat) : List Node :=
  insertRecAux gb n.size n index text

/-- `Node::delete_recursive` / `Branch::delete`, with recursion depth bounded
by `fuel` as in `insertRecAux`. -/
def deleteRecAux : Nat → Node → Nat → Nat → List Node
  | 0, _, _, _ => []
  | _ + 1, .leaf _ chunk, lo, hi => leafDelete gb chunk lo hi
  | fuel + 1, .branch _ _ length keys children, lo, hi =>
    let toDelete := findChildrenByRange keys length children.length lo hi
    if toDelete.isEmpty then createParentBranches children
    else
      let altered := toDelete.flatMap (fun tgt =>
        deleteRecAux fuel (children.getD tgt.1 Node.newLeaf) tgt.2.1 tgt.2.2)
      let start := (toDelete.headD (0, 0, 0)).1
      let stop := (toDelete.getLastD (0, 0, 0)).1
      let newChildren := children.take start ++ altered ++ children.drop (stop + 1)
      if newChildren.isEmpty then []
      else if (newChildren.headD Node.newLeaf).isLeaf then
        createParentBranches newChildren
      else
        let grandchildren := newChildren.flatMap Node.children
        let needRestructure := newChildren.any
          (fun c => c.children.length < TREE_ORDER / 2)
        let newChildren2 :=
          if needRestructure then createParentBranches grandchildren
          else newChildren
        createParentBranches newChildren2

/-- `Node::delete_recursive`. -/
def Node.deleteRec (n : Node) (lo hi : Nat) : List Node :=
  deleteRecAux gb n.size n lo hi

/-- `Node::insert`. -/
def Node.insert (n : Node) (index : Nat) (text : List Nat) : Node :=
  createRoot (n.insertRec gb index text)

/-- `Node::delete`. -/
def Node.delete (n : Node) (lo hi : Nat) : Node :=
  truncateRoot (n.deleteRec gb lo hi)

end RopeOps

/-- `Rope`. -/
structure Rope where
  node : Node

/-- `Rope::new`. -/
def Rope.new : Rope := ⟨Node.newLeaf⟩

/-- `Rope::len`. -/
def Rope.len (r : Rope) : Nat := r.node.len

/-- `Rope::new_lines`. -/
def Rope.newLines (r : Rope) : Nat := r.node.newLines

section RopeApi

variable (gb : List Nat → Nat → Bool)

/-- `Rope::from(&str)` (via `Node::from_str`). -/
def Rope.fromText (text : List Nat) : Rope :=
  if text.isEmpty then Rope.new
  else ⟨createRoot (splitTextToLeaves gb text)⟩

/-- `Rope::insert` (clamps the index, ignores empty text). -/
def Rope.insert (r : Rope) (index : Nat) (text : List Nat) : Rope :=
  if text.isEmpty then r
  else ⟨r.node.insert gb (min index r.len) text⟩

/-- `Rope::delete` (clamps both range ends). -/
def Rope.delete (r : Rope) (lo hi : Nat) : Rope :=
  ⟨r.node.delete gb (min lo r.len) (min hi r.len)⟩

end RopeApi

/-- `ChunkIter`: the explicit-stack traversal of the source pops a node and
pushes a branch's children in reverse, so it yields the leaf chunks in
left-to-right depth-first order — the traversal below. -/
def Node.chunks : Node → List (List Nat)
  | .leaf _ c => [c]
  | .branch _ _ _ _ cs => chunksList cs
where chunksList : List Node → List (List Nat)
  | [] => []
  | c :: cs => c.chunks ++ chunksList cs

/-- `Rope::collect_leaves` (also `Rope::to_string`): the document content. -/
def Rope.collectLeaves (r : Rope) : List Nat :=
  r.node.chunks.flatten

/-- `Node::collect_leaf_depths`: a leaf records the current depth, a branch
recurses into its children one level deeper
(`check_leaves_same_depths` starts it at depth 1). -/
def Node.collectLeafDepths : Node → Nat → List Nat
  | .leaf _ _, d => [d]
  | .branch _ _ _ _ cs, d => depthsList cs (d + 1)
where depthsList : List Node → Nat → List Nat
  | [], _ => []
  | c :: cs, d => c.collectLeafDepths d ++ depthsList cs d

/-- `remaining.find('\n')` as a byte index (a `\n` is the single byte 10 and
never occurs inside a multi-byte UTF-8 sequence). -/
def findNl : List Nat → Option Nat
  | [] => none
  | b :: rest => if b = 10 then some 0 else (findNl rest).map (· + 1)

/-- `LineIter::next`, iterated to exhaustion.  The iterator state is the
pending line `buffer`, the unread `suffix` of the current chunk
(`&chunk[chunk_position..]`), and the chunks not yet fetched.  A found `\n`
emits `buffer ++ suffix[..i]` and continues after it; an exhausted chunk
moves its remainder into the buffer and fetches the next chunk; at
end-of-input the trailing buffer is emitted iff non-empty. -/
def lineLoop (buffer suffix : List Nat) (chunks : List (List Nat)) :
    List (List Nat) :=
  match h : findNl suffix with
  | some i => (buffer ++ suffix.take i) :: lineLoop [] (suffix.drop (i + 1)) chunks
  | none =>
    match chunks with
    | [] => if buffer ++ suffix = [] then [] else [buffer ++ suffix]
    | c :: cs => lineLoop (buffer ++ suffix) c cs
termination_by (chunks.length, suffix.length)
decreasing_by
  · apply Prod.Lex.right
    have hb : ∀ l j, findNl l = some j → j < l.length := by
      intro l
      induction l with
      | nil => intro j hj; simp [findNl] at hj
      | cons b rest ih =>
        intro j hj
        by_cases hb10 : b = 10
        · simp [findNl, hb10] at hj; simp; omega
        · simp [findNl, hb10] at hj
          rcases hj with ⟨k, hk, rfl⟩
          have := ih k hk
          simp
          omega
    have := hb suffix i h
    simp
    omega
  · apply Prod.Lex.left
    simp

/-- `Rope::lines`, collected: `LineIter` over the rope's chunk iterator. -/
def Rope.lines (r : Rope) : List (List Nat) :=
  lineLoop [] [] r.node.chunks

/-- The claim's description of line iteration: the maximal substrings of the
content delimited by `\n` bytes, each line excluding its `\n`; after the
last `\n` the trailing remainder is emitted iff it is non-empty. -/
def linesSpec (l : List Nat) : List (List Nat) :=
  match h : findNl l with
  | some i => l.take i :: linesSpec (l.drop (i + 1))
  | none => if l = [] then [] else [l]
termination_by l.length
decreasing_by
  have hb : ∀ s j, findNl s = some j → j < s.length := by
    intro s
    induction s with
    | nil => intro j hj; simp [findNl] at hj
    | cons b rest ih =>
      intro j hj
      by_cases hb10 : b = 10
      · simp [findNl, hb10] at hj; simp; omega
      · simp [findNl, hb10] at hj
        rcases hj with ⟨k, hk, rfl⟩
        have := ih k hk
        simp
        omega
  have := hb l i h
  simp
  omega

/-- Well-formedness of a rope node, as established by every constructor path
of the source: a leaf stores the newline count of its chunk
(`impl From<&str> for Leaf`); a branch built by `create_parent_branches` has
a non-empty child list, well-formed children of equal height one below its
own, one key fewer than children, and stores the sums of its children's
lengths and newline counts. -/
inductive NodeWf : Node → Prop where
  | leaf (c : List Nat) : NodeWf (.leaf (countNl c) c)
  | branch (nl h len : Nat) (keys : List Nat) (cs : List Node)
      (hne : cs ≠ [])
      (hwf : ∀ c ∈ cs, NodeWf c)
      (hh : ∀ c ∈ cs, c.height + 1 = h)
      (hkeys : keys.length + 1 = cs.length)
      (hlen : len = (cs.map Node.len).sum)
      (hnl : nl = (cs.map Node.newLines).sum) :
      NodeWf (.branch nl h len keys cs)

/-- Rope states reachable through the public API: `Rope::new`,
`Rope::from(&str)`, and any sequence of `insert` and `delete` calls (all for
one fixed grapheme-boundary oracle). -/
inductive RopeReach (gb : List Nat → Nat → Bool) : Rope → Prop where
  | new : RopeReach gb Rope.new
  | fromText (text : List Nat) : RopeReach gb (Rope.fromText gb text)
  | insert {r : Rope} (i : Nat) (text : List Nat) :
      RopeReach gb r → RopeReach gb (r.insert gb i text)
  | delete {r : Rope} (lo hi : Nat) :
      RopeReach gb r → RopeReach gb (r.delete gb lo hi)

/-! ### Claim C5: UTF-8 shape of a Rust `&str` -/

/-- A UTF-8 continuation byte (`0b10xxxxxx`). -/
def contByte (b : Nat) : Bool := decide (0x80 ≤ b ∧ b < 0xC0)

/-- Shape-validity of a byte sequence as UTF-8: every lead byte is followed
by exactly `utf8CharLen − 1` continuation bytes and continuation bytes occur
nowhere else.  Every Rust `&str` satisfies this (full `str` validity is
strictly stronger), and it is what `is_char_boundary` and
`char_indices().nth(1)` rely on in `create_new_pieces`. -/
def utf8Shape : List Nat → Bool
  | [] => true
  | b :: rest =>
    if b < 0x80 then utf8Shape rest
    else if b < 0xC0 then false
    else if b < 0xE0 then tail1 rest
    else if b < 0xF0 then tail2 rest
    else tail3 rest
where
  tail1 : List Nat → Bool
    | c1 :: rest2 => contByte c1 && utf8Shape rest2
    | [] => false
  tail2 : List Nat → Bool
    | c1 :: c2 :: rest3 => contByte c1 && contByte c2 && utf8Shape rest3
    | _ => false
  tail3 : List Nat → Bool
    | c1 :: c2 :: c3 :: rest4 =>
      contByte c1 && contByte c2 && contByte c3 && utf8Shape rest4
    | _ => false

/-- 65,537 ASCII bytes: 65,534 `a`s, then `\r\n`, then `b`.  The first
split candidate of `create_new_pieces` is `AVG_BUF = 65535`, which falls
between the `\r` and the `\n`; the CRLF rule extends it to 65,536. -/
def c5text : List Nat := List.replicate 65534 97 ++ [13, 10, 98]

/-! ### Claim C9: the chunked loader (`text_buffer/src/buffer_builder.rs`,
`text_buffer/src/io.rs`) -/

/-- The allowed first continuation byte after lead `b`
(`std` UTF-8 ranges: E0 requires A0–BF, ED requires 80–9F, F0 requires
90–BF, F4 requires 80–8F; other leads take any continuation byte). -/
def cont1Ok (b c1 : Nat) : Bool :=
  if b = 0xE0 then decide (0xA0 ≤ c1 ∧ c1 ≤ 0xBF)
  else if b = 0xED then decide (0x80 ≤ c1 ∧ c1 ≤ 0x9F)
  else if b = 0xF0 then decide (0x90 ≤ c1 ∧ c1 ≤ 0xBF)
  else if b = 0xF4 then decide (0x80 ≤ c1 ∧ c1 ≤ 0x8F)
  else contByte c1

/-- The byte length of the strictly valid UTF-8 character at the head of the
sequence, `none` if the head does not begin a complete valid character
(this is one step of the `std::str::from_utf8` validator). -/
def utf8CharAt : List Nat → Option Nat
  | [] => none
  | b :: rest =>
    if b < 0x80 then some 1
    else if b < 0xC2 then none
    else if b ≤ 0xDF then two b rest
    else if b ≤ 0xEF then three b rest
    else if b ≤ 0xF4 then four b rest
    else none
where
  two (b : Nat) : List Nat → Option Nat
    | c1 :: _ => if cont1Ok b c1 then some 2 else none
    | [] => none
  three (b : Nat) : List Nat → Option Nat
    | c1 :: c2 :: _ => if cont1Ok b c1 && contByte c2 then some 3 else none
    | _ => none
  four (b : Nat) : List Nat → Option Nat
    | c1 :: c2 :: c3 :: _ =>
      if cont1Ok b c1 && contByte c2 && contByte c3 then some 4 else none
    | _ => none

/-- `Utf8Error::valid_up_to()`: the length of the longest valid-UTF-8 prefix
(the greedy character parse; one unit of fuel per character suffices since
every character consumes at least one byte). -/
def validUpToAux : Nat → List Nat → Nat
  | 0, _ => 0
  | fuel + 1, l =>
    match utf8CharAt l with
    | some k => k + validUpToAux fuel (l.drop k)
    | none => 0

/-- `valid_up_to` with its fuel filled in. -/
def validUpTo (l : List Nat) : Nat := validUpToAux l.length l

/-- `std::str::from_utf8(l).is_ok()`: the whole sequence parses. -/
def utf8Valid (l : List Nat) : Bool := decide (validUpTo l = l.length)

/-- The loop plus final-carry flush of `read_chunks_from_path` /
`load_from_path`: each read is combined with the carry, the longest valid
UTF-8 prefix is emitted as a chunk (when non-empty), and the remainder is
carried into the next read; at end-of-input a leftover carry is emitted
verbatim when valid and through `String::from_utf8_lossy` (modelled by the
`lossy` oracle) otherwise.  `reads` is the sequence of non-empty `read`
results before EOF. -/
def loadChunks (lossy : List Nat → List Nat) :
    List (List Nat) → List Nat → List (List Nat)
  | [], carry =>
    if carry.isEmpty then []
    else if utf8Valid carry then [carry] else [lossy carry]
  | r :: rs, carry =>
    let combined := carry ++ r
    let v := validUpTo combined
    let rest := loadChunks lossy rs (combined.drop v)
    if 0 < v then combined.take v :: rest else rest

/-- `read_chunks_from_path`, starting from an empty carry. -/
def readChunksFromReads (lossy : List Nat → List Nat)
    (reads : List (List Nat)) : List (List Nat) :=
  loadChunks lossy reads []

/-! ### Claim C2: well-formedness of piece-tree states -/

/-- Well-formedness of a backing buffer: `line_starts` is non-empty, starts
at 0, is strictly increasing, and stays within the buffer. -/
def StringBuffer.Wf (sb : StringBuffer) : Prop :=
  sb.lineStarts ≠ [] ∧ sb.lineStarts.getD 0 0 = 0 ∧
  sb.lineStarts.Pairwise (· < ·) ∧
  ∀ x ∈ sb.lineStarts, x ≤ sb.buffer.length

/-- A canonical cursor of a buffer: its line exists, the denoted byte offset
lies before the next line start (so the cursor does not reach into the next
line), and on the last line it stays within the buffer. -/
def cursorWf (sb : StringBuffer) (c : BufferCursor) : Prop :=
  c.line < sb.lineStarts.length ∧
  (c.line + 1 < sb.lineStarts.length →
    sb.lineStarts.getD c.line 0 + c.column < sb.lineStarts.getD (c.line + 1) 0) ∧
  (c.line + 1 = sb.lineStarts.length →
    sb.lineStarts.getD c.line 0 + c.column ≤ sb.buffer.length)

/-- Well-formedness of a piece: its buffer exists, both cursors are
canonical, the spanned offsets are ordered, and the cached `length` and
`line_feed_cnt` equal the values recomputed from the cursors (exactly what
`piece_from_range` stores). -/
def pieceWf (t : PieceTree) (p : Piece) : Prop :=
  p.bufferIdx < t.buffers.length ∧
  cursorWf (t.buffers.getD p.bufferIdx emptyStringBuffer) p.start ∧
  cursorWf (t.buffers.getD p.bufferIdx emptyStringBuffer) p.stop ∧
  t.offsetInBuffer p.bufferIdx p.start ≤ t.offsetInBuffer p.bufferIdx p.stop ∧
  p.length = t.offsetInBuffer p.bufferIdx p.stop -
    t.offsetInBuffer p.bufferIdx p.start ∧
  p.lineFeedCnt = t.getLineFeedCnt p.bufferIdx p.start p.stop

/-- Well-formedness of an engine state: all buffers and pieces are
well-formed and the cached total length is the sum of the piece lengths. -/
def PieceTree.Wf (t : PieceTree) : Prop :=
  (∀ sb ∈ t.buffers, sb.Wf) ∧
  (∀ p ∈ t.pieces, pieceWf t p) ∧
  t.length = (t.pieces.map Piece.length).sum

/-- Piece-tree states reachable through the public constructors and editing
operations (`TextBuffer::from_chunks` builds the `StringBuffer`s with
`StringBuffer::new`). -/
inductive PTReach : PieceTree → Prop where
  | new (texts : List (List Nat)) :
      PTReach (PieceTree.new (texts.map StringBuffer.new))
  | insert {t : PieceTree} (offset : Nat) (value : List Nat) :
      PTReach t → PTReach (t.insert offset value)
  | delete {t : PieceTree} (offset cnt : Nat) :
      PTReach t → PTReach (t.delete offset cnt)

/-- The descent of `get_offset_at` lands in some piece (rather than running
off the end of the sequence). -/
def walkHits : List Piece → Nat → Prop
  | [], _ => False
  | p :: ps, n => n ≤ p.lineFeedCnt + 1 ∨ walkHits ps (n - p.lineFeedCnt)

/-! ## Claim-specific states -/

/-- A grapheme-boundary oracle matching `unicode_segmentation` on every
position the C6 scenario queries: positions carrying an ASCII byte (or past
the end) are boundaries, and positions strictly inside the 32-byte emoji ZWJ
cluster below are not (UAX #29 rule GB11 joins the whole
pictographic-ZWJ chain into one extended grapheme cluster). -/
def gbDemo (text : List Nat) (pos : Nat) : Bool :=
  text.getD pos 0 < 0x80

/-- The UTF-8 bytes of ZWJ (U+200D) followed by BOY (U+1F466). -/
def zwjBoy : List Nat := [226, 128, 141, 240, 159, 145, 166]

/-- A 32-byte single extended grapheme cluster:
MAN (U+1F468) joined by four ZWJ+BOY pairs. -/
def clusterG : List Nat := [240, 159, 145, 168] ++ zwjBoy ++ zwjBoy ++ zwjBoy ++ zwjBoy

/-- A 256-byte document: 120 `a`s, the 32-byte cluster, 104 `b`s.
`split_text_to_leaves` aims for two 128-byte chunks, but the split position
128 lies inside the cluster and is pushed to 152, so the first leaf holds
152 bytes — more than `MAX_CHUNK_SIZE`. -/
def demoText : List Nat :=
  List.replicate 120 97 ++ clusterG ++ List.replicate 104 98

/-- The rope holding `demoText` after `delete(152..256)`: the oversized
152-byte first leaf becomes the root. -/
def c6Rope : Rope := (Rope.fromText gbDemo demoText).delete gbDemo 152 256

/-- `c6Rope` after deleting the empty range `0..0`. -/
def c6RopeAfter : Rope := c6Rope.delete gbDemo 0 0

/-- The two-operation sequence `insert(0, "a\rX\nb"); delete(2, 1)` (bytes:
97 = `a`, 13 = `\r`, 88 = `X`, 10 = `\n`, 98 = `b`).  The delete removes the
`X`, re-joining the `\r` and the `\n` across a piece boundary. -/
def c1State : PieceTree :=
  ((PieceTree.new []).insert 0 [97, 13, 88, 10, 98]).delete 2 1

/-- Claim C1: for any sequence of inserts and deletes, `get_length()` equals
the byte length of `get_text()` and `get_line_count()` equals one plus the
number of line breaks of `get_text()` (CR, LF, CRLF each counted once).
This fails on the code: after `insert(0, "a\rX\nb"); delete(2, 1)` the
document is `"a\r\nb"` with one line break (the CRLF), yet the engine
reports a line count of 3, because the piece ending in `\r` and the piece
beginning with `\n` each contribute one line feed
(`get_line_feed_cnt`'s CRLF rule and the following piece's line delta double
count the re-joined pair).  The length half does hold at this input. -/
theorem c1_lineCount_breaks :
    c1State.getText = [97, 13, 10, 98] ∧
    c1State.lineCount = 3 ∧
    numberOfLineBreaks c1State.getText = 1 ∧
    c1State.lineCount ≠ 1 + numberOfLineBreaks c1State.getText ∧
    c1State.length = c1State.getText.length := by
  decide

/-! ### Claim C3 -/

/-- A reachable state whose document `"ab\r\ncd"` contains a CRLF pair at
byte offsets 2–3: `insert(0, "ab\rcd"); delete(3, 2); insert(3, "\ncd")`.
The tail delete leaves a piece ending at a line boundary of its backing
buffer whose preceding buffer byte is a lone `\r`. -/
def c3Pre : PieceTree :=
  ((((PieceTree.new []).insert 0 [97, 98, 13, 99, 100]).delete 3 2).insert 3
    [10, 99, 100])

/-- `c3Pre` after one more edit, `insert(6, "z")`, at the document end —
a position not between the `\r` at offset 2 and the `\n` at offset 3. -/
def c3Post : PieceTree :=
  c3Pre.insert 6 [122]

/-- Claim C3: after an insert or delete at a position not between the `\r`
and `\n` of a document CRLF pair, `get_lines_content()` never reports that
CR and that LF as terminating different lines.  This fails on the code:
`c3Pre`'s document `"ab\r\ncd"` contains the CRLF pair at offsets 2–3, and
after inserting `"z"` at offset 6 the document is `"ab\r\ncdz"` with exactly
one line break (so its lines are `["ab", "cdz"]`), yet `get_lines_content()`
returns three lines `["", "", "cdz"]`: the CR terminates the first reported
line and the LF terminates the second (the first line's content `"ab"` is
also lost).  The `end.column == 0` branch of the traversal pops the
previously emitted line and sets the dangling-CR flag even though the piece
boundary sits after a lone `\r` of the backing buffer. -/
theorem c3_crlf_split_lines :
    c3Pre.getText = [97, 98, 13, 10, 99, 100] ∧
    c3Post.getText = [97, 98, 13, 10, 99, 100, 122] ∧
    numberOfLineBreaks c3Post.getText = 1 ∧
    c3Post.getLinesContent = [[], [], [99, 100, 122]] ∧
    c3Post.getLinesContent.length ≠ 1 + numberOfLineBreaks c3Post.getText := by
  decide

/-! ### Claim C6 -/

/-- Claim C6: out-of-bounds and degenerate edits are clamped and never fail;
in particular an empty-range delete leaves the document bit-identical in
both engines.  The rope engine violates the empty-range conjunct: `c6Rope`
is reachable (build from `demoText`, whose 32-byte grapheme cluster forces a
152-byte leaf, then delete the tail `152..256`, making that oversized leaf
the root), and deleting the empty range `0..0` re-splits the leaf into two
75/76-byte leaves of which `truncate_root` keeps only the first — half the
document disappears.  `Leaf::delete` re-splits unconditionally and
`truncate_root` returns only the first node of the top-level list. -/
theorem c6_empty_delete_loses_content :
    c6Rope.collectLeaves.length = 152 ∧
    c6RopeAfter.collectLeaves.length = 76 ∧
    c6RopeAfter.collectLeaves ≠ c6Rope.collectLeaves := by
  decide

/-! ### Claim C4 -/

/-- Claim C4: `get_line_feed_cnt(buffer, s, e)` returns `e.line - s.line`,
except that it returns `e.line - s.line + 1` exactly when `e.column ≠ 0`,
`e.line` is not the last indexed line, `line_starts[e.line + 1]` equals
`offset(e) + 1` (i.e. the byte at `offset(e)` is `\n`) and the byte
immediately before `offset(e)` is `\r`.  The hypotheses say that `e` is a
cursor of the buffer: its line index is in range and its column does not
run past the start of the following line. -/
theorem getLineFeedCnt_characterization (t : PieceTree) (bufferIdx : Nat)
    (s e : BufferCursor)
    (hline : e.line < (t.buffers.getD bufferIdx emptyStringBuffer).lineStarts.length)
    (hcol : e.line + 1 < (t.buffers.getD bufferIdx emptyStringBuffer).lineStarts.length →
      (t.buffers.getD bufferIdx emptyStringBuffer).lineStarts.getD e.line 0 + e.column <
        (t.buffers.getD bufferIdx emptyStringBuffer).lineStarts.getD (e.line + 1) 0 ∨
      e.column = 0) :
    t.getLineFeedCnt bufferIdx s e =
      if e.column ≠ 0 ∧
          e.line + 1 < (t.buffers.getD bufferIdx emptyStringBuffer).lineStarts.length ∧
          (t.buffers.getD bufferIdx emptyStringBuffer).lineStarts.getD (e.line + 1) 0 =
            ((t.buffers.getD bufferIdx emptyStringBuffer).lineStarts.getD e.line 0 +
              e.column) + 1 ∧
          (t.buffers.getD bufferIdx emptyStringBuffer).buffer.getD
            (((t.buffers.getD bufferIdx emptyStringBuffer).lineStarts.getD e.line 0 +
              e.column) - 1) 0 = 13 then
        e.line - s.line + 1
      else e.line - s.line := by
  set sb := t.buffers.getD bufferIdx emptyStringBuffer with hsb
  unfold PieceTree.getLineFeedCnt
  rw [← hsb]
  by_cases hc0 : e.column = 0
  · simp only [hc0, if_pos rfl]
    simp
  · rw [if_neg hc0]
    by_cases hlast : e.line = sb.lineStarts.length - 1
    · rw [if_pos hlast]
      have h2 : ¬ e.line + 1 < sb.lineStarts.length := by omega
      simp only [hc0, h2]
      simp
    · rw [if_neg hlast]
      have h2 : e.line + 1 < sb.lineStarts.length := by omega
      rcases hcol h2 with hlt | hc0'
      · by_cases hgap : sb.lineStarts.getD e.line 0 + e.column + 1 <
            sb.lineStarts.getD (e.line + 1) 0
        · rw [if_pos hgap]
          have hne : ¬ (sb.lineStarts.getD (e.line + 1) 0 =
              sb.lineStarts.getD e.line 0 + e.column + 1) := by omega
          simp only [hc0, h2, hne]
          simp
        · rw [if_neg hgap]
          have heq : sb.lineStarts.getD (e.line + 1) 0 =
              sb.lineStarts.getD e.line 0 + e.column + 1 := by omega
          have hpos : 0 < sb.lineStarts.getD e.line 0 + e.column := by
            have : 0 < e.column := Nat.pos_of_ne_zero hc0
            omega
          by_cases hcr : sb.buffer.getD (sb.lineStarts.getD e.line 0 + e.column - 1) 0 = 13
          · rw [if_pos ⟨hpos, hcr⟩]
            have : (e.column ≠ 0 ∧ e.line + 1 < sb.lineStarts.length ∧
                sb.lineStarts.getD (e.line + 1) 0 =
                  sb.lineStarts.getD e.line 0 + e.column + 1 ∧
                sb.buffer.getD (sb.lineStarts.getD e.line 0 + e.column - 1) 0 = 13) := by
              exact ⟨hc0, h2, heq, hcr⟩
            rw [if_pos this]
          · have : ¬ (0 < sb.lineStarts.getD e.line 0 + e.column ∧
                sb.buffer.getD (sb.lineStarts.getD e.line 0 + e.column - 1) 0 = 13) := by
              intro h; exact hcr h.2
            rw [if_neg this]
            have hnall : ¬ (e.column ≠ 0 ∧ e.line + 1 < sb.lineStarts.length ∧
                sb.lineStarts.getD (e.line + 1) 0 =
                  sb.lineStarts.getD e.line 0 + e.column + 1 ∧
                sb.buffer.getD (sb.lineStarts.getD e.line 0 + e.column - 1) 0 = 13) := by
              intro h; exact hcr h.2.2.2
            rw [if_neg hnall]
      · exact absurd hc0' hc0

/-- Witness for `getLineFeedCnt_characterization`: the buffer `"a\r\nb"`
(line starts `[0, 3]`) with `s = (0,0)` and `e = (0,2)` satisfies the
hypotheses, and the characterization gives the CRLF case, value 1. -/
theorem getLineFeedCnt_characterization_witness :
    (⟨0, 2⟩ : BufferCursor).line <
      ((PieceTree.new [StringBuffer.new [97, 13, 10, 98]]).buffers.getD 1
        emptyStringBuffer).lineStarts.length ∧
    (PieceTree.new [StringBuffer.new [97, 13, 10, 98]]).getLineFeedCnt 1
      ⟨0, 0⟩ ⟨0, 2⟩ = 1 := by
  refine ⟨by decide, ?_⟩
  have h := getLineFeedCnt_characterization
    (PieceTree.new [StringBuffer.new [97, 13, 10, 98]]) 1 ⟨0, 0⟩ ⟨0, 2⟩
    (by decide) (by decide)
  rw [h]
  decide

/-! ### Claim C8 -/

theorem findNl_some_lt {l : List Nat} {i : Nat} (h : findNl l = some i) :
    i < l.length := by
  induction l generalizing i with
  | nil => simp [findNl] at h
  | cons b rest ih =>
    by_cases hb : b = 10
    · simp [findNl, hb] at h
      simp
      omega
    · simp [findNl, hb] at h
      rcases h with ⟨k, hk, rfl⟩
      have := ih hk
      simp
      omega

theorem findNl_append_some {a b : List Nat} {i : Nat} (ha : findNl a = some i) :
    findNl (a ++ b) = some i := by
  induction a generalizing i with
  | nil => simp [findNl] at ha
  | cons x rest ih =>
    by_cases hx : x = 10
    · simp [findNl, hx] at ha ⊢
      exact ha
    · simp [findNl, hx] at ha ⊢
      rcases ha with ⟨k, hk, rfl⟩
      exact ⟨k, ih hk, rfl⟩

theorem findNl_append_none_none {a b : List Nat} (ha : findNl a = none)
    (hb : findNl b = none) : findNl (a ++ b) = none := by
  induction a with
  | nil => simpa using hb
  | cons x rest ih =>
    by_cases hx : x = 10
    · simp [findNl, hx] at ha
    · simp [findNl, hx] at ha ⊢
      exact ih ha

theorem findNl_append_none_some {a b : List Nat} {i : Nat}
    (ha : findNl a = none) (hb : findNl b = some i) :
    findNl (a ++ b) = some (a.length + i) := by
  induction a with
  | nil => simpa using hb
  | cons x rest ih =>
    by_cases hx : x = 10
    · simp [findNl, hx] at ha
    · simp [findNl, hx] at ha ⊢
      refine ⟨rest.length + i, ih ha, by omega⟩

theorem linesSpec_of_some {l : List Nat} {i : Nat} (h : findNl l = some i) :
    linesSpec l = l.take i :: linesSpec (l.drop (i + 1)) := by
  rw [linesSpec]
  split
  · rename_i j hj
    rw [h] at hj
    cases hj
    rfl
  · rename_i hj
    rw [h] at hj
    cases hj

theorem linesSpec_of_none {l : List Nat} (h : findNl l = none) :
    linesSpec l = if l = [] then [] else [l] := by
  rw [linesSpec]
  split
  · rename_i j hj
    rw [h] at hj
    cases hj
  · rfl

theorem lineLoop_of_some {buffer suffix : List Nat} {chunks : List (List Nat)}
    {i : Nat} (h : findNl suffix = some i) :
    lineLoop buffer suffix chunks =
      (buffer ++ suffix.take i) :: lineLoop [] (suffix.drop (i + 1)) chunks := by
  cases chunks with
  | nil =>
    rw [lineLoop.eq_1]
    split
    · rename_i j hj
      rw [h] at hj
      cases hj
      rfl
    · rename_i hj
      rw [h] at hj
      cases hj
  | cons c cs =>
    rw [lineLoop.eq_2]
    split
    · rename_i j hj
      rw [h] at hj
      cases hj
      rfl
    · rename_i hj
      rw [h] at hj
      cases hj

theorem lineLoop_of_none_nil {buffer suffix : List Nat}
    (h : findNl suffix = none) :
    lineLoop buffer suffix [] =
      if buffer ++ suffix = [] then [] else [buffer ++ suffix] := by
  rw [lineLoop.eq_1]
  split
  · rename_i j hj
    rw [h] at hj
    cases hj
  · rfl

theorem lineLoop_of_none_cons {buffer suffix c : List Nat}
    {cs : List (List Nat)} (h : findNl suffix = none) :
    lineLoop buffer suffix (c :: cs) = lineLoop (buffer ++ suffix) c cs := by
  rw [lineLoop.eq_2]
  split
  · rename_i j hj
    rw [h] at hj
    cases hj
  · rfl

/-- The iterator state `(buffer, suffix, chunks)` with a newline-free pending
buffer produces exactly the specified lines of the remaining input. -/
theorem lineLoop_eq_linesSpec (cs : List (List Nat)) :
    ∀ n s buffer, s.length ≤ n → findNl buffer = none →
      lineLoop buffer s cs = linesSpec (buffer ++ (s ++ cs.flatten)) := by
  induction cs with
  | nil =>
    intro n
    induction n with
    | zero =>
      intro s buffer hs hbuf
      have hsnil : s = [] := List.eq_nil_of_length_eq_zero (Nat.le_zero.mp hs)
      subst hsnil
      rw [lineLoop_of_none_nil (by rfl)]
      rw [linesSpec_of_none (by simpa using hbuf)]
      simp
    | succ n ihn =>
      intro s buffer hs hbuf
      cases hfs : findNl s with
      | none =>
        rw [lineLoop_of_none_nil hfs]
        rw [linesSpec_of_none (by simpa using findNl_append_none_none hbuf hfs)]
        simp
      | some i =>
        have hi : i < s.length := findNl_some_lt hfs
        rw [lineLoop_of_some hfs]
        rw [@linesSpec_of_some (buffer ++ (s ++ List.flatten [])) _
          (by simpa using findNl_append_none_some hbuf hfs)]
        have htake : (buffer ++ (s ++ List.flatten [])).take (buffer.length + i) =
            buffer ++ s.take i := by
          simp
          exact @List.take_append _ buffer s i
        have hdrop : (buffer ++ (s ++ List.flatten [])).drop (buffer.length + i + 1) =
            s.drop (i + 1) := by
          simp [Nat.add_assoc]
        rw [htake, hdrop]
        have hrec := ihn (s.drop (i + 1)) [] (by simp; omega) rfl
        simpa using hrec
  | cons c cs' ihc =>
    intro n
    induction n with
    | zero =>
      intro s buffer hs hbuf
      have hsnil : s = [] := List.eq_nil_of_length_eq_zero (Nat.le_zero.mp hs)
      subst hsnil
      rw [lineLoop_of_none_cons (by rfl)]
      have := ihc c.length c (buffer ++ []) le_rfl (by simpa using hbuf)
      simpa using this
    | succ n ihn =>
      intro s buffer hs hbuf
      cases hfs : findNl s with
      | none =>
        rw [lineLoop_of_none_cons hfs]
        have := ihc c.length c (buffer ++ s) le_rfl
          (findNl_append_none_none hbuf hfs)
        simpa using this
      | some i =>
        have hi : i < s.length := findNl_some_lt hfs
        rw [lineLoop_of_some hfs]
        rw [@linesSpec_of_some (buffer ++ (s ++ (c :: cs').flatten)) _
          (by
            have hcat : findNl (s ++ (c :: cs').flatten) = some i :=
              findNl_append_some hfs
            simpa using findNl_append_none_some hbuf hcat)]
        have htake : (buffer ++ (s ++ (c :: cs').flatten)).take (buffer.length + i) =
            buffer ++ s.take i := by
          rw [List.take_append]
          congr 1
          exact List.take_append_of_le_length (by omega)
        have hdrop : (buffer ++ (s ++ (c :: cs').flatten)).drop (buffer.length + i + 1) =
            s.drop (i + 1) ++ (c :: cs').flatten := by
          rw [Nat.add_assoc]
          rw [@List.drop_append _ buffer (s ++ (c :: cs').flatten) (i + 1)]
          exact List.drop_append_of_le_length (by omega)
        rw [htake, hdrop]
        have hrec := ihn (s.drop (i + 1)) [] (by simp; omega) rfl
        simpa using hrec

/-- Claim C8: the rope's line iterator yields, in order, the maximal
substrings of the rope's content delimited by `\n` bytes (each emitted line
excludes the `\n`); after the last `\n` it emits the trailing remainder iff
that remainder is non-empty, so content ending in `\n` produces no final
empty line.  `linesSpec` is that description; the theorem holds for every
rope value. -/
theorem lines_eq_linesSpec (r : Rope) :
    r.lines = linesSpec r.collectLeaves := by
  have := lineLoop_eq_linesSpec r.node.chunks r.node.chunks.flatten.length
    [] [] (by simp) rfl
  simpa [Rope.lines, Rope.collectLeaves] using this

/-! ### Claims C7 and C10: rope structural invariants -/

theorem nodeWf_newLeaf : NodeWf Node.newLeaf := NodeWf.leaf []

theorem nodeWf_mkLeaf (c : List Nat) : NodeWf (mkLeaf c) := NodeWf.leaf c

theorem height_mkLeaf (c : List Nat) : (mkLeaf c).height = 1 := rfl

theorem nodeWf_height_pos {n : Node} (h : NodeWf n) : 1 ≤ n.height := by
  cases h with
  | leaf c => simp [Node.height]
  | branch nl hh len keys cs hne hwf hhh hkeys hlen hnl =>
    rcases List.exists_mem_of_ne_nil cs hne with ⟨c, hc⟩
    have := hhh c hc
    simp [Node.height]
    omega

theorem splitLoop_wf (gb : List Nat → Nat → Bool) (text : List Nat)
    (chunkSize : Nat) :
    ∀ fuel start, ∀ n ∈ splitLoop gb text chunkSize start fuel,
      NodeWf n ∧ n.height = 1 := by
  intro fuel
  induction fuel with
  | zero => intro start n hn; simp [splitLoop] at hn
  | succ fuel ih =>
    intro start n hn
    rw [splitLoop] at hn
    split at hn
    · simp at hn
    · simp at hn
      rcases hn with hn | hn
      · subst hn
        exact ⟨nodeWf_mkLeaf _, rfl⟩
      · exact ih _ n hn

theorem splitTextToLeaves_wf (gb : List Nat → Nat → Bool) (text : List Nat) :
    ∀ n ∈ splitTextToLeaves gb text, NodeWf n ∧ n.height = 1 := by
  intro n hn
  rw [splitTextToLeaves] at hn
  split at hn
  · simp at hn
  · exact splitLoop_wf gb text _ _ _ n hn

theorem prefixKeys_length : ∀ (l : List Node) (acc : Nat),
    (prefixKeys l acc).length = l.length - 1 := by
  intro l
  induction l with
  | nil => intro acc; simp [prefixKeys]
  | cons c rest ih =>
    intro acc
    cases rest with
    | nil => simp [prefixKeys]
    | cons d ds =>
      have hstep : prefixKeys (c :: d :: ds) acc =
          (acc + c.len) :: prefixKeys (d :: ds) (acc + c.len) := rfl
      rw [hstep]
      have := ih (acc + c.len)
      simp at this ⊢
      omega

theorem groupChildren_mem : ∀ (fuel cap : Nat) (l g : List Node),
    g ∈ groupChildren cap fuel l → (∀ x ∈ g, x ∈ l) ∧ (1 ≤ cap → g ≠ []) := by
  intro fuel
  induction fuel with
  | zero => intro cap l g hg; simp [groupChildren] at hg
  | succ fuel ih =>
    intro cap l g hg
    cases l with
    | nil => simp [groupChildren] at hg
    | cons x xs =>
      have hstep : groupChildren cap (fuel + 1) (x :: xs) =
          (x :: xs).take cap :: groupChildren cap fuel ((x :: xs).drop cap) := rfl
      rw [hstep] at hg
      simp at hg
      rcases hg with hg | hg
      · subst hg
        constructor
        · intro y hy; exact List.take_subset _ _ hy
        · intro hcap hg0
          cases cap with
          | zero => omega
          | succ k => simp at hg0
      · have := ih cap ((x :: xs).drop cap) g hg
        exact ⟨fun y hy => List.drop_subset _ _ (this.1 y hy), this.2⟩

theorem createParentBranches_wf (hgt : Nat) (cs : List Node)
    (hwf : ∀ c ∈ cs, NodeWf c) (hh : ∀ c ∈ cs, c.height = hgt) :
    ∀ p ∈ createParentBranches cs, NodeWf p ∧ p.height = hgt + 1 := by
  intro p hp
  rw [createParentBranches] at hp
  split at hp
  · simp at hp
  · rename_i hne
    have hlne : cs ≠ [] := by
      intro hc; rw [hc] at hne; simp at hne
    obtain ⟨c0, cs', rfl⟩ : ∃ c0 cs', cs = c0 :: cs' := by
      cases cs with
      | nil => exact absurd rfl hlne
      | cons a b => exact ⟨a, b, rfl⟩
    simp only [List.mem_map] at hp
    rcases hp with ⟨g, hg, hpg⟩
    have hnp : 1 ≤ ((c0 :: cs').length + TREE_ORDER - 1) / TREE_ORDER := by
      rw [Nat.le_div_iff_mul_le (by simp [TREE_ORDER] : 0 < TREE_ORDER)]
      simp [TREE_ORDER]
    have hcap : 1 ≤ ((c0 :: cs').length + (((c0 :: cs').length + TREE_ORDER - 1) /
        TREE_ORDER) - 1) / (((c0 :: cs').length + TREE_ORDER - 1) / TREE_ORDER) := by
      rw [Nat.le_div_iff_mul_le (by omega :
        0 < ((c0 :: cs').length + TREE_ORDER - 1) / TREE_ORDER)]
      have hl1 : 1 ≤ (c0 :: cs').length := by simp
      omega
    have hmem := groupChildren_mem (c0 :: cs').length _ (c0 :: cs') g hg
    have hgs : ∀ x ∈ g, x ∈ c0 :: cs' := hmem.1
    have hgne : g ≠ [] := hmem.2 hcap
    have hhead : c0.height = hgt := hh c0 (by simp)
    subst hpg
    constructor
    · refine NodeWf.branch _ _ _ _ _ hgne
        (fun c hc => hwf c (hgs c hc))
        (fun c hc => by
          rw [hh c (hgs c hc)]
          show hgt + 1 = c0.height + 1
          rw [hhead])
        ?_ rfl rfl
      have := prefixKeys_length g 0
      have hg1 : 1 ≤ g.length := by
        cases g with
        | nil => exact absurd rfl hgne
        | cons _ _ => simp
      omega
    · show ((c0 :: cs').headD Node.newLeaf).height + 1 = hgt + 1
      show c0.height + 1 = hgt + 1
      rw [hhead]

theorem createRootAux_wf : ∀ (fuel : Nat) (l : List Node) (hgt : Nat),
    (∀ n ∈ l, NodeWf n) → (∀ n ∈ l, n.height = hgt) →
    ∀ n ∈ createRootAux fuel l, NodeWf n := by
  intro fuel
  induction fuel with
  | zero => intro l hgt hwf _ n hn; exact hwf n hn
  | succ fuel ih =>
    intro l hgt hwf hh n hn
    rw [createRootAux] at hn
    split at hn
    · exact hwf n hn
    · exact ih (createParentBranches l) (hgt + 1)
        (fun m hm => (createParentBranches_wf hgt l hwf hh m hm).1)
        (fun m hm => (createParentBranches_wf hgt l hwf hh m hm).2) n hn

theorem createRoot_wf {l : List Node} {hgt : Nat}
    (hwf : ∀ n ∈ l, NodeWf n) (hh : ∀ n ∈ l, n.height = hgt) :
    NodeWf (createRoot l) := by
  rw [createRoot]
  have hall := createRootAux_wf l.length l hgt hwf hh
  cases hres : createRootAux l.length l with
  | nil => exact nodeWf_newLeaf
  | cons a rest =>
    have := hall a (by rw [hres]; simp)
    simpa using this

theorem nodeWf_children {n : Node} (h : NodeWf n) :
    ∀ c ∈ n.children, NodeWf c := by
  cases h with
  | leaf c => simp [Node.children]
  | branch nl hh len keys cs hne hwf hhh hkeys hlen hnl =>
    simpa [Node.children] using hwf

theorem truncateRootAux_wf : ∀ (fuel : Nat) (l : List Node),
    (∀ n ∈ l, NodeWf n) → NodeWf (truncateRootAux fuel l) := by
  intro fuel
  induction fuel with
  | zero => intro l _; exact nodeWf_newLeaf
  | succ fuel ih =>
    intro l hwf
    cases l with
    | nil => exact nodeWf_newLeaf
    | cons root rest =>
      rw [truncateRootAux]
      split
      · exact hwf root (by simp)
      · split
        · exact hwf root (by simp)
        · exact ih root.children (nodeWf_children (hwf root (by simp)))

theorem truncateRoot_wf {l : List Node} (hwf : ∀ n ∈ l, NodeWf n) :
    NodeWf (truncateRoot l) :=
  truncateRootAux_wf _ l hwf

theorem leafInsert_wf (gb : List Nat → Nat → Bool) (chunk : List Nat)
    (index : Nat) (text : List Nat) :
    ∀ n ∈ leafInsert gb chunk index text, NodeWf n ∧ n.height = 1 := by
  intro n hn
  rw [leafInsert] at hn
  split at hn
  · simp at hn
    subst hn
    exact ⟨nodeWf_mkLeaf _, rfl⟩
  · exact splitTextToLeaves_wf gb _ n hn

theorem leafDelete_wf (gb : List Nat → Nat → Bool) (chunk : List Nat)
    (lo hi : Nat) :
    ∀ n ∈ leafDelete gb chunk lo hi, NodeWf n ∧ n.height = 1 := by
  intro n hn
  exact splitTextToLeaves_wf gb _ n hn

/-- The `left < right` loop invariant of the standard-library binary search:
an equal hit lies inside `[left, right)` and an insertion point inside
`[left, right]` (for any fuel). -/
theorem binarySearch_bounds : ∀ (fuel : Nat) (keys : List Nat)
    (target left right : Nat), left ≤ right →
    (((binarySearch keys target left right fuel).1 = true →
        left ≤ (binarySearch keys target left right fuel).2 ∧
        (binarySearch keys target left right fuel).2 < right) ∧
      ((binarySearch keys target left right fuel).1 = false →
        left ≤ (binarySearch keys target left right fuel).2 ∧
        (binarySearch keys target left right fuel).2 ≤ right)) := by
  intro fuel
  induction fuel with
  | zero =>
    intro keys target left right hlr
    simp [binarySearch]
    omega
  | succ fuel ih =>
    intro keys target left right hlr
    rw [binarySearch]
    split
    · rename_i hlt
      dsimp only
      set mid := left + (right - left) / 2 with hmid
      have hmb : left ≤ mid ∧ mid < right := by
        rw [hmid]
        omega
      split
      · have := ih keys target (mid + 1) right (by omega)
        constructor
        · intro ht; have := this.1 ht; omega
        · intro hf; have := this.2 hf; omega
      · split
        · have := ih keys target left mid (by omega)
          constructor
          · intro ht; have := this.1 ht; omega
          · intro hf; have := this.2 hf; omega
        · simp
          omega
    · simp
      omega

theorem searchChildIdx_le (keys : List Nat) (index : Nat) :
    searchChildIdx keys index ≤ keys.length := by
  rw [searchChildIdx]
  have hb := binarySearch_bounds (keys.length + 2) keys index 0 keys.length
    (by omega)
  cases hres : binarySearch keys index 0 keys.length (keys.length + 2) with
  | mk found pos =>
    rw [hres] at hb
    cases found
    · have := hb.2 rfl
      simpa using this.2
    · have := hb.1 rfl
      simp at this
      simp
      omega

theorem findChildByIndex_le (keys : List Nat) (index : Nat) :
    (findChildByIndex keys index).1 ≤ keys.length := by
  rw [findChildByIndex]
  have hb := binarySearch_bounds (keys.length + 2) keys index 0 keys.length
    (by omega)
  cases hres : binarySearch keys index 0 keys.length (keys.length + 2) with
  | mk found pos =>
    rw [hres] at hb
    cases found
    · have := hb.2 rfl
      simpa using this.2
    · have := hb.1 rfl
      simp at this
      simp
      omega

theorem getD_mem_of_lt {l : List Node} {i : Nat} (h : i < l.length) (d : Node) :
    l.getD i d ∈ l := by
  rw [List.getD_eq_getElem l d h]
  exact List.getElem_mem h

theorem nodeWf_children_height {n : Node} (h : NodeWf n) :
    ∀ c ∈ n.children, c.height + 1 = n.height := by
  cases h with
  | leaf c => simp [Node.children]
  | branch nl hh len keys cs hne hwf hhh hkeys hlen hnl =>
    simpa [Node.children, Node.height] using hhh

theorem insertRecAux_wf (gb : List Nat → Nat → Bool) :
    ∀ (fuel : Nat) (n : Node) (index : Nat) (text : List Nat), NodeWf n →
      ∀ m ∈ insertRecAux gb fuel n index text, NodeWf m ∧ m.height = n.height := by
  intro fuel
  induction fuel with
  | zero => intro n index text _ m hm; simp [insertRecAux] at hm
  | succ fuel ih =>
    intro n index text hn m hm
    cases n with
    | leaf nl chunk =>
      rw [insertRecAux] at hm
      cases hn
      exact ⟨(leafInsert_wf gb chunk index text m hm).1,
        (leafInsert_wf gb chunk index text m hm).2⟩
    | branch nl h len keys cs =>
      rw [insertRecAux] at hm
      cases hn with
      | branch _ _ _ _ _ hne hwf hhh hkeys hlen hnl =>
        have hidx : (findChildByIndex keys index).1 < cs.length := by
          have := findChildByIndex_le keys index
          omega
        have hchild : cs.getD (findChildByIndex keys index).1 Node.newLeaf ∈ cs :=
          getD_mem_of_lt hidx Node.newLeaf
        have hcwf := hwf _ hchild
        have hch := hhh _ hchild
        have hsplice : ∀ x ∈ cs.take (findChildByIndex keys index).1 ++
            insertRecAux gb fuel (cs.getD (findChildByIndex keys index).1 Node.newLeaf)
              (findChildByIndex keys index).2 text ++
            cs.drop ((findChildByIndex keys index).1 + 1),
            NodeWf x ∧ x.height =
              (cs.getD (findChildByIndex keys index).1 Node.newLeaf).height := by
          intro x hx
          simp only [List.mem_append] at hx
          rcases hx with (hx | hx) | hx
          · have hxc := List.take_subset _ _ hx
            refine ⟨hwf x hxc, ?_⟩
            have := hhh x hxc
            omega
          · exact ih _ _ text hcwf x hx
          · have hxc := List.drop_subset _ _ hx
            refine ⟨hwf x hxc, ?_⟩
            have := hhh x hxc
            omega
        have := createParentBranches_wf
          (cs.getD (findChildByIndex keys index).1 Node.newLeaf).height _
          (fun x hx => (hsplice x hx).1) (fun x hx => (hsplice x hx).2) m hm
        refine ⟨this.1, ?_⟩
        rw [this.2]
        simpa [Node.height] using hch

theorem fcbrLoop_mem (keys : List Nat) (length start stop : Nat) :
    ∀ (is : List Nat) (off : Nat) (t : Nat × Nat × Nat),
      t ∈ fcbrLoop keys length start stop is off → t.1 ∈ is := by
  intro is
  induction is with
  | nil => intro off t ht; simp [fcbrLoop] at ht
  | cons i rest ih =>
    intro off t ht
    rw [fcbrLoop] at ht
    generalize (if i < keys.length then keys.getD i 0 else length) = ce at ht
    split at ht
    · rcases List.mem_cons.mp ht with ht | ht
      · subst ht
        simp
      · have := ih _ t ht
        simp [this]
    · have := ih _ t ht
      simp [this]

theorem fcbr_arith_notFound (keys : List Nat) (lo cnt k pos t1 : Nat)
    (hcnt : keys.length + 1 = cnt)
    (hk : k < min pos (cnt - 1) + 1 - searchChildIdx keys lo)
    (hkt : k + searchChildIdx keys lo = t1) : t1 < cnt := by
  have hmin : min pos (cnt - 1) ≤ cnt - 1 := min_le_right _ _
  omega

theorem fcbr_arith_found (keys : List Nat) (lo cnt k pos t1 : Nat)
    (hcnt : keys.length + 1 = cnt)
    (hk : k < pos + 1 + 1 - searchChildIdx keys lo)
    (hkt : k + searchChildIdx keys lo = t1)
    (hp : pos < keys.length) : t1 < cnt := by
  omega

theorem findChildrenByRange_mem_lt (keys : List Nat) (len cnt lo hi : Nat)
    (hcnt : keys.length + 1 = cnt) :
    ∀ t ∈ findChildrenByRange keys len cnt lo hi, t.1 < cnt := by
  intro t ht
  rw [findChildrenByRange] at ht
  split at ht
  · simp at ht
  · dsimp only at ht
    have hb := binarySearch_bounds (keys.length + 2) keys hi 0 keys.length
      (by omega)
    have hmem := fcbrLoop_mem keys len lo hi _ _ t ht
    simp only [List.mem_map, List.mem_range] at hmem
    rcases hmem with ⟨k, hk, hkt⟩
    cases hres : binarySearch keys hi 0 keys.length (keys.length + 2) with
    | mk found pos =>
      rw [hres] at hk hb
      dsimp only at hb
      cases found
      · dsimp only at hk
        exact fcbr_arith_notFound keys lo cnt k pos t.1 hcnt hk hkt
      · have hp := hb.1 rfl
        dsimp only at hk
        exact fcbr_arith_found keys lo cnt k pos t.1 hcnt hk hkt hp.2

theorem headD_mem_self {α : Type} (l : List α) (d : α) (h : l ≠ []) :
    l.headD d ∈ l := by
  cases l with
  | nil => exact absurd rfl h
  | cons a as => simp

theorem nodeWf_branch_height {n : Node} (h : NodeWf n) (hl : n.isLeaf = false) :
    2 ≤ n.height := by
  cases h with
  | leaf c => simp [Node.isLeaf] at hl
  | branch nl hh len keys cs hne hwf hhh hkeys hlen hnl =>
    rcases List.exists_mem_of_ne_nil cs hne with ⟨c, hc⟩
    have h1 := nodeWf_height_pos (hwf c hc)
    have h2 := hhh c hc
    simp only [Node.height]
    omega

theorem deleteRecAux_wf (gb : List Nat → Nat → Bool) :
    ∀ (fuel : Nat) (n : Node) (lo hi : Nat), NodeWf n →
      ∀ m ∈ deleteRecAux gb fuel n lo hi, NodeWf m ∧ m.height = n.height := by
  intro fuel
  induction fuel with
  | zero => intro n lo hi _ m hm; simp [deleteRecAux] at hm
  | succ fuel ih =>
    intro n lo hi hn m hm
    cases n with
    | leaf nl chunk =>
      rw [deleteRecAux] at hm
      cases hn
      exact ⟨(leafDelete_wf gb chunk lo hi m hm).1,
        (leafDelete_wf gb chunk lo hi m hm).2⟩
    | branch nl h len keys cs =>
      rw [deleteRecAux] at hm
      cases hn with
      | branch _ _ _ _ _ hne hwf hhh hkeys hlen hnl =>
        rcases List.exists_mem_of_ne_nil cs hne with ⟨cex, hcex⟩
        have hh1 : 1 ≤ h := by
          have h1 := nodeWf_height_pos (hwf cex hcex)
          have h2 := hhh cex hcex
          omega
        set td := findChildrenByRange keys len cs.length lo hi with htd
        set alt := td.flatMap (fun tgt =>
          deleteRecAux gb fuel (cs.getD tgt.1 Node.newLeaf) tgt.2.1 tgt.2.2)
          with halt
        set nc := cs.take (td.headD (0, 0, 0)).1 ++ alt ++
          cs.drop ((td.getLastD (0, 0, 0)).1 + 1) with hncdef
        have haltall : ∀ x ∈ alt, NodeWf x ∧ x.height = h - 1 := by
          intro x hx
          rw [halt] at hx
          simp only [List.mem_flatMap] at hx
          rcases hx with ⟨tgt, htgt, hx⟩
          have h1 : tgt.1 < cs.length := by
            rw [htd] at htgt
            exact findChildrenByRange_mem_lt keys len cs.length lo hi hkeys
              tgt htgt
          have hchild : cs.getD tgt.1 Node.newLeaf ∈ cs :=
            getD_mem_of_lt h1 _
          have hrec := ih (cs.getD tgt.1 Node.newLeaf) tgt.2.1 tgt.2.2
            (hwf _ hchild) x hx
          refine ⟨hrec.1, ?_⟩
          have h2 := hrec.2
          have h3 := hhh _ hchild
          omega
        have hncall : ∀ x ∈ nc, NodeWf x ∧ x.height = h - 1 := by
          intro x hx
          rw [hncdef] at hx
          simp only [List.mem_append] at hx
          rcases hx with (hx | hx) | hx
          · have hxc := List.take_subset _ _ hx
            refine ⟨hwf x hxc, ?_⟩
            have := hhh x hxc
            omega
          · exact haltall x hx
          · have hxc := List.drop_subset _ _ hx
            refine ⟨hwf x hxc, ?_⟩
            have := hhh x hxc
            omega
        have hfin : ∀ m2 ∈ createParentBranches nc, NodeWf m2 ∧ m2.height = h := by
          intro m2 hm2
          have hc := createParentBranches_wf (h - 1) nc
            (fun x hx => (hncall x hx).1) (fun x hx => (hncall x hx).2) m2 hm2
          refine ⟨hc.1, ?_⟩
          have h2 := hc.2
          omega
        split at hm
        · have hc := createParentBranches_wf (h - 1) cs hwf
            (fun c hc => by have := hhh c hc; omega) m hm
          refine ⟨hc.1, ?_⟩
          have h2 := hc.2
          show m.height = h
          omega
        · dsimp only at hm
          rw [← hncdef] at hm
          split at hm
          · simp at hm
          · rename_i hne2
            have hncne : nc ≠ [] := by
              intro hcon
              rw [hcon] at hne2
              simp at hne2
            have hheadmem : nc.headD Node.newLeaf ∈ nc :=
              headD_mem_self nc Node.newLeaf hncne
            have hhead := hncall _ hheadmem
            split at hm
            · exact ⟨(hfin m hm).1, (hfin m hm).2⟩
            · rename_i hheadnl
              have hhl : (nc.headD Node.newLeaf).isLeaf = false := by
                simpa using hheadnl
              have hge : 2 ≤ h - 1 := by
                have h3 := nodeWf_branch_height hhead.1 hhl
                have h4 := hhead.2
                omega
              split at hm
              · have hgc : ∀ g ∈ nc.flatMap Node.children,
                    NodeWf g ∧ g.height = h - 2 := by
                  intro g hg
                  simp only [List.mem_flatMap] at hg
                  rcases hg with ⟨c, hc, hg⟩
                  have hcw := hncall c hc
                  refine ⟨nodeWf_children hcw.1 g hg, ?_⟩
                  have h5 := nodeWf_children_height hcw.1 g hg
                  have h6 := hcw.2
                  omega
                have hinner := createParentBranches_wf (h - 2)
                  (nc.flatMap Node.children)
                  (fun g hg => (hgc g hg).1) (fun g hg => (hgc g hg).2)
                have houter := createParentBranches_wf (h - 1)
                  (createParentBranches (nc.flatMap Node.children))
                  (fun p hp => (hinner p hp).1)
                  (fun p hp => by have := (hinner p hp).2; omega) m hm
                refine ⟨houter.1, ?_⟩
                have h2 := houter.2
                show m.height = h
                omega
              · exact ⟨(hfin m hm).1, (hfin m hm).2⟩

theorem nodeInsert_wf (gb : List Nat → Nat → Bool) {n : Node} (hn : NodeWf n)
    (index : Nat) (text : List Nat) : NodeWf (n.insert gb index text) := by
  rw [Node.insert, Node.insertRec]
  exact createRoot_wf
    (fun m hm => (insertRecAux_wf gb n.size n index text hn m hm).1)
    (fun m hm => (insertRecAux_wf gb n.size n index text hn m hm).2)

theorem nodeDelete_wf (gb : List Nat → Nat → Bool) {n : Node} (hn : NodeWf n)
    (lo hi : Nat) : NodeWf (n.delete gb lo hi) := by
  rw [Node.delete, Node.deleteRec]
  exact truncateRoot_wf
    (fun m hm => (deleteRecAux_wf gb n.size n lo hi hn m hm).1)

theorem fromText_wf (gb : List Nat → Nat → Bool) (text : List Nat) :
    NodeWf (Rope.fromText gb text).node := by
  rw [Rope.fromText]
  split
  · exact nodeWf_newLeaf
  · exact createRoot_wf
      (fun m hm => (splitTextToLeaves_wf gb text m hm).1)
      (fun m hm => (splitTextToLeaves_wf gb text m hm).2)

theorem reach_wf (gb : List Nat → Nat → Bool) {r : Rope}
    (h : RopeReach gb r) : NodeWf r.node := by
  induction h with
  | new => exact nodeWf_newLeaf
  | fromText text => exact fromText_wf gb text
  | insert i text _ ihr =>
    rw [Rope.insert]
    split
    · exact ihr
    · exact nodeInsert_wf gb ihr _ _
  | delete lo hi _ ihr =>
    rw [Rope.delete]
    exact nodeDelete_wf gb ihr _ _

theorem mem_depthsList {cs : List Node} {d x : Nat} :
    x ∈ Node.collectLeafDepths.depthsList cs d ↔
      ∃ c ∈ cs, x ∈ c.collectLeafDepths d := by
  induction cs with
  | nil => simp [Node.collectLeafDepths.depthsList]
  | cons c cs ih => simp [Node.collectLeafDepths.depthsList, ih]

theorem collectLeafDepths_wf {n : Node} (h : NodeWf n) :
    ∀ d x, x ∈ n.collectLeafDepths d → x + 1 = d + n.height := by
  induction h with
  | leaf c =>
    intro d x hx
    simp [Node.collectLeafDepths] at hx
    subst hx
    simp [Node.height]
  | branch nl hh len keys cs hne hwf hhh hkeys hlen hnl ih =>
    intro d x hx
    rw [Node.collectLeafDepths] at hx
    rw [mem_depthsList] at hx
    rcases hx with ⟨c, hc, hx⟩
    have h1 := ih c hc (d + 1) x hx
    have h2 := hhh c hc
    simp only [Node.height]
    omega

theorem countNl_append (a b : List Nat) :
    countNl (a ++ b) = countNl a + countNl b := by
  simp [countNl, List.count_append]

theorem chunksList_flatten_count (cs : List Node) :
    countNl (Node.chunks.chunksList cs).flatten =
      (cs.map (fun c => countNl c.chunks.flatten)).sum := by
  induction cs with
  | nil => simp [Node.chunks.chunksList, countNl]
  | cons c cs ih =>
    simp only [Node.chunks.chunksList, List.flatten_append, List.map_cons,
      List.sum_cons, countNl_append, ih]

theorem newLines_wf {n : Node} (h : NodeWf n) :
    n.newLines = countNl n.chunks.flatten := by
  induction h with
  | leaf c => simp [Node.newLines, Node.chunks, countNl]
  | branch nl hh len keys cs hne hwf hhh hkeys hlen hnl ih =>
    simp only [Node.newLines, Node.chunks]
    rw [chunksList_flatten_count, hnl]
    congr 1
    exact List.map_congr_left (fun c hc => ih c hc)

/-- C7: every rope state reachable from `Rope::new` / `Rope::from` by inserts
and deletes has all leaves at the same depth: `collect_leaf_depths` (started
at depth 1, as `check_leaves_same_depths` does) returns the node height
repeated once per leaf. -/
theorem c7_leaf_depths_uniform (gb : List Nat → Nat → Bool) (r : Rope)
    (h : RopeReach gb r) :
    r.node.collectLeafDepths 1 =
      List.replicate (r.node.collectLeafDepths 1).length r.node.height := by
  have hwf := reach_wf gb h
  rw [List.eq_replicate_length]
  intro b hb
  have := collectLeafDepths_wf hwf 1 b hb
  omega

theorem c7_leaf_depths_uniform_witness :
    ((Rope.fromText gbDemo [97, 10, 98]).insert gbDemo 1 [99]).node.collectLeafDepths
        1 =
      List.replicate
        (((Rope.fromText gbDemo [97, 10, 98]).insert gbDemo 1
              [99]).node.collectLeafDepths 1).length
        ((Rope.fromText gbDemo [97, 10, 98]).insert gbDemo 1 [99]).node.height :=
  c7_leaf_depths_uniform gbDemo _
    (RopeReach.insert 1 [99] (RopeReach.fromText [97, 10, 98]))

/-- C10: on every reachable rope state, `Rope::new_lines()` equals the number
of `\n` bytes in the rope's content — a lone `\r` contributes nothing and a
CRLF pair contributes exactly one, via its `\n`. -/
theorem c10_newLines_counts_lf (gb : List Nat → Nat → Bool) (r : Rope)
    (h : RopeReach gb r) : r.newLines = countNl r.collectLeaves := by
  have hwf := reach_wf gb h
  rw [Rope.newLines, Rope.collectLeaves]
  exact newLines_wf hwf

theorem c10_newLines_counts_lf_witness :
    (Rope.fromText gbDemo [97, 13, 10, 98, 13, 99, 10]).newLines =
      countNl (Rope.fromText gbDemo [97, 13, 10, 98, 13, 99, 10]).collectLeaves :=
  c10_newLines_counts_lf gbDemo _ (RopeReach.fromText _)

/-! ### Claim C5: boundary and backup lemmas -/

theorem isCharBoundary_zero (t : List Nat) : isCharBoundary t 0 = true := by
  rw [isCharBoundary]
  simp

theorem isCharBoundary_len (t : List Nat) : isCharBoundary t t.length = true := by
  rw [isCharBoundary]
  split
  · rfl
  · rw [List.get?_eq_none.2 (le_refl _)]
    simp

theorem isCharBoundary_le {t : List Nat} {i : Nat}
    (h : isCharBoundary t i = true) : i ≤ t.length := by
  rw [isCharBoundary] at h
  split at h
  · omega
  · cases hget : t.get? i with
    | none =>
      rw [hget] at h
      simp at h
      omega
    | some b =>
      by_contra hcon
      rw [List.get?_eq_none.2 (by omega)] at hget
      cases hget

theorem isCharBoundary_of_byte {t : List Nat} {i : Nat} {b : Nat}
    (h0 : 0 < i) (hget : t.get? i = some b) (hb : b < 0x80 ∨ 0xC0 ≤ b) :
    isCharBoundary t i = true := by
  have hne0 : ¬ i = 0 := by omega
  rw [isCharBoundary, if_neg hne0, hget]
  rcases hb with hb | hb <;> simp [hb]

theorem isCharBoundary_byte {t : List Nat} {i : Nat}
    (h : isCharBoundary t i = true) (h0 : 0 < i) (hlt : i < t.length) :
    ∃ b, t.get? i = some b ∧ (b < 0x80 ∨ 0xC0 ≤ b) := by
  have hne0 : ¬ i = 0 := by omega
  rw [isCharBoundary, if_neg hne0] at h
  cases hget : t.get? i with
  | none =>
    have := List.get?_eq_none.1 hget
    omega
  | some b =>
    rw [hget] at h
    simp at h
    exact ⟨b, rfl, h⟩

theorem isCharBoundary_add {t : List Nat} {k j : Nat}
    (hk : isCharBoundary t k = true)
    (hj : isCharBoundary (t.drop k) j = true) :
    isCharBoundary t (k + j) = true := by
  rcases Nat.eq_zero_or_pos j with hj0 | hjpos
  · subst hj0
    simpa using hk
  · have hkle := isCharBoundary_le hk
    have hjle := isCharBoundary_le hj
    rw [List.length_drop] at hjle
    rcases Nat.lt_or_ge (k + j) t.length with hlt | hge
    · rcases isCharBoundary_byte hj hjpos (by rw [List.length_drop]; omega)
        with ⟨b, hget, hb⟩
      rw [List.get?_drop] at hget
      exact isCharBoundary_of_byte (by omega) hget hb
    · have : k + j = t.length := by omega
      rw [this]
      exact isCharBoundary_len t

theorem isCharBoundary_drop_of {t : List Nat} {k j : Nat} (hk : k ≤ t.length)
    (hij : isCharBoundary t (k + j) = true) :
    isCharBoundary (t.drop k) j = true := by
  rcases Nat.eq_zero_or_pos j with hj0 | hjpos
  · subst hj0
    exact isCharBoundary_zero _
  · have hle := isCharBoundary_le hij
    rcases Nat.lt_or_ge (k + j) t.length with hlt | hge
    · rcases isCharBoundary_byte hij (by omega) hlt with ⟨b, hget, hb⟩
      apply isCharBoundary_of_byte hjpos _ hb
      rw [List.get?_drop]
      exact hget
    · have hj : j = (t.drop k).length := by
        rw [List.length_drop]
        omega
      rw [hj]
      exact isCharBoundary_len _

theorem backupToBoundary_le (t : List Nat) : ∀ s, backupToBoundary t s ≤ s := by
  intro s
  induction s with
  | zero => simp [backupToBoundary]
  | succ s ih =>
    rw [backupToBoundary]
    split
    · exact le_refl _
    · omega

theorem backupToBoundary_boundary (t : List Nat) :
    ∀ s, backupToBoundary t s = 0 ∨
      isCharBoundary t (backupToBoundary t s) = true := by
  intro s
  induction s with
  | zero => simp [backupToBoundary]
  | succ s ih =>
    rw [backupToBoundary]
    split
    · rename_i hb
      exact Or.inr hb
    · exact ih

theorem le_backupToBoundary {t : List Nat} {j : Nat}
    (hb : isCharBoundary t j = true) : ∀ s, j ≤ s → j ≤ backupToBoundary t s := by
  intro s
  induction s with
  | zero => intro h; simpa [backupToBoundary] using h
  | succ s ih =>
    intro hjs
    rw [backupToBoundary]
    split
    · exact hjs
    · rename_i hnb
      apply ih
      rcases Nat.lt_or_ge j (s + 1) with h | h
      · omega
      · have : j = s + 1 := by omega
        rw [this] at hb
        exact absurd hb hnb

theorem utf8CharLen_pos (b : Nat) : 1 ≤ utf8CharLen b := by
  rw [utf8CharLen]
  split
  · omega
  · split
    · omega
    · split <;> omega

theorem utf8CharLen_le_four (b : Nat) : utf8CharLen b ≤ 4 := by
  rw [utf8CharLen]
  split
  · omega
  · split
    · omega
    · split <;> omega

theorem utf8Shape_cons {b : Nat} {rest : List Nat}
    (h : utf8Shape (b :: rest) = true) :
    (b < 0x80 ∨ 0xC0 ≤ b) ∧
    utf8CharLen b ≤ (b :: rest).length ∧
    utf8Shape ((b :: rest).drop (utf8CharLen b)) = true ∧
    (∀ i, 0 < i → i < utf8CharLen b →
      contByte ((b :: rest).getD i 0) = true) := by
  rw [utf8Shape] at h
  split at h
  · rename_i hb
    have hcl : utf8CharLen b = 1 := by rw [utf8CharLen, if_pos hb]
    refine ⟨Or.inl hb, ?_, ?_, ?_⟩
    · rw [hcl]; simp
    · rw [hcl]; simpa using h
    · intro i h1 h2
      rw [hcl] at h2
      omega
  · rename_i hb1
    split at h
    · cases h
    · rename_i hb2
      split at h
      · rename_i hb3
        have hcl : utf8CharLen b = 2 := by
          rw [utf8CharLen, if_neg hb1, if_pos hb3]
        cases rest with
        | nil =>
          have hstep : utf8Shape.tail1 ([] : List Nat) = false := rfl
          rw [hstep] at h
          cases h
        | cons c1 rest2 =>
          have hstep : utf8Shape.tail1 (c1 :: rest2) =
              (contByte c1 && utf8Shape rest2) := rfl
          rw [hstep, Bool.and_eq_true] at h
          obtain ⟨hc1, hsh⟩ := h
          refine ⟨Or.inr (by omega), ?_, ?_, ?_⟩
          · rw [hcl]; simp
          · rw [hcl]; simpa using hsh
          · intro i h1 h2
            rw [hcl] at h2
            have hi : i = 1 := by omega
            subst hi
            simpa using hc1
      · rename_i hb3
        split at h
        · rename_i hb4
          have hcl : utf8CharLen b = 3 := by
            rw [utf8CharLen, if_neg hb1, if_neg hb3, if_pos hb4]
          cases rest with
          | nil =>
            have hstep : utf8Shape.tail2 ([] : List Nat) = false := rfl
            rw [hstep] at h
            cases h
          | cons c1 rest1 =>
            cases rest1 with
            | nil =>
              have hstep : utf8Shape.tail2 [c1] = false := rfl
              rw [hstep] at h
              cases h
            | cons c2 rest2 =>
              have hstep : utf8Shape.tail2 (c1 :: c2 :: rest2) =
                  (contByte c1 && contByte c2 && utf8Shape rest2) := rfl
              rw [hstep, Bool.and_eq_true, Bool.and_eq_true] at h
              obtain ⟨⟨hc1, hc2⟩, hsh⟩ := h
              refine ⟨Or.inr (by omega), ?_, ?_, ?_⟩
              · rw [hcl]; simp
              · rw [hcl]; simpa using hsh
              · intro i h1 h2
                rw [hcl] at h2
                rcases (by omega : i = 1 ∨ i = 2) with hi | hi <;> subst hi
                · simpa using hc1
                · simpa using hc2
        · rename_i hb4
          have hcl : utf8CharLen b = 4 := by
            rw [utf8CharLen, if_neg hb1, if_neg hb3, if_neg hb4]
          cases rest with
          | nil =>
            have hstep : utf8Shape.tail3 ([] : List Nat) = false := rfl
            rw [hstep] at h
            cases h
          | cons c1 rest1 =>
            cases rest1 with
            | nil =>
              have hstep : utf8Shape.tail3 [c1] = false := rfl
              rw [hstep] at h
              cases h
            | cons c2 rest2 =>
              cases rest2 with
              | nil =>
                have hstep : utf8Shape.tail3 [c1, c2] = false := rfl
                rw [hstep] at h
                cases h
              | cons c3 rest3 =>
                have hstep : utf8Shape.tail3 (c1 :: c2 :: c3 :: rest3) =
                    (contByte c1 && contByte c2 && contByte c3 &&
                      utf8Shape rest3) := rfl
                rw [hstep, Bool.and_eq_true, Bool.and_eq_true,
                  Bool.and_eq_true] at h
                obtain ⟨⟨⟨hc1, hc2⟩, hc3⟩, hsh⟩ := h
                refine ⟨Or.inr (by omega), ?_, ?_, ?_⟩
                · rw [hcl]; simp
                · rw [hcl]; simpa using hsh
                · intro i h1 h2
                  rw [hcl] at h2
                  rcases (by omega : i = 1 ∨ i = 2 ∨ i = 3) with hi | hi | hi <;>
                    subst hi
                  · simpa using hc1
                  · simpa using hc2
                  · simpa using hc3

theorem utf8Shape_head {t : List Nat} (h : utf8Shape t = true) (hne : t ≠ []) :
    ∃ b, t.get? 0 = some b ∧ (b < 0x80 ∨ 0xC0 ≤ b) := by
  cases t with
  | nil => exact absurd rfl hne
  | cons b rest => exact ⟨b, rfl, (utf8Shape_cons h).1⟩

theorem isCharBoundary_of_shape_drop {t : List Nat} {k : Nat}
    (hk : k ≤ t.length) (hs : utf8Shape (t.drop k) = true) :
    isCharBoundary t k = true := by
  rcases Nat.eq_zero_or_pos k with h0 | hpos
  · subst h0
    exact isCharBoundary_zero t
  · rcases Nat.lt_or_ge k t.length with hlt | hge
    · have hne : t.drop k ≠ [] := by
        intro hcon
        have hcl := congrArg List.length hcon
        simp [List.length_drop] at hcl
        omega
      rcases utf8Shape_head hs hne with ⟨b, hget, hb⟩
      rw [List.get?_drop, Nat.add_zero] at hget
      exact isCharBoundary_of_byte hpos hget hb
    · have hkl : k = t.length := by omega
      rw [hkl]
      exact isCharBoundary_len t

theorem utf8Shape_drop_of_boundary :
    ∀ (n : Nat) (t : List Nat), t.length ≤ n → utf8Shape t = true →
      ∀ i, isCharBoundary t i = true → utf8Shape (t.drop i) = true := by
  intro n
  induction n with
  | zero =>
    intro t hlen _ i _
    have hnil : t = [] := List.length_eq_zero.1 (by omega)
    subst hnil
    simp [utf8Shape]
  | succ n ih =>
    intro t hlen hs i hb
    rcases Nat.eq_zero_or_pos i with h0 | hpos
    · subst h0
      simpa using hs
    · cases t with
      | nil =>
        have := isCharBoundary_le hb
        simp at this
        omega
      | cons b rest =>
        obtain ⟨hb0, hkle, hdrop, hcont⟩ := utf8Shape_cons hs
        have hk1 := utf8CharLen_pos b
        have hik : utf8CharLen b ≤ i := by
          by_contra hcon
          push_neg at hcon
          have hilt : i < (b :: rest).length := by
            simp at hkle ⊢
            omega
          rcases isCharBoundary_byte hb hpos hilt with ⟨c, hgetc, hc⟩
          have hgd : (b :: rest).getD i 0 = c := by
            rw [List.getD_eq_getElem?_getD, ← List.get?_eq_getElem?, hgetc]
            rfl
          have hcb := hcont i hpos hcon
          rw [hgd] at hcb
          simp [contByte] at hcb
          rcases hc with hc | hc <;> omega
        have hbrec : isCharBoundary ((b :: rest).drop (utf8CharLen b))
            (i - utf8CharLen b) = true := by
          apply isCharBoundary_drop_of hkle
          have hadd : utf8CharLen b + (i - utf8CharLen b) = i := by omega
          rw [hadd]
          exact hb
        have hrec := ih ((b :: rest).drop (utf8CharLen b))
          (by simp [List.length_drop] at hlen ⊢; omega) hdrop
          (i - utf8CharLen b) hbrec
        rw [List.drop_drop] at hrec
        have hadd : utf8CharLen b + (i - utf8CharLen b) = i := by omega
        rw [hadd] at hrec
        exact hrec

theorem exists_boundary_near :
    ∀ (n : Nat) (t : List Nat), t.length ≤ n → utf8Shape t = true →
      ∀ s, s ≤ t.length →
        ∃ j, j ≤ s ∧ s ≤ j + 3 ∧ isCharBoundary t j = true := by
  intro n
  induction n with
  | zero =>
    intro t hlen _ s hsle
    exact ⟨0, by omega, by omega, isCharBoundary_zero t⟩
  | succ n ih =>
    intro t hlen hs s hsle
    cases t with
    | nil =>
      simp at hsle
      exact ⟨0, by omega, by omega, isCharBoundary_zero _⟩
    | cons b rest =>
      obtain ⟨hb0, hkle, hdrop, hcont⟩ := utf8Shape_cons hs
      have hk1 := utf8CharLen_pos b
      have hk4 := utf8CharLen_le_four b
      rcases Nat.lt_or_ge s (utf8CharLen b) with hlt | hge
      · exact ⟨0, by omega, by omega, isCharBoundary_zero _⟩
      · obtain ⟨j, hj1, hj2, hj3⟩ := ih ((b :: rest).drop (utf8CharLen b))
          (by simp [List.length_drop] at hlen ⊢; omega) hdrop
          (s - utf8CharLen b) (by rw [List.length_drop]; omega)
        refine ⟨utf8CharLen b + j, by omega, by omega, ?_⟩
        exact isCharBoundary_add (isCharBoundary_of_shape_drop hkle hdrop) hj3

theorem get?_of_getD {l : List Nat} {i v : Nat} (hlt : i < l.length)
    (hgd : l.getD i 0 = v) : l.get? i = some v := by
  rw [List.getD_eq_getElem?_getD] at hgd
  rw [List.get?_eq_getElem?]
  cases hx : l[i]? with
  | none =>
    rw [List.getElem?_eq_none_iff] at hx
    omega
  | some w =>
    rw [hx] at hgd
    simp at hgd
    rw [hgd]

theorem isCharBoundary_one_of_ascii {u : List Nat} (hs : utf8Shape u = true)
    {a : Nat} (hget : u.get? 0 = some a) (ha : a < 0x80) :
    isCharBoundary u 1 = true := by
  cases u with
  | nil => cases hget
  | cons a0 tail =>
    simp at hget
    subst hget
    rw [utf8Shape, if_pos ha] at hs
    cases tail with
    | nil =>
      have hlen : ([a0] : List Nat).length = 1 := rfl
      rw [← hlen]
      exact isCharBoundary_len _
    | cons c t2 =>
      rcases utf8Shape_head hs (by simp) with ⟨c0, hc0, hcc⟩
      simp at hc0
      subst hc0
      exact isCharBoundary_of_byte (by omega)
        (show (a0 :: c :: t2).get? 1 = some c from rfl) hcc

theorem chunkSplit_spec {text : List Nat} (hsh : utf8Shape text = true)
    (hne : text ≠ []) :
    1 ≤ chunkSplit text ∧ chunkSplit text ≤ text.length ∧
    chunkSplit text ≤ AVG_BUF + 1 ∧
    isCharBoundary text (chunkSplit text) = true ∧
    (chunkSplit text < text.length →
      ¬(text.getD (chunkSplit text - 1) 0 = 13 ∧
        text.getD (chunkSplit text) 0 = 10)) := by
  have hAV : AVG_BUF = 65535 := rfl
  obtain ⟨b, rest, rfl⟩ : ∃ b rest, text = b :: rest := by
    cases text with
    | nil => exact absurd rfl hne
    | cons b rest => exact ⟨b, rest, rfl⟩
  obtain ⟨hb0, hkle, hdrop, hcont⟩ := utf8Shape_cons hsh
  have hk1 := utf8CharLen_pos b
  have hk4 := utf8CharLen_le_four b
  have hlen1 : 1 ≤ (b :: rest).length := by simp
  rw [chunkSplit]
  dsimp only
  set s0 := backupToBoundary (b :: rest) (min (b :: rest).length AVG_BUF)
    with hs0
  set s1 := if s0 = 0 then
      min (utf8CharLen ((b :: rest).getD 0 0)) (b :: rest).length
    else s0 with hs1
  have hs0le : s0 ≤ min (b :: rest).length AVG_BUF := backupToBoundary_le _ _
  have hb_s1 : isCharBoundary (b :: rest) s1 = true := by
    rw [hs1]
    split
    · have hgd : (b :: rest).getD 0 0 = b := rfl
      rw [hgd, Nat.min_eq_left hkle]
      exact isCharBoundary_of_shape_drop hkle hdrop
    · rename_i hne0
      rcases backupToBoundary_boundary (b :: rest)
        (min (b :: rest).length AVG_BUF) with h0 | hbb
      · rw [← hs0] at h0
        exact absurd h0 hne0
      · rw [← hs0] at hbb
        exact hbb
  have hs1_pos : 1 ≤ s1 := by
    rw [hs1]
    split
    · have hgd : (b :: rest).getD 0 0 = b := rfl
      rw [hgd, Nat.min_eq_left hkle]
      omega
    · rename_i hne0
      omega
  have hs1_le : s1 ≤ (b :: rest).length := by
    rw [hs1]
    split
    · exact Nat.min_le_right _ _
    · have := Nat.min_le_left (b :: rest).length AVG_BUF
      omega
  have hs1_avg : s1 ≤ AVG_BUF := by
    rw [hs1]
    split
    · have hgd : (b :: rest).getD 0 0 = b := rfl
      rw [hgd, Nat.min_eq_left hkle]
      omega
    · have := Nat.min_le_right (b :: rest).length AVG_BUF
      omega
  have hdang : s1 < (b :: rest).length →
      AVG_BUF < (b :: rest).length ∧ AVG_BUF - 3 ≤ s1 := by
    intro hlt
    rcases le_or_lt (b :: rest).length AVG_BUF with hle | hgt
    · exfalso
      have hmax : min (b :: rest).length AVG_BUF = (b :: rest).length :=
        Nat.min_eq_left hle
      have hble := le_backupToBoundary (isCharBoundary_len (b :: rest))
        (min (b :: rest).length AVG_BUF) (by rw [hmax])
      rw [← hs0] at hble
      have hs1ge : (b :: rest).length ≤ s1 := by
        rw [hs1]
        split
        · omega
        · omega
      omega
    · obtain ⟨j, hj1, hj2, hj3⟩ := exists_boundary_near (b :: rest).length
        (b :: rest) (le_refl _) hsh AVG_BUF (by omega)
      have hble := le_backupToBoundary hj3 (min (b :: rest).length AVG_BUF)
        (by rw [Nat.min_eq_right (by omega)]; omega)
      rw [← hs0] at hble
      refine ⟨hgt, ?_⟩
      rw [hs1]
      split
      · omega
      · omega
  split
  · rename_i hC1
    obtain ⟨hClt, hCpos, hC13, hC10⟩ := hC1
    have hsd : utf8Shape ((b :: rest).drop s1) = true :=
      utf8Shape_drop_of_boundary (b :: rest).length (b :: rest) (le_refl _)
        hsh s1 hb_s1
    have hget10 : (b :: rest).get? s1 = some 10 := get?_of_getD hClt hC10
    have hget10d : ((b :: rest).drop s1).get? 0 = some 10 := by
      rw [List.get?_drop, Nat.add_zero]
      exact hget10
    have hbd1 : isCharBoundary ((b :: rest).drop s1) 1 = true :=
      isCharBoundary_one_of_ascii hsd hget10d (by omega)
    refine ⟨by omega, by omega, by omega, ?_, ?_⟩
    · exact isCharBoundary_add hb_s1 hbd1
    · intro _
      intro hpair
      have h1 : (b :: rest).getD (s1 + 1 - 1) 0 = 13 := hpair.1
      have h2 : s1 + 1 - 1 = s1 := by omega
      rw [h2, hC10] at h1
      cases h1
  · rename_i hnC1
    split
    · rename_i hC2
      obtain ⟨hClt, hCpos, hC13⟩ := hC2
      have hd := hdang hClt
      split
      · rename_i hC3
        exfalso
        omega
      · rename_i hnC3
        have hget13 : (b :: rest).get? (s1 - 1) = some 13 :=
          get?_of_getD (by omega) hC13
        refine ⟨by omega, by omega, by omega, ?_, ?_⟩
        · rcases Nat.eq_zero_or_pos (s1 - 1) with h0 | hpos
          · rw [h0]
            exact isCharBoundary_zero _
          · exact isCharBoundary_of_byte hpos hget13 (Or.inl (by omega))
        · intro _
          intro hpair
          have h2 : (b :: rest).getD (s1 - 1) 0 = 10 := hpair.2
          rw [hC13] at h2
          cases h2
    · rename_i hnC2
      refine ⟨hs1_pos, hs1_le, by omega, hb_s1, ?_⟩
      intro hlt
      intro hpair
      exact hnC1 ⟨hlt, by omega, hpair.1, hpair.2⟩

theorem getD_drop_nat (l : List Nat) (i j : Nat) :
    (l.drop i).getD j 0 = l.getD (i + j) 0 := by
  rw [List.getD_eq_getElem?_getD, List.getD_eq_getElem?_getD,
    List.getElem?_drop]

theorem createChunksAux_cons (fuel : Nat) (b : Nat) (rest : List Nat) :
    createChunksAux (fuel + 1) (b :: rest) =
      (b :: rest).take (chunkSplit (b :: rest)) ::
        createChunksAux fuel ((b :: rest).drop (chunkSplit (b :: rest))) := rfl

theorem createChunksAux_spec : ∀ (fuel : Nat) (t : List Nat),
    t.length ≤ fuel → utf8Shape t = true →
    (createChunksAux fuel t).flatten = t ∧
    (∀ c ∈ createChunksAux fuel t, c.length ≤ AVG_BUF + 1) ∧
    (∀ k, isCharBoundary t
      (((createChunksAux fuel t).take k).flatten.length) = true) ∧
    (∀ k, 0 < ((createChunksAux fuel t).take k).flatten.length →
      ((createChunksAux fuel t).take k).flatten.length < t.length →
      ¬(t.getD (((createChunksAux fuel t).take k).flatten.length - 1) 0 = 13 ∧
        t.getD (((createChunksAux fuel t).take k).flatten.length) 0 = 10)) := by
  intro fuel
  induction fuel with
  | zero =>
    intro t hlen _
    have ht : t = [] := List.length_eq_zero.1 (by omega)
    subst ht
    refine ⟨rfl, ?_, ?_, ?_⟩
    · intro c hc
      simp [createChunksAux] at hc
    · intro k
      simp [createChunksAux]
      exact isCharBoundary_zero _
    · intro k h1 h2
      simp [createChunksAux] at h1
  | succ fuel ih =>
    intro t hlen hsh
    cases t with
    | nil =>
      refine ⟨rfl, ?_, ?_, ?_⟩
      · intro c hc
        simp [createChunksAux] at hc
      · intro k
        simp [createChunksAux]
        exact isCharBoundary_zero _
      · intro k h1 h2
        simp [createChunksAux] at h1
    | cons b rest =>
      obtain ⟨hpos, hle, havg, hbnd, hcrlf⟩ :=
        chunkSplit_spec hsh (by simp)
      have hshd : utf8Shape ((b :: rest).drop (chunkSplit (b :: rest))) = true :=
        utf8Shape_drop_of_boundary (b :: rest).length (b :: rest) (le_refl _)
          hsh _ hbnd
      have hlend : ((b :: rest).drop (chunkSplit (b :: rest))).length ≤ fuel := by
        rw [List.length_drop]
        simp only [List.length_cons] at hlen ⊢
        omega
      obtain ⟨ihfl, ihmem, ihbnd, ihcrlf⟩ := ih _ hlend hshd
      have htake : ((b :: rest).take (chunkSplit (b :: rest))).length =
          chunkSplit (b :: rest) := by
        rw [List.length_take]
        omega
      rw [createChunksAux_cons]
      refine ⟨?_, ?_, ?_, ?_⟩
      · simp only [List.flatten_cons, ihfl]
        exact List.take_append_drop _ _
      · intro c hc
        rcases List.mem_cons.mp hc with hc | hc
        · rw [hc, htake]
          omega
        · exact ihmem c hc
      · intro k
        cases k with
        | zero =>
          simp
          exact isCharBoundary_zero _
        | succ k =>
          simp only [List.take_succ_cons, List.flatten_cons,
            List.length_append, htake]
          exact isCharBoundary_add hbnd (ihbnd k)
      · intro k
        cases k with
        | zero =>
          intro h1 _
          simp at h1
        | succ k =>
          simp only [List.take_succ_cons, List.flatten_cons,
            List.length_append, htake]
          intro h1 h2
          rcases Nat.eq_zero_or_pos
            (((createChunksAux fuel
              ((b :: rest).drop (chunkSplit (b :: rest)))).take k).flatten.length)
            with hm0 | hmpos
          · rw [hm0]
            simp only [Nat.add_zero]
            exact hcrlf (by omega)
          · have hmlt : ((createChunksAux fuel
                ((b :: rest).drop (chunkSplit (b :: rest)))).take
                  k).flatten.length <
                ((b :: rest).drop (chunkSplit (b :: rest))).length := by
              rw [List.length_drop]
              omega
            have hrec := ihcrlf k hmpos hmlt
            intro hpair
            apply hrec
            constructor
            · rw [getD_drop_nat]
              have harith : chunkSplit (b :: rest) +
                  (((createChunksAux fuel
                    ((b :: rest).drop (chunkSplit (b :: rest)))).take
                      k).flatten.length - 1) =
                  chunkSplit (b :: rest) +
                    ((createChunksAux fuel
                      ((b :: rest).drop (chunkSplit (b :: rest)))).take
                        k).flatten.length - 1 := by omega
              rw [harith]
              exact hpair.1
            · rw [getD_drop_nat]
              exact hpair.2

theorem createChunksAux_ne (fuel : Nat) (t : List Nat) (hne : t ≠ []) :
    createChunksAux (fuel + 1) t =
      t.take (chunkSplit t) :: createChunksAux fuel (t.drop (chunkSplit t)) := by
  cases t with
  | nil => exact absurd rfl hne
  | cons b rest => rfl

theorem utf8Shape_of_ascii : ∀ t : List Nat, (∀ b ∈ t, b < 0x80) →
    utf8Shape t = true := by
  intro t
  induction t with
  | nil => intro _; rfl
  | cons b rest ih =>
    intro h
    rw [utf8Shape, if_pos (h b (by simp))]
    exact ih (fun x hx => h x (by simp [hx]))

theorem c5text_shape : utf8Shape c5text = true := by
  apply utf8Shape_of_ascii
  intro x hx
  rw [c5text] at hx
  simp only [List.mem_append, List.mem_replicate] at hx
  rcases hx with ⟨_, hx⟩ | hx
  · omega
  · simp at hx
    rcases hx with hx | hx | hx <;> omega

theorem c5text_length : c5text.length = 65537 := by
  rw [c5text, List.length_append, List.length_replicate]
  rfl

theorem c5text_get13 : c5text.get? 65534 = some 13 := by
  rw [c5text, List.get?_append_right (le_of_eq (List.length_replicate _ _)),
    List.length_replicate]
  rfl

theorem c5text_get10 : c5text.get? 65535 = some 10 := by
  rw [c5text, List.get?_append_right
    (le_of_eq (List.length_replicate _ _) |>.trans (by norm_num)),
    List.length_replicate]
  rfl

theorem c5text_getD13 : c5text.getD 65534 0 = 13 := by
  rw [List.getD_eq_getElem?_getD, ← List.get?_eq_getElem?, c5text_get13]
  rfl

theorem c5text_getD10 : c5text.getD 65535 0 = 10 := by
  rw [List.getD_eq_getElem?_getD, ← List.get?_eq_getElem?, c5text_get10]
  rfl

theorem c5text_boundary : isCharBoundary c5text 65535 = true :=
  isCharBoundary_of_byte (by norm_num) c5text_get10 (Or.inl (by norm_num))

theorem c5text_backup : backupToBoundary c5text 65535 = 65535 := by
  have h1 : (65535 : Nat) = 65534 + 1 := by norm_num
  rw [h1, backupToBoundary]
  rw [if_pos (by rw [← h1]; exact c5text_boundary)]

theorem c5text_chunkSplit : chunkSplit c5text = 65536 := by
  rw [chunkSplit]
  dsimp only
  have hAV : AVG_BUF = 65535 := rfl
  rw [c5text_length, hAV]
  have hmin : min 65537 65535 = 65535 := by norm_num
  rw [hmin, c5text_backup]
  rw [if_neg (by norm_num : ¬(65535 : Nat) = 0)]
  have hsub : (65535 : Nat) - 1 = 65534 := by norm_num
  rw [if_pos ⟨by norm_num, by norm_num,
    by rw [hsub]; exact c5text_getD13, c5text_getD10⟩]

/-- C5 counterexample: on the 65,537-byte ASCII document of 65,534 `a`s
followed by `\r\n` then `b` (a genuine UTF-8 string), the first chunk cut
by `create_new_pieces` is 65,536 bytes long — one more than `AVG_BUF` —
because the initial 65,535-byte split would separate the `\r` from the
`\n` and the CRLF rule extends it by one byte. -/
theorem c5_chunk_oversize :
    utf8Shape c5text = true ∧ ∃ c ∈ createChunks c5text, AVG_BUF < c.length := by
  have hne : c5text ≠ [] := by
    intro hcon
    have hlen0 := congrArg List.length hcon
    rw [c5text_length] at hlen0
    simp at hlen0
  refine ⟨c5text_shape, c5text.take 65536, ?_, ?_⟩
  · rw [createChunks, c5text_length]
    have h1 : (65537 : Nat) = 65536 + 1 := by norm_num
    rw [h1, createChunksAux_ne _ _ hne, c5text_chunkSplit]
    exact List.mem_cons_self _ _
  · rw [List.length_take, c5text_length]
    have : min 65536 65537 = 65536 := by norm_num
    rw [this]
    decide

theorem appendChunkPieces_lengths :
    ∀ (cs : List (List Nat)) (bufs : List StringBuffer),
      ((appendChunkPieces bufs cs).2).map Piece.length = cs.map List.length := by
  intro cs
  induction cs with
  | nil => intro bufs; rfl
  | cons c cs ih =>
    intro bufs
    rw [appendChunkPieces]
    dsimp only
    simp only [List.map_cons, ih]
    rfl

/-- C5 (amended): for every UTF-8-shaped input (every Rust `&str` is), the
chunks cut by `create_new_pieces` concatenate back to the text, each chunk
is at most `AVG_BUF + 1 = 65,536` bytes (not `AVG_BUF`: the CRLF rule can
extend a split by one byte), the pieces mirror the chunks byte-for-byte in
length, every cut lies on a UTF-8 code-point boundary, and no cut falls
between a `\r` and an immediately following `\n`. -/
theorem c5_createNewPieces_amended (t0 : PieceTree) (text : List Nat)
    (h : utf8Shape text = true) :
    (createChunks text).flatten = text ∧
    (∀ c ∈ createChunks text, c.length ≤ AVG_BUF + 1) ∧
    ((t0.createNewPieces text).2.map Piece.length =
      (createChunks text).map List.length) ∧
    (∀ k, isCharBoundary text
      (((createChunks text).take k).flatten.length) = true) ∧
    (∀ k, 0 < ((createChunks text).take k).flatten.length →
      ((createChunks text).take k).flatten.length < text.length →
      ¬(text.getD (((createChunks text).take k).flatten.length - 1) 0 = 13 ∧
        text.getD (((createChunks text).take k).flatten.length) 0 = 10)) := by
  obtain ⟨h1, h2, h3, h4⟩ :=
    createChunksAux_spec text.length text (le_refl _) h
  exact ⟨h1, h2, appendChunkPieces_lengths _ _, h3, h4⟩

theorem c5_createNewPieces_amended_witness :
    (createChunks [97, 13, 10, 98]).flatten = [97, 13, 10, 98] ∧
    (∀ c ∈ createChunks [97, 13, 10, 98], c.length ≤ AVG_BUF + 1) ∧
    (((PieceTree.new []).createNewPieces [97, 13, 10, 98]).2.map Piece.length =
      (createChunks [97, 13, 10, 98]).map List.length) ∧
    (∀ k, isCharBoundary [97, 13, 10, 98]
      (((createChunks [97, 13, 10, 98]).take k).flatten.length) = true) ∧
    (∀ k, 0 < ((createChunks [97, 13, 10, 98]).take k).flatten.length →
      ((createChunks [97, 13, 10, 98]).take k).flatten.length <
        ([97, 13, 10, 98] : List Nat).length →
      ¬(([97, 13, 10, 98] : List Nat).getD
          (((createChunks [97, 13, 10, 98]).take k).flatten.length - 1) 0 = 13 ∧
        ([97, 13, 10, 98] : List Nat).getD
          (((createChunks [97, 13, 10, 98]).take k).flatten.length) 0 = 10)) :=
  c5_createNewPieces_amended (PieceTree.new []) [97, 13, 10, 98] (by decide)

/-! ### Claim C9: UTF-8 validator and loader lemmas -/

theorem utf8CharAt_some {l : List Nat} {k : Nat} (h : utf8CharAt l = some k) :
    1 ≤ k ∧ k ≤ l.length ∧
    ∀ ext, utf8CharAt (l.take k ++ ext) = some k := by
  cases l with
  | nil => cases h
  | cons b rest =>
    rw [utf8CharAt] at h
    split at h
    · rename_i hb
      injection h with hk
      subst hk
      refine ⟨le_refl _, by simp, ?_⟩
      intro ext
      show utf8CharAt (b :: ext) = some 1
      rw [utf8CharAt, if_pos hb]
    · rename_i hb1
      split at h
      · cases h
      · rename_i hb2
        split at h
        · rename_i hb3
          cases rest with
          | nil =>
            have hstep : utf8CharAt.two b ([] : List Nat) = none := rfl
            rw [hstep] at h
            cases h
          | cons c1 r2 =>
            have hstep : utf8CharAt.two b (c1 :: r2) =
                (if cont1Ok b c1 = true then some 2 else none) := rfl
            rw [hstep] at h
            split at h
            · rename_i hc1
              injection h with hk
              subst hk
              refine ⟨by omega, by simp, ?_⟩
              intro ext
              show utf8CharAt (b :: c1 :: ext) = some 2
              rw [utf8CharAt, if_neg hb1, if_neg hb2, if_pos hb3]
              have hstep2 : utf8CharAt.two b (c1 :: ext) =
                  (if cont1Ok b c1 = true then some 2 else none) := rfl
              rw [hstep2, if_pos hc1]
            · cases h
        · rename_i hb3
          split at h
          · rename_i hb4
            cases rest with
            | nil =>
              have hstep : utf8CharAt.three b ([] : List Nat) = none := rfl
              rw [hstep] at h
              cases h
            | cons c1 r2 =>
              cases r2 with
              | nil =>
                have hstep : utf8CharAt.three b [c1] = none := rfl
                rw [hstep] at h
                cases h
              | cons c2 r3 =>
                have hstep : utf8CharAt.three b (c1 :: c2 :: r3) =
                    (if (cont1Ok b c1 && contByte c2) = true then some 3
                     else none) := rfl
                rw [hstep] at h
                split at h
                · rename_i hc
                  injection h with hk
                  subst hk
                  refine ⟨by omega, by simp, ?_⟩
                  intro ext
                  show utf8CharAt (b :: c1 :: c2 :: ext) = some 3
                  rw [utf8CharAt, if_neg hb1, if_neg hb2, if_neg hb3,
                    if_pos hb4]
                  have hstep2 : utf8CharAt.three b (c1 :: c2 :: ext) =
                      (if (cont1Ok b c1 && contByte c2) = true then some 3
                       else none) := rfl
                  rw [hstep2, if_pos hc]
                · cases h
          · rename_i hb4
            split at h
            · rename_i hb5
              cases rest with
              | nil =>
                have hstep : utf8CharAt.four b ([] : List Nat) = none := rfl
                rw [hstep] at h
                cases h
              | cons c1 r2 =>
                cases r2 with
                | nil =>
                  have hstep : utf8CharAt.four b [c1] = none := rfl
                  rw [hstep] at h
                  cases h
                | cons c2 r3 =>
                  cases r3 with
                  | nil =>
                    have hstep : utf8CharAt.four b [c1, c2] = none := rfl
                    rw [hstep] at h
                    cases h
                  | cons c3 r4 =>
                    have hstep : utf8CharAt.four b (c1 :: c2 :: c3 :: r4) =
                        (if (cont1Ok b c1 && contByte c2 && contByte c3) = true
                         then some 4 else none) := rfl
                    rw [hstep] at h
                    split at h
                    · rename_i hc
                      injection h with hk
                      subst hk
                      refine ⟨by omega, by simp, ?_⟩
                      intro ext
                      show utf8CharAt (b :: c1 :: c2 :: c3 :: ext) = some 4
                      rw [utf8CharAt, if_neg hb1, if_neg hb2, if_neg hb3,
                        if_neg hb4, if_pos hb5]
                      have hstep2 :
                          utf8CharAt.four b (c1 :: c2 :: c3 :: ext) =
                          (if (cont1Ok b c1 && contByte c2 && contByte c3) =
                              true
                           then some 4 else none) := rfl
                      rw [hstep2, if_pos hc]
                    · cases h
            · cases h

theorem utf8CharAt_append {l ext : List Nat} {k : Nat}
    (h : utf8CharAt l = some k) : utf8CharAt (l ++ ext) = some k := by
  obtain ⟨h1, h2, h3⟩ := utf8CharAt_some h
  have hsplit : l ++ ext = l.take k ++ (l.drop k ++ ext) := by
    rw [← List.append_assoc, List.take_append_drop]
  rw [hsplit]
  exact h3 _

theorem utf8CharAt_take {l : List Nat} {k : Nat}
    (h : utf8CharAt l = some k) : utf8CharAt (l.take k) = some k := by
  obtain ⟨h1, h2, h3⟩ := utf8CharAt_some h
  have := h3 []
  rwa [List.append_nil] at this

theorem validUpToAux_succ (fuel : Nat) (l : List Nat) :
    validUpToAux (fuel + 1) l =
      match utf8CharAt l with
      | some k => k + validUpToAux fuel (l.drop k)
      | none => 0 := rfl

theorem validUpToAux_nil (fuel : Nat) : validUpToAux fuel [] = 0 := by
  cases fuel with
  | zero => rfl
  | succ fuel => rfl

theorem utf8Valid_iff {l : List Nat} :
    utf8Valid l = true ↔ validUpTo l = l.length := by
  rw [utf8Valid]
  simp

theorem validUpToAux_congr : ∀ (n fuel₁ fuel₂ : Nat) (l : List Nat),
    l.length ≤ n → l.length ≤ fuel₁ → l.length ≤ fuel₂ →
    validUpToAux fuel₁ l = validUpToAux fuel₂ l := by
  intro n
  induction n with
  | zero =>
    intro fuel₁ fuel₂ l hn _ _
    have hl : l = [] := List.length_eq_zero.1 (by omega)
    subst hl
    rw [validUpToAux_nil, validUpToAux_nil]
  | succ n ih =>
    intro fuel₁ fuel₂ l hn h1 h2
    cases l with
    | nil => rw [validUpToAux_nil, validUpToAux_nil]
    | cons b rest =>
      have hlen : (b :: rest).length = rest.length + 1 := List.length_cons _ _
      obtain ⟨f₁, rfl⟩ : ∃ f, fuel₁ = f + 1 :=
        ⟨fuel₁ - 1, by rw [hlen] at h1; omega⟩
      obtain ⟨f₂, rfl⟩ : ∃ f, fuel₂ = f + 1 :=
        ⟨fuel₂ - 1, by rw [hlen] at h2; omega⟩
      rw [validUpToAux_succ, validUpToAux_succ]
      cases hc : utf8CharAt (b :: rest) with
      | none => rfl
      | some k =>
        obtain ⟨hk1, hk2, _⟩ := utf8CharAt_some hc
        dsimp only
        congr 1
        apply ih
        · rw [List.length_drop]
          rw [hlen] at hn ⊢
          omega
        · rw [List.length_drop]
          rw [hlen] at h1 ⊢
          omega
        · rw [List.length_drop]
          rw [hlen] at h2 ⊢
          omega

theorem validUpTo_unfold {l : List Nat} {k : Nat} (hc : utf8CharAt l = some k) :
    validUpTo l = k + validUpTo (l.drop k) := by
  obtain ⟨hk1, hk2, _⟩ := utf8CharAt_some hc
  rw [validUpTo]
  obtain ⟨f, hf⟩ : ∃ f, l.length = f + 1 := ⟨l.length - 1, by omega⟩
  rw [hf, validUpToAux_succ, hc]
  dsimp only
  congr 1
  rw [validUpTo]
  exact validUpToAux_congr (l.drop k).length f (l.drop k).length (l.drop k)
    (le_refl _) (by rw [List.length_drop]; omega) (le_refl _)

theorem validUpTo_none {l : List Nat} (hc : utf8CharAt l = none) :
    validUpTo l = 0 := by
  cases l with
  | nil => rfl
  | cons b rest =>
    rw [validUpTo, List.length_cons, validUpToAux_succ, hc]

theorem validUpTo_le : ∀ (n : Nat) (l : List Nat), l.length ≤ n →
    validUpTo l ≤ l.length := by
  intro n
  induction n with
  | zero =>
    intro l hn
    have hl : l = [] := List.length_eq_zero.1 (by omega)
    subst hl
    rw [validUpTo, validUpToAux_nil]
    simp
  | succ n ih =>
    intro l hn
    cases hc : utf8CharAt l with
    | none => rw [validUpTo_none hc]; omega
    | some k =>
      obtain ⟨hk1, hk2, _⟩ := utf8CharAt_some hc
      rw [validUpTo_unfold hc]
      have := ih (l.drop k) (by rw [List.length_drop]; omega)
      rw [List.length_drop] at this
      omega

theorem utf8Valid_drop_step {l : List Nat} {k : Nat}
    (hv : utf8Valid l = true) (hc : utf8CharAt l = some k) :
    utf8Valid (l.drop k) = true := by
  rw [utf8Valid_iff] at hv ⊢
  rw [validUpTo_unfold hc] at hv
  obtain ⟨hk1, hk2, _⟩ := utf8CharAt_some hc
  have hle := validUpTo_le (l.drop k).length (l.drop k) (le_refl _)
  rw [List.length_drop] at hle ⊢
  omega

theorem utf8Valid_take_validUpTo : ∀ (n : Nat) (l : List Nat), l.length ≤ n →
    utf8Valid (l.take (validUpTo l)) = true := by
  intro n
  induction n with
  | zero =>
    intro l hn
    have hl : l = [] := List.length_eq_zero.1 (by omega)
    subst hl
    rw [validUpTo, validUpToAux_nil]
    rfl
  | succ n ih =>
    intro l hn
    cases hc : utf8CharAt l with
    | none =>
      rw [validUpTo_none hc]
      rfl
    | some k =>
      obtain ⟨hk1, hk2, h3⟩ := utf8CharAt_some hc
      rw [validUpTo_unfold hc]
      have htk : l.take (k + validUpTo (l.drop k)) =
          l.take k ++ (l.drop k).take (validUpTo (l.drop k)) :=
        List.take_add _ _ _
      rw [htk]
      have hcat : utf8CharAt
          (l.take k ++ (l.drop k).take (validUpTo (l.drop k))) = some k :=
        h3 _
      rw [utf8Valid_iff, validUpTo_unfold hcat]
      have hlentk : (l.take k).length = k := by
        rw [List.length_take]
        omega
      have hdropcat :
          (l.take k ++ (l.drop k).take (validUpTo (l.drop k))).drop k =
          (l.drop k).take (validUpTo (l.drop k)) := by
        rw [List.drop_append_of_le_length (le_of_eq hlentk.symm),
          List.drop_eq_nil_of_le (le_of_eq hlentk), List.nil_append]
      rw [hdropcat]
      have hrec := ih (l.drop k) (by rw [List.length_drop]; omega)
      rw [utf8Valid_iff] at hrec
      rw [hrec]
      rw [List.length_append, hlentk]

theorem utf8Valid_drop_validUpTo_append : ∀ (n : Nat) (l ext : List Nat),
    l.length ≤ n → utf8Valid (l ++ ext) = true →
    utf8Valid (l.drop (validUpTo l) ++ ext) = true := by
  intro n
  induction n with
  | zero =>
    intro l ext hn hv
    have hl : l = [] := List.length_eq_zero.1 (by omega)
    subst hl
    rw [validUpTo, validUpToAux_nil]
    simpa using hv
  | succ n ih =>
    intro l ext hn hv
    cases hc : utf8CharAt l with
    | none =>
      rw [validUpTo_none hc, List.drop_zero]
      exact hv
    | some k =>
      obtain ⟨hk1, hk2, _⟩ := utf8CharAt_some hc
      have hcat : utf8CharAt (l ++ ext) = some k := utf8CharAt_append hc
      have hvd := utf8Valid_drop_step hv hcat
      have hsplit : (l ++ ext).drop k = l.drop k ++ ext := by
        rw [List.drop_append_of_le_length hk2]
      rw [hsplit] at hvd
      have hrec := ih (l.drop k) ext (by rw [List.length_drop]; omega) hvd
      rw [validUpTo_unfold hc]
      have hdd : l.drop (k + validUpTo (l.drop k)) =
          (l.drop k).drop (validUpTo (l.drop k)) := by
        rw [List.drop_drop, Nat.add_comm]
      rw [hdd]
      exact hrec

theorem loadChunks_valid (lossy : List Nat → List Nat)
    (hlossy : ∀ l, utf8Valid (lossy l) = true) :
    ∀ (reads : List (List Nat)) (carry : List Nat),
      ∀ c ∈ loadChunks lossy reads carry, utf8Valid c = true := by
  intro reads
  induction reads with
  | nil =>
    intro carry c hc
    rw [loadChunks] at hc
    split at hc
    · simp at hc
    · split at hc
      · rename_i hvalid
        simp at hc
        subst hc
        exact hvalid
      · simp at hc
        subst hc
        exact hlossy carry
  | cons r rs ih =>
    intro carry c hc
    rw [loadChunks] at hc
    split at hc
    · rcases List.mem_cons.mp hc with hc | hc
      · subst hc
        exact utf8Valid_take_validUpTo (carry ++ r).length _ (le_refl _)
      · exact ih _ c hc
    · exact ih _ c hc

theorem loadChunks_flatten (lossy : List Nat → List Nat) :
    ∀ (reads : List (List Nat)) (carry : List Nat),
      utf8Valid (carry ++ reads.flatten) = true →
      (loadChunks lossy reads carry).flatten = carry ++ reads.flatten := by
  intro reads
  induction reads with
  | nil =>
    intro carry hv
    rw [List.flatten_nil, List.append_nil] at hv ⊢
    rw [loadChunks]
    split
    · rename_i hemp
      simp at hemp
      rw [hemp]
      rfl
    · simp
  | cons r rs ih =>
    intro carry hv
    rw [loadChunks]
    have hassoc : carry ++ (r :: rs).flatten = (carry ++ r) ++ rs.flatten := by
      rw [List.flatten_cons, List.append_assoc]
    rw [hassoc] at hv
    have hvd := utf8Valid_drop_validUpTo_append (carry ++ r).length
      (carry ++ r) rs.flatten (le_refl _) hv
    have hih := ih ((carry ++ r).drop (validUpTo (carry ++ r))) hvd
    split
    · rw [List.flatten_cons, hih]
      rw [← List.append_assoc, List.take_append_drop]
      exact hassoc.symm
    · rename_i hnpos
      have hv0 : validUpTo (carry ++ r) = 0 := by omega
      rw [hih, hv0, List.drop_zero]
      exact hassoc.symm

/-- C9: every chunk emitted by the chunked loader
(`read_chunks_from_path` / `load_from_path`, with
`String::from_utf8_lossy` as an oracle that returns valid UTF-8) is valid
UTF-8, and when the whole input byte sequence is valid UTF-8 the
concatenation of the emitted chunks equals the input exactly — so no code
point is ever split across two chunks. -/
theorem c9_loader_chunks (lossy : List Nat → List Nat)
    (hlossy : ∀ l, utf8Valid (lossy l) = true) (reads : List (List Nat)) :
    (∀ c ∈ readChunksFromReads lossy reads, utf8Valid c = true) ∧
    (utf8Valid reads.flatten = true →
      (readChunksFromReads lossy reads).flatten = reads.flatten) := by
  constructor
  · rw [readChunksFromReads]
    exact loadChunks_valid lossy hlossy reads []
  · intro hv
    rw [readChunksFromReads]
    have := loadChunks_flatten lossy reads [] (by simpa using hv)
    simpa using this

theorem c9_loader_chunks_witness :
    (∀ c ∈ readChunksFromReads (fun _ => []) [[195], [169, 97]],
      utf8Valid c = true) ∧
    (utf8Valid ([[195], [169, 97]] : List (List Nat)).flatten = true →
      (readChunksFromReads (fun _ => []) [[195], [169, 97]]).flatten =
        ([[195], [169, 97]] : List (List Nat)).flatten) :=
  c9_loader_chunks (fun _ => [])
    (fun _ => (by decide : utf8Valid ([] : List Nat) = true)) [[195], [169, 97]]

/-! ### Claim C2: line-start and cursor lemmas -/

theorem createLineStartsAux_crlf (rest : List Nat) (i : Nat) :
    createLineStartsAux (13 :: 10 :: rest) i =
      (i + 2) :: createLineStartsAux rest (i + 2) := rfl

theorem createLineStartsAux_cr_nil (i : Nat) :
    createLineStartsAux [13] i = [i + 1] := rfl

theorem createLineStartsAux_lf (rest : List Nat) (i : Nat) :
    createLineStartsAux (10 :: rest) i =
      (i + 1) :: createLineStartsAux rest (i + 1) := rfl

theorem createLineStartsAux_cr {c : Nat} (hc : ¬c = 10) (rest : List Nat)
    (i : Nat) :
    createLineStartsAux (13 :: c :: rest) i =
      (i + 1) :: createLineStartsAux (c :: rest) (i + 1) :=
  createLineStartsAux.eq_3 i (c :: rest)
    (fun _ h => hc (by cases h; rfl))

theorem createLineStartsAux_other {b : Nat} (hb13 : ¬b = 13) (hb10 : ¬b = 10)
    (rest : List Nat) (i : Nat) :
    createLineStartsAux (b :: rest) i = createLineStartsAux rest (i + 1) :=
  createLineStartsAux.eq_5 i b rest (fun _ h _ => hb13 h) (fun h => hb13 h)
    (fun h => hb10 h)

theorem createLineStartsAux_wf : ∀ (n : Nat) (text : List Nat),
    text.length ≤ n → ∀ i,
    (∀ x ∈ createLineStartsAux text i, i < x ∧ x ≤ i + text.length) ∧
    (createLineStartsAux text i).Pairwise (· < ·) := by
  intro n
  induction n with
  | zero =>
    intro text hlen i
    have ht : text = [] := List.length_eq_zero.1 (by omega)
    subst ht
    exact ⟨fun x hx => (List.not_mem_nil x hx).elim, List.Pairwise.nil⟩
  | succ n ih =>
    intro text hlen i
    cases text with
    | nil => exact ⟨fun x hx => (List.not_mem_nil x hx).elim, List.Pairwise.nil⟩
    | cons b rest =>
      by_cases hb13 : b = 13
      · subst hb13
        cases rest with
        | nil =>
          rw [createLineStartsAux_cr_nil]
          refine ⟨?_, ?_⟩
          · intro x hx
            simp at hx
            subst hx
            simp
          · simp
        | cons c rest2 =>
          by_cases hc10 : c = 10
          · subst hc10
            rw [createLineStartsAux_crlf]
            obtain ⟨ihm, ihp⟩ := ih rest2
              (by simp only [List.length_cons] at hlen; omega) (i + 2)
            refine ⟨?_, ?_⟩
            · intro x hx
              simp only [List.length_cons]
              rcases List.mem_cons.mp hx with hx | hx
              · subst hx
                omega
              · have := ihm x hx
                omega
            · exact List.Pairwise.cons
                (fun y hy => by have := (ihm y hy).1; omega) ihp
          · rw [createLineStartsAux_cr hc10]
            obtain ⟨ihm, ihp⟩ := ih (c :: rest2)
              (by simp only [List.length_cons] at hlen ⊢; omega) (i + 1)
            refine ⟨?_, ?_⟩
            · intro x hx
              simp only [List.length_cons]
              rcases List.mem_cons.mp hx with hx | hx
              · subst hx
                omega
              · have := (ihm x hx).1
                have := (ihm x hx).2
                simp only [List.length_cons] at this
                omega
            · exact List.Pairwise.cons
                (fun y hy => by have := (ihm y hy).1; omega) ihp
      · by_cases hb10 : b = 10
        · subst hb10
          rw [createLineStartsAux_lf]
          obtain ⟨ihm, ihp⟩ := ih rest
            (by simp only [List.length_cons] at hlen; omega) (i + 1)
          refine ⟨?_, ?_⟩
          · intro x hx
            simp only [List.length_cons]
            rcases List.mem_cons.mp hx with hx | hx
            · subst hx
              omega
            · have := ihm x hx
              omega
          · exact List.Pairwise.cons
              (fun y hy => by have := (ihm y hy).1; omega) ihp
        · rw [createLineStartsAux_other hb13 hb10]
          obtain ⟨ihm, ihp⟩ := ih rest
            (by simp only [List.length_cons] at hlen; omega) (i + 1)
          refine ⟨?_, ?_⟩
          · intro x hx
            have := ihm x hx
            simp only [List.length_cons]
            omega
          · exact ihp

theorem StringBuffer_new_wf (text : List Nat) : (StringBuffer.new text).Wf := by
  obtain ⟨hm, hp⟩ := createLineStartsAux_wf text.length text (le_refl _) 0
  refine ⟨by simp [StringBuffer.new, createLineStarts], rfl, ?_, ?_⟩
  · show (createLineStarts text).Pairwise (· < ·)
    rw [createLineStarts]
    exact List.Pairwise.cons (fun y hy => (hm y hy).1) hp
  · intro x hx
    show x ≤ text.length
    rw [show (StringBuffer.new text).lineStarts = createLineStarts text from rfl,
      createLineStarts] at hx
    rcases List.mem_cons.mp hx with hx | hx
    · omega
    · have := hm x hx
      omega

theorem emptyStringBuffer_wf : emptyStringBuffer.Wf := by
  refine ⟨by simp [emptyStringBuffer], rfl, ?_, ?_⟩
  · simp [emptyStringBuffer]
  · intro x hx
    simp [emptyStringBuffer] at hx
    simp [emptyStringBuffer, hx]

theorem getD_mem_nat {ls : List Nat} {j : Nat} (hj : j < ls.length) :
    ls.getD j 0 ∈ ls := by
  rw [List.getD_eq_getElem?_getD, List.getElem?_eq_getElem hj]
  exact List.getElem_mem _

theorem pairwise_getD_lt {ls : List Nat} (hp : ls.Pairwise (· < ·)) {i j : Nat}
    (hij : i < j) (hj : j < ls.length) : ls.getD i 0 < ls.getD j 0 := by
  rw [List.getD_eq_getElem?_getD, List.getD_eq_getElem?_getD]
  rw [List.getElem?_eq_getElem (by omega : i < ls.length),
    List.getElem?_eq_getElem hj]
  exact List.pairwise_iff_getElem.mp hp i j (by omega) hj hij

theorem pairwise_getD_le {ls : List Nat} (hp : ls.Pairwise (· < ·)) {i j : Nat}
    (hij : i ≤ j) (hj : j < ls.length) : ls.getD i 0 ≤ ls.getD j 0 := by
  rcases Nat.eq_or_lt_of_le hij with h | h
  · rw [h]
  · exact le_of_lt (pairwise_getD_lt hp h hj)

theorem cursor_offset_le_len {sb : StringBuffer} (hw : sb.Wf)
    {c : BufferCursor} (hc : cursorWf sb c) :
    sb.lineStarts.getD c.line 0 + c.column ≤ sb.buffer.length := by
  obtain ⟨hlt, hnext, hlast⟩ := hc
  rcases Nat.lt_or_ge (c.line + 1) sb.lineStarts.length with h | h
  · have h1 := hnext h
    have h2 := hw.2.2.2 _ (getD_mem_nat h)
    omega
  · exact hlast (by omega)

theorem cursor_line_le {sb : StringBuffer} (hw : sb.Wf) {a b : BufferCursor}
    (ha : cursorWf sb a) (hb : cursorWf sb b)
    (hof : sb.lineStarts.getD a.line 0 + a.column ≤
      sb.lineStarts.getD b.line 0 + b.column) : a.line ≤ b.line := by
  by_contra hcon
  push_neg at hcon
  have hb1 : b.line + 1 < sb.lineStarts.length := by
    have := ha.1
    omega
  have h1 := hb.2.1 hb1
  have h2 : sb.lineStarts.getD (b.line + 1) 0 ≤ sb.lineStarts.getD a.line 0 :=
    pairwise_getD_le hw.2.2.1 (by omega) ha.1
  omega

theorem cursor_eq_of_offset_eq {sb : StringBuffer} (hw : sb.Wf)
    {a b : BufferCursor} (ha : cursorWf sb a) (hb : cursorWf sb b)
    (hof : sb.lineStarts.getD a.line 0 + a.column =
      sb.lineStarts.getD b.line 0 + b.column) : a = b := by
  have h1 : a.line ≤ b.line := cursor_line_le hw ha hb (by omega)
  have h2 : b.line ≤ a.line := cursor_line_le hw hb ha (by omega)
  have hline : a.line = b.line := by omega
  have hcol : a.column = b.column := by
    rw [hline] at hof
    omega
  cases a
  cases b
  simp at hline hcol
  rw [hline, hcol]

theorem getD_mem_poly {α : Type} {l : List α} {i : Nat} (h : i < l.length)
    (d : α) : l.getD i d ∈ l := by
  rw [List.getD_eq_getElem?_getD, List.getElem?_eq_getElem h]
  exact List.getElem_mem h

theorem getLineFeedCnt_cases (t : PieceTree) (idx : Nat)
    (s c : BufferCursor) :
    t.getLineFeedCnt idx s c = c.line - s.line ∨
    t.getLineFeedCnt idx s c = c.line - s.line + 1 := by
  rw [PieceTree.getLineFeedCnt]
  split
  · exact Or.inl rfl
  · dsimp only
    split
    · exact Or.inl rfl
    · split
      · exact Or.inl rfl
      · split
        · exact Or.inr rfl
        · exact Or.inl rfl

theorem positionSearch_spec (ls : List Nat) (target : Nat) :
    ∀ (fuel low high mid : Nat), low ≤ high → high + 1 ≤ fuel + low →
    ls.getD low 0 ≤ target →
    low ≤ positionSearch ls target low high mid fuel ∧
    positionSearch ls target low high mid fuel ≤ high ∧
    ls.getD (positionSearch ls target low high mid fuel) 0 ≤ target ∧
    (positionSearch ls target low high mid fuel < high →
      target < ls.getD (positionSearch ls target low high mid fuel + 1) 0) := by
  intro fuel
  induction fuel with
  | zero =>
    intro low high mid h1 h2 h3
    omega
  | succ fuel ih =>
    intro low high mid h1 h2 h3
    rw [positionSearch, if_pos h1]
    dsimp only
    by_cases hmh : (low + high) / 2 = high
    · rw [if_pos hmh]
      have hlh : low = high := by omega
      refine ⟨by omega, by omega, ?_, ?_⟩
      · rw [hmh, ← hlh]
        exact h3
      · intro hlt
        omega
    · rw [if_neg hmh]
      by_cases htm : target < ls.getD ((low + high) / 2) 0
      · rw [if_pos htm]
        have hlow_lt : low < (low + high) / 2 := by
          rcases Nat.lt_or_ge low ((low + high) / 2) with h | h
          · exact h
          · have heq : low = (low + high) / 2 := by omega
            rw [← heq] at htm
            omega
        have hm0 : ¬(low + high) / 2 = 0 := by omega
        rw [if_neg hm0]
        obtain ⟨r1, r2, r3, r4⟩ := ih low ((low + high) / 2 - 1)
          ((low + high) / 2) (by omega) (by omega) h3
        refine ⟨r1, by omega, r3, ?_⟩
        intro hlt
        rcases Nat.lt_or_ge
          (positionSearch ls target low ((low + high) / 2 - 1)
            ((low + high) / 2) fuel) ((low + high) / 2 - 1) with h | h
        · exact r4 h
        · have heq : positionSearch ls target low ((low + high) / 2 - 1)
              ((low + high) / 2) fuel + 1 = (low + high) / 2 := by omega
          rw [heq]
          exact htm
      · rw [if_neg htm]
        by_cases hnext : ls.getD ((low + high) / 2 + 1) 0 ≤ target
        · rw [if_pos hnext]
          obtain ⟨r1, r2, r3, r4⟩ := ih ((low + high) / 2 + 1) high
            ((low + high) / 2) (by omega) (by omega) hnext
          exact ⟨by omega, r2, r3, r4⟩
        · rw [if_neg hnext]
          exact ⟨by omega, by omega, by omega, fun _ => by omega⟩

theorem positionInBuffer_spec (t : PieceTree) {p : Piece}
    (hw : (t.buffers.getD p.bufferIdx emptyStringBuffer).Wf)
    (hp : pieceWf t p) (rem : Nat) :
    t.offsetInBuffer p.bufferIdx (t.positionInBuffer p rem) =
      min (t.offsetInBuffer p.bufferIdx p.start + rem)
        (t.offsetInBuffer p.bufferIdx p.stop) ∧
    p.start.line ≤ (t.positionInBuffer p rem).line ∧
    (t.positionInBuffer p rem).line ≤ p.stop.line ∧
    cursorWf (t.buffers.getD p.bufferIdx emptyStringBuffer)
      (t.positionInBuffer p rem) := by
  obtain ⟨hbi, hcs, hce, hord, hlen, hlf⟩ := hp
  have hline_le : p.start.line ≤ p.stop.line := cursor_line_le hw hcs hce hord
  have hstople := cursor_offset_le_len hw hce
  obtain ⟨hcs1, hcs2, hcs3⟩ := hcs
  obtain ⟨hce1, hce2, hce3⟩ := hce
  simp only [PieceTree.offsetInBuffer] at hord hstople ⊢
  rw [PieceTree.positionInBuffer]
  dsimp only
  set ls := (t.buffers.getD p.bufferIdx emptyStringBuffer).lineStarts with hls
  set tgt := min (ls.getD p.start.line 0 + p.start.column + rem)
      (ls.getD p.stop.line 0 + p.stop.column) with htgt
  have htlb : ls.getD p.start.line 0 ≤ tgt := by
    rw [htgt]
    exact le_min (by omega) (by omega)
  have htle : tgt ≤ ls.getD p.stop.line 0 + p.stop.column := by
    rw [htgt]
    exact min_le_right _ _
  obtain ⟨s1, s2, s3, s4⟩ := positionSearch_spec ls tgt (p.stop.line + 2)
    p.start.line p.stop.line p.start.line hline_le (by omega) htlb
  set m := positionSearch ls tgt p.start.line p.stop.line p.start.line
    (p.stop.line + 2) with hm
  clear_value tgt m
  refine ⟨?_, s1, s2, ?_, ?_, ?_⟩
  · dsimp only
    omega
  · dsimp only
    rw [← hls]
    exact lt_of_le_of_lt s2 hce1
  · intro hnx
    dsimp only at hnx ⊢
    rw [← hls] at hnx ⊢
    rcases Nat.lt_or_ge m p.stop.line with h | h
    · have := s4 h
      omega
    · have heq : m = p.stop.line := by omega
      rw [heq] at hnx ⊢
      have := hce2 hnx
      omega
  · intro hlast
    dsimp only at hlast ⊢
    rw [← hls] at hlast ⊢
    omega

theorem getAccumulatedValue_neg (t : PieceTree) (p : Piece) (i : Int)
    (h : i < 0) : t.getAccumulatedValue p i = 0 := by
  rw [PieceTree.getAccumulatedValue, if_pos h]

theorem getAccumulatedValue_nat (t : PieceTree) (p : Piece) (k : Nat)
    (hk : 1 ≤ k) :
    t.getAccumulatedValue p (((k + 1 : Nat) : Int) - 2) =
      (if p.stop.line < p.start.line + k then
        ((t.buffers.getD p.bufferIdx emptyStringBuffer).lineStarts.getD
            p.stop.line 0 + p.stop.column) -
          ((t.buffers.getD p.bufferIdx emptyStringBuffer).lineStarts.getD
            p.start.line 0 + p.start.column)
      else
        (t.buffers.getD p.bufferIdx emptyStringBuffer).lineStarts.getD
            (p.start.line + k) 0 -
          ((t.buffers.getD p.bufferIdx emptyStringBuffer).lineStarts.getD
            p.start.line 0 + p.start.column)) := by
  rw [PieceTree.getAccumulatedValue]
  have hneg : ¬(((k + 1 : Nat) : Int) - 2 < 0) := by omega
  rw [if_neg hneg]
  dsimp only
  have hidx : (((k + 1 : Nat) : Int) - 2).toNat = k - 1 := by omega
  rw [hidx]
  have harith : p.start.line + (k - 1) + 1 = p.start.line + k := by omega
  rw [harith]

theorem getAccumulatedValue_le (t : PieceTree) {p : Piece}
    (hw : (t.buffers.getD p.bufferIdx emptyStringBuffer).Wf)
    (hp : pieceWf t p) (i : Int) :
    t.getAccumulatedValue p i ≤ p.length := by
  obtain ⟨hbi, hcs, hce, hord, hlen, hlf⟩ := hp
  simp only [PieceTree.offsetInBuffer] at hord hlen
  rw [PieceTree.getAccumulatedValue]
  split
  · omega
  · dsimp only
    split
    · omega
    · rename_i hle
      have h1 : (t.buffers.getD p.bufferIdx emptyStringBuffer).lineStarts.getD
          (p.start.line + i.toNat + 1) 0 ≤
          (t.buffers.getD p.bufferIdx emptyStringBuffer).lineStarts.getD
            p.stop.line 0 :=
        pairwise_getD_le hw.2.2.1 (by omega) hce.1
      omega

theorem getIndexOf_spec (t : PieceTree) {p : Piece}
    (hw : (t.buffers.getD p.bufferIdx emptyStringBuffer).Wf)
    (hp : pieceWf t p) (o : Nat) (ho : o ≤ p.length) :
    (t.getIndexOf p o).1 ≤ p.lineFeedCnt ∧
    (1 ≤ (t.getIndexOf p o).1 →
      t.getAccumulatedValue p ((((t.getIndexOf p o).1 + 1 : Nat) : Int) - 2) +
        (t.getIndexOf p o).2 = o) := by
  obtain ⟨hoff, hl1, hl2, hposwf⟩ := positionInBuffer_spec t hw hp o
  obtain ⟨hbi, hcs, hce, hord, hlen, hlf⟩ := hp
  have hminle : t.offsetInBuffer p.bufferIdx p.start + o ≤
      t.offsetInBuffer p.bufferIdx p.stop := by omega
  rw [min_eq_left hminle] at hoff
  have hlfcase : p.lineFeedCnt = p.stop.line - p.start.line ∨
      p.lineFeedCnt = p.stop.line - p.start.line + 1 := by
    rw [hlf]
    exact getLineFeedCnt_cases t p.bufferIdx p.start p.stop
  set pos := t.positionInBuffer p o with hpos
  clear_value pos
  obtain ⟨hpw1, hpw2, hpw3⟩ := hposwf
  have hoib : (t.buffers.getD p.bufferIdx emptyStringBuffer).lineStarts.getD
      pos.line 0 + pos.column =
      (t.buffers.getD p.bufferIdx emptyStringBuffer).lineStarts.getD
        p.start.line 0 + p.start.column + o := by
    simpa only [PieceTree.offsetInBuffer] using hoff
  have keyA : pos.line - p.start.line ≤ p.lineFeedCnt := by
    rcases hlfcase with h | h <;> omega
  have keyB : 1 ≤ pos.line - p.start.line →
      t.getAccumulatedValue p
          (((pos.line - p.start.line + 1 : Nat) : Int) - 2) +
        pos.column = o := by
    intro hk
    rw [getAccumulatedValue_nat t p (pos.line - p.start.line) hk]
    have hcond : ¬ p.stop.line < p.start.line + (pos.line - p.start.line) := by
      omega
    have hpl : p.start.line + (pos.line - p.start.line) = pos.line := by omega
    rw [if_neg hcond, hpl]
    have hnext : (t.buffers.getD p.bufferIdx emptyStringBuffer).lineStarts.getD
        p.start.line 0 + p.start.column <
        (t.buffers.getD p.bufferIdx emptyStringBuffer).lineStarts.getD
          (p.start.line + 1) 0 := hcs.2.1 (by omega)
    have hmono : (t.buffers.getD p.bufferIdx emptyStringBuffer).lineStarts.getD
        (p.start.line + 1) 0 ≤
        (t.buffers.getD p.bufferIdx emptyStringBuffer).lineStarts.getD
          pos.line 0 :=
      pairwise_getD_le hw.2.2.1 (by omega) hpw1
    omega
  rw [PieceTree.getIndexOf]
  dsimp only
  rw [← hpos]
  by_cases heq : t.offsetInBuffer p.bufferIdx p.stop -
      t.offsetInBuffer p.bufferIdx p.start = o
  · rw [if_pos heq]
    have heqr := heq
    have hordr := hord
    simp only [PieceTree.offsetInBuffer] at heqr hordr
    have hpse : pos = p.stop := by
      refine cursor_eq_of_offset_eq hw ⟨hpw1, hpw2, hpw3⟩ hce ?_
      omega
    rw [hpse] at hl1 hl2 hoib keyB
    rw [hpse, ← hlf]
    by_cases hne : p.lineFeedCnt ≠ p.stop.line - p.start.line
    · rw [if_pos hne]
      refine ⟨le_refl _, ?_⟩
      intro hk
      dsimp only at hk ⊢
      have hlf1 : p.lineFeedCnt = p.stop.line - p.start.line + 1 := by
        rcases hlfcase with h | h
        · exact absurd h hne
        · exact h
      rw [getAccumulatedValue_nat t p p.lineFeedCnt hk]
      have hcond : p.stop.line < p.start.line + p.lineFeedCnt := by omega
      rw [if_pos hcond]
      omega
    · rw [if_neg hne]
      push_neg at hne
      refine ⟨by dsimp only; omega, ?_⟩
      intro hk
      dsimp only at hk ⊢
      exact keyB hk
  · rw [if_neg heq]
    refine ⟨by dsimp only; exact keyA, ?_⟩
    intro hk
    dsimp only at hk ⊢
    exact keyB hk

theorem getOffsetAtAux_hit (t : PieceTree) (c : Nat) (p : Piece)
    (ps : List Piece) (n left : Nat) (h : n ≤ p.lineFeedCnt + 1) :
    getOffsetAtAux t c (p :: ps) n left =
      left + t.getAccumulatedValue p ((n : Int) - 2) + (c - 1) := by
  rw [getOffsetAtAux, if_pos h]

theorem getOffsetAtAux_skip (t : PieceTree) (c : Nat) (p : Piece)
    (ps : List Piece) (n left : Nat) (h : ¬ n ≤ p.lineFeedCnt + 1) :
    getOffsetAtAux t c (p :: ps) n left =
      getOffsetAtAux t c ps (n - p.lineFeedCnt) (left + p.length) := by
  rw [getOffsetAtAux, if_neg h]

theorem getOffsetAtAux_skipRun (t : PieceTree) (c : Nat) :
    ∀ (pre rest : List Piece) (index left : Nat), 1 ≤ index →
    getOffsetAtAux t c (pre ++ rest)
        ((pre.map Piece.lineFeedCnt).sum + index + 1) left =
      getOffsetAtAux t c rest (index + 1)
        (left + (pre.map Piece.length).sum) := by
  intro pre
  induction pre with
  | nil =>
    intro rest index left hi
    simp
  | cons q pre' ihq =>
    intro rest index left hi
    rw [List.cons_append]
    have hno : ¬ ((q :: pre').map Piece.lineFeedCnt).sum + index + 1 ≤
        q.lineFeedCnt + 1 := by
      simp only [List.map_cons, List.sum_cons]
      omega
    rw [getOffsetAtAux_skip t c q (pre' ++ rest) _ _ hno]
    have h1 : ((q :: pre').map Piece.lineFeedCnt).sum + index + 1 -
        q.lineFeedCnt = (pre'.map Piece.lineFeedCnt).sum + index + 1 := by
      simp only [List.map_cons, List.sum_cons]
      omega
    rw [h1, ihq rest index (left + q.length) hi]
    have h2 : left + q.length + (pre'.map Piece.length).sum =
        left + ((q :: pre').map Piece.length).sum := by
      simp only [List.map_cons, List.sum_cons]
      omega
    rw [h2]

theorem walkHits_append (p : Piece) (post : List Piece) :
    ∀ pre : List Piece,
    walkHits (pre ++ p :: post) ((pre.map Piece.lineFeedCnt).sum + 1) := by
  intro pre
  induction pre with
  | nil =>
    rw [List.nil_append, walkHits]
    exact Or.inl (by simp)
  | cons q pre' ihq =>
    rw [List.cons_append, walkHits]
    refine Or.inr ?_
    have h1 : ((q :: pre').map Piece.lineFeedCnt).sum + 1 - q.lineFeedCnt =
        (pre'.map Piece.lineFeedCnt).sum + 1 := by
      simp only [List.map_cons, List.sum_cons]
      omega
    rw [h1]
    exact ihq

theorem getOffsetAtAux_add (t : PieceTree) (c : Nat) :
    ∀ (l : List Piece) (n left : Nat), walkHits l n →
    getOffsetAtAux t c l n left =
      getOffsetAtAux t 1 l n left + (c - 1) := by
  intro l
  induction l with
  | nil =>
    intro n left hwalk
    rw [walkHits] at hwalk
    exact hwalk.elim
  | cons p ps ihp =>
    intro n left hwalk
    rw [walkHits] at hwalk
    by_cases hn : n ≤ p.lineFeedCnt + 1
    · rw [getOffsetAtAux_hit t c p ps n left hn,
        getOffsetAtAux_hit t 1 p ps n left hn]
      omega
    · rw [getOffsetAtAux_skip t c p ps n left hn,
        getOffsetAtAux_skip t 1 p ps n left hn]
      rcases hwalk with h | h
      · exact absurd h hn
      · exact ihp _ _ h

theorem getOffsetAtAux_le (t : PieceTree)
    (hw : ∀ sb ∈ t.buffers, sb.Wf) :
    ∀ (pre rest : List Piece) (left : Nat), pre ≠ [] →
    (∀ q ∈ pre, pieceWf t q) →
    getOffsetAtAux t 1 (pre ++ rest)
        ((pre.map Piece.lineFeedCnt).sum + 1) left ≤
      left + (pre.map Piece.length).sum := by
  intro pre
  induction pre with
  | nil =>
    intro rest left hne _
    exact absurd rfl hne
  | cons q pre' ihq =>
    intro rest left _ hwq
    rw [List.cons_append]
    by_cases hs : (pre'.map Piece.lineFeedCnt).sum = 0
    · have hhit : ((q :: pre').map Piece.lineFeedCnt).sum + 1 ≤
          q.lineFeedCnt + 1 := by
        simp only [List.map_cons, List.sum_cons]
        omega
      rw [getOffsetAtAux_hit t 1 q (pre' ++ rest) _ left hhit]
      have hq := hwq q (List.mem_cons_self q pre')
      have hbw : (t.buffers.getD q.bufferIdx emptyStringBuffer).Wf :=
        hw _ (getD_mem_poly hq.1 emptyStringBuffer)
      have hacc := getAccumulatedValue_le t hbw hq
        (((((q :: pre').map Piece.lineFeedCnt).sum + 1 : Nat) : Int) - 2)
      simp only [List.map_cons, List.sum_cons] at hacc ⊢
      omega
    · have hno : ¬ ((q :: pre').map Piece.lineFeedCnt).sum + 1 ≤
          q.lineFeedCnt + 1 := by
        simp only [List.map_cons, List.sum_cons]
        omega
      rw [getOffsetAtAux_skip t 1 q (pre' ++ rest) _ left hno]
      have h1 : ((q :: pre').map Piece.lineFeedCnt).sum + 1 - q.lineFeedCnt =
          (pre'.map Piece.lineFeedCnt).sum + 1 := by
        simp only [List.map_cons, List.sum_cons]
        omega
      rw [h1]
      have hpre' : pre' ≠ [] := by
        intro hcon
        rw [hcon] at hs
        simp at hs
      have hrec := ihq rest (left + q.length) hpre'
        (fun x hx => hwq x (List.mem_cons_of_mem q hx))
      simp only [List.map_cons, List.sum_cons]
      omega

theorem rt_aux (t : PieceTree) (hw : ∀ sb ∈ t.buffers, sb.Wf)
    (hwp : ∀ q ∈ t.pieces, pieceWf t q) :
    ∀ (ps pre : List Piece), t.pieces = pre ++ ps →
    ∀ o', o' ≤ (ps.map Piece.length).sum → (pre = [] ∨ 1 ≤ o') →
    t.getOffsetAt
        (getPositionAtAux t ((pre.map Piece.length).sum + o') ps o'
          (pre.map Piece.lineFeedCnt).sum).line
        (getPositionAtAux t ((pre.map Piece.length).sum + o') ps o'
          (pre.map Piece.lineFeedCnt).sum).column =
      (pre.map Piece.length).sum + o' := by
  intro ps
  induction ps with
  | nil =>
    intro pre hsplit o' ho' hpre
    simp only [List.map_nil, List.sum_nil] at ho'
    have hpre0 : pre = [] := by
      rcases hpre with h | h
      · exact h
      · omega
    subst hpre0
    simp only [List.nil_append] at hsplit
    have ho0 : o' = 0 := by omega
    subst ho0
    rw [getPositionAtAux]
    dsimp only
    rw [PieceTree.getOffsetAt]
    have hne1 : ¬ ((1 : Nat) = 0) := by omega
    rw [if_neg hne1, hsplit, getOffsetAtAux]
    simp
  | cons p ps' ihp =>
    intro pre hsplit o' ho' hpre
    have hpmem : p ∈ t.pieces := by
      rw [hsplit]
      exact List.mem_append.mpr (Or.inr (List.mem_cons_self p ps'))
    have hq := hwp p hpmem
    have hbw : (t.buffers.getD p.bufferIdx emptyStringBuffer).Wf :=
      hw _ (getD_mem_poly hq.1 emptyStringBuffer)
    rw [getPositionAtAux]
    dsimp only
    by_cases hoL : o' ≤ p.length
    · rw [if_pos hoL]
      obtain ⟨hia, hib⟩ := getIndexOf_spec t hbw hq o' hoL
      have hne0 : ¬ ((pre.map Piece.lineFeedCnt).sum + 1 = 0) := by omega
      by_cases hz : (t.getIndexOf p o').1 = 0
      · rw [if_pos hz, hz]
        simp only [Nat.add_zero]
        have hLS_le : t.getOffsetAt ((pre.map Piece.lineFeedCnt).sum + 1) 1 ≤
            (pre.map Piece.length).sum + o' := by
          rw [PieceTree.getOffsetAt, if_neg hne0, hsplit]
          by_cases hpren : pre = []
          · subst hpren
            simp only [List.map_nil, List.sum_nil, List.nil_append,
              Nat.zero_add]
            have hhit1 : (1 : Nat) ≤ p.lineFeedCnt + 1 := by omega
            rw [getOffsetAtAux_hit t 1 p ps' 1 0 hhit1]
            rw [getAccumulatedValue_neg t p (((1 : Nat) : Int) - 2) (by omega)]
            omega
          · have hle := getOffsetAtAux_le t hw pre (p :: ps') 0 hpren
              (fun x hx => hwp x
                (by rw [hsplit]; exact List.mem_append.mpr (Or.inl hx)))
            omega
        have hLSeq : t.getOffsetAt ((pre.map Piece.lineFeedCnt).sum + 1) 1 =
            getOffsetAtAux t 1 (pre ++ p :: ps')
              ((pre.map Piece.lineFeedCnt).sum + 1) 0 := by
          rw [PieceTree.getOffsetAt, if_neg hne0, hsplit]
        rw [PieceTree.getOffsetAt, if_neg hne0, hsplit]
        rw [getOffsetAtAux_add t _ _ _ _ (walkHits_append p ps' pre)]
        rw [hLSeq] at hLS_le ⊢
        omega
      · rw [if_neg hz]
        have hz1 : 1 ≤ (t.getIndexOf p o').1 := by omega
        have hneI : ¬ ((pre.map Piece.lineFeedCnt).sum +
            (t.getIndexOf p o').1 + 1 = 0) := by omega
        rw [PieceTree.getOffsetAt, if_neg hneI, hsplit]
        rw [getOffsetAtAux_skipRun t ((t.getIndexOf p o').2 + 1) pre
          (p :: ps') (t.getIndexOf p o').1 0 hz1]
        have hhit : (t.getIndexOf p o').1 + 1 ≤ p.lineFeedCnt + 1 := by omega
        rw [getOffsetAtAux_hit t ((t.getIndexOf p o').2 + 1) p ps'
          ((t.getIndexOf p o').1 + 1) (0 + (pre.map Piece.length).sum) hhit]
        have hbx := hib hz1
        omega
    · rw [if_neg hoL]
      have hps' : ps' ≠ [] := by
        intro hcon
        rw [hcon] at ho'
        simp only [List.map_cons, List.map_nil, List.sum_cons,
          List.sum_nil] at ho'
        omega
      rw [if_neg hps']
      have hsplit' : t.pieces = (pre ++ [p]) ++ ps' := by
        rw [hsplit, List.append_assoc, List.singleton_append]
      have ho'' : o' - p.length ≤ (ps'.map Piece.length).sum := by
        simp only [List.map_cons, List.sum_cons] at ho'
        omega
      have hone : pre ++ [p] = [] ∨ 1 ≤ o' - p.length := Or.inr (by omega)
      have hrec := ihp (pre ++ [p]) hsplit' (o' - p.length) ho'' hone
      have e1 : ((pre ++ [p]).map Piece.length).sum + (o' - p.length) =
          (pre.map Piece.length).sum + o' := by
        rw [List.map_append, List.sum_append]
        simp only [List.map_cons, List.map_nil, List.sum_cons, List.sum_nil,
          Nat.add_zero]
        omega
      have e2 : ((pre ++ [p]).map Piece.lineFeedCnt).sum =
          (pre.map Piece.lineFeedCnt).sum + p.lineFeedCnt := by
        rw [List.map_append, List.sum_append]
        simp only [List.map_cons, List.map_nil, List.sum_cons, List.sum_nil,
          Nat.add_zero]
      rw [e1, e2] at hrec
      exact hrec

theorem cursorWf_zero {sb : StringBuffer} (hw : sb.Wf) :
    cursorWf sb ⟨0, 0⟩ := by
  obtain ⟨hne, h0, hpair, hmem⟩ := hw
  have hpos : 0 < sb.lineStarts.length := List.length_pos.mpr hne
  refine ⟨hpos, ?_, ?_⟩
  · intro h1
    dsimp only at h1 ⊢
    have := pairwise_getD_lt hpair (by omega : (0 : Nat) < 0 + 1) h1
    omega
  · intro h1
    dsimp only at h1 ⊢
    have := hmem _ (getD_mem_nat hpos)
    omega

theorem wholeBufferPiece_wf (t : PieceTree) (i : Nat)
    (hi : i < t.buffers.length)
    (hwb : (t.buffers.getD i emptyStringBuffer).Wf) :
    pieceWf t ⟨i, ⟨0, 0⟩,
      ⟨(t.buffers.getD i emptyStringBuffer).lineStarts.length - 1,
       (t.buffers.getD i emptyStringBuffer).buffer.length -
         (t.buffers.getD i emptyStringBuffer).lineStarts.getD
           ((t.buffers.getD i emptyStringBuffer).lineStarts.length - 1) 0⟩,
      (t.buffers.getD i emptyStringBuffer).buffer.length,
      (t.buffers.getD i emptyStringBuffer).lineStarts.length - 1⟩ := by
  obtain ⟨hne, h0, hpair, hmem⟩ := hwb
  have hpos : 0 < (t.buffers.getD i emptyStringBuffer).lineStarts.length :=
    List.length_pos.mpr hne
  have hlast : (t.buffers.getD i emptyStringBuffer).lineStarts.getD
      ((t.buffers.getD i emptyStringBuffer).lineStarts.length - 1) 0 ≤
      (t.buffers.getD i emptyStringBuffer).buffer.length :=
    hmem _ (getD_mem_nat (by omega))
  refine ⟨hi, cursorWf_zero ⟨hne, h0, hpair, hmem⟩, ⟨?_, ?_, ?_⟩, ?_, ?_, ?_⟩
  · dsimp only
    omega
  · dsimp only
    intro h1
    omega
  · dsimp only
    intro _
    omega
  · simp only [PieceTree.offsetInBuffer]
    omega
  · simp only [PieceTree.offsetInBuffer]
    omega
  · rw [PieceTree.getLineFeedCnt]
    dsimp only
    split
    · rfl
    · rw [if_pos rfl]
      rfl

theorem offsetInBuffer_congr {t t' : PieceTree} {i : Nat}
    (h : t'.buffers.getD i emptyStringBuffer =
      t.buffers.getD i emptyStringBuffer) (c : BufferCursor) :
    t'.offsetInBuffer i c = t.offsetInBuffer i c := by
  rw [PieceTree.offsetInBuffer, PieceTree.offsetInBuffer, h]

theorem getLineFeedCnt_congr {t t' : PieceTree} {i : Nat}
    (h : t'.buffers.getD i emptyStringBuffer =
      t.buffers.getD i emptyStringBuffer) (s c : BufferCursor) :
    t'.getLineFeedCnt i s c = t.getLineFeedCnt i s c := by
  rw [PieceTree.getLineFeedCnt, PieceTree.getLineFeedCnt, h]

theorem pieceWf_of_extend {t t' : PieceTree}
    (hlen : t.buffers.length ≤ t'.buffers.length)
    (hgd : ∀ i, i < t.buffers.length →
      t'.buffers.getD i emptyStringBuffer = t.buffers.getD i emptyStringBuffer)
    {p : Piece} (hp : pieceWf t p) : pieceWf t' p := by
  obtain ⟨hbi, hcs, hce, hord, hl, hlf⟩ := hp
  have hg := hgd p.bufferIdx hbi
  refine ⟨by omega, ?_, ?_, ?_, ?_, ?_⟩
  · rw [cursorWf, hg]
    exact hcs
  · rw [cursorWf, hg]
    exact hce
  · rw [offsetInBuffer_congr hg, offsetInBuffer_congr hg]
    exact hord
  · rw [offsetInBuffer_congr hg, offsetInBuffer_congr hg]
    exact hl
  · rw [getLineFeedCnt_congr hg]
    exact hlf

theorem nodeAtAux_spec :
    ∀ (l : List Piece) (off i0 s0 idx rem ns : Nat),
    nodeAtAux l off i0 s0 = some (idx, rem, ns) →
    i0 ≤ idx ∧ idx - i0 < l.length ∧
    rem ≤ (l.getD (idx - i0) emptyPiece).length := by
  intro l
  induction l with
  | nil =>
    intro off i0 s0 idx rem ns h
    rw [nodeAtAux] at h
    exact absurd h (by simp)
  | cons p ps ih =>
    intro off i0 s0 idx rem ns h
    rw [nodeAtAux] at h
    by_cases hoff : off ≤ p.length
    · rw [if_pos hoff] at h
      have h1 : i0 = idx ∧ off = rem ∧ s0 = ns := by
        have := Option.some.inj h
        exact ⟨congrArg Prod.fst this,
          congrArg Prod.fst (congrArg Prod.snd this),
          congrArg Prod.snd (congrArg Prod.snd this)⟩
      obtain ⟨hidx, hrem, _⟩ := h1
      subst hidx
      subst hrem
      refine ⟨le_refl _, by simp, ?_⟩
      rw [Nat.sub_self]
      simpa using hoff
    · rw [if_neg hoff] at h
      obtain ⟨h1, h2, h3⟩ := ih _ _ _ _ _ _ h
      refine ⟨by omega, by simp; omega, ?_⟩
      have hstep : idx - i0 = (idx - (i0 + 1)) + 1 := by omega
      rw [hstep, List.getD_cons_succ]
      exact h3

theorem nodeAt_spec {t : PieceTree} {off idx rem ns : Nat}
    (h : t.nodeAt off = some (idx, rem, ns)) :
    idx < t.pieces.length ∧
    rem ≤ (t.pieces.getD idx emptyPiece).length := by
  obtain ⟨h1, h2, h3⟩ := nodeAtAux_spec t.pieces off 0 0 idx rem ns h
  rw [Nat.sub_zero] at h2 h3
  exact ⟨h2, h3⟩

theorem mem_insertManyAt {x : Piece} {i : Nat} {xs l : List Piece}
    (h : x ∈ insertManyAt i xs l) : x ∈ xs ∨ x ∈ l := by
  rw [insertManyAt] at h
  rcases List.mem_append.mp h with h1 | h1
  · rcases List.mem_append.mp h1 with h2 | h2
    · exact Or.inr (List.mem_of_mem_take h2)
    · exact Or.inl h2
  · exact Or.inr (List.mem_of_mem_drop h1)

theorem pieceFromRange_wf (t : PieceTree) (i : Nat) (a b : BufferCursor)
    (hi : i < t.buffers.length)
    (ha : cursorWf (t.buffers.getD i emptyStringBuffer) a)
    (hb : cursorWf (t.buffers.getD i emptyStringBuffer) b)
    (hord : t.offsetInBuffer i a ≤ t.offsetInBuffer i b) :
    pieceWf t (t.pieceFromRange i a b) := by
  rw [PieceTree.pieceFromRange]
  exact ⟨hi, ha, hb, hord, rfl, rfl⟩


theorem getD_append_left {α : Type} (l1 l2 : List α) (n : Nat) (d : α)
    (h : n < l1.length) : (l1 ++ l2).getD n d = l1.getD n d := by
  rw [List.getD_eq_getElem?_getD, List.getD_eq_getElem?_getD,
    List.getElem?_append_left h]

theorem getD_append_at {α : Type} (l1 l2 : List α) (x : α) (d : α) :
    (l1 ++ x :: l2).getD l1.length d = x := by
  rw [List.getD_eq_getElem?_getD, List.getElem?_append_right (le_refl _)]
  simp

theorem newPiece_wf (t : PieceTree) (sb : StringBuffer) (j : Nat)
    (hj : j < t.buffers.length)
    (hgd : t.buffers.getD j emptyStringBuffer = sb) (hsb : sb.Wf) :
    pieceWf t (Piece.mk j ⟨0, 0⟩
      ⟨sb.lineStarts.length - 1,
       sb.buffer.length - sb.lineStarts.getD (sb.lineStarts.length - 1) 0⟩
      sb.buffer.length (sb.lineStarts.length - 1)) := by
  subst hgd
  exact wholeBufferPiece_wf t j hj hsb

theorem appendChunkPieces_buffers :
    ∀ (cs : List (List Nat)) (bufs : List StringBuffer),
    ∃ ext, (appendChunkPieces bufs cs).1 = bufs ++ ext := by
  intro cs
  induction cs with
  | nil =>
    intro bufs
    exact ⟨[], by rw [appendChunkPieces, List.append_nil]⟩
  | cons c cs ih =>
    intro bufs
    rw [appendChunkPieces]
    dsimp only
    obtain ⟨ext, hext⟩ := ih (bufs ++ [(mkChunkPiece bufs.length c).1])
    exact ⟨[(mkChunkPiece bufs.length c).1] ++ ext,
      by rw [hext, List.append_assoc]⟩

theorem appendChunkPieces_wf (t : PieceTree) :
    ∀ (cs : List (List Nat)) (bufs : List StringBuffer),
    (∀ sb ∈ bufs, sb.Wf) →
    t.buffers = (appendChunkPieces bufs cs).1 →
    (∀ sb ∈ (appendChunkPieces bufs cs).1, sb.Wf) ∧
    (∀ p ∈ (appendChunkPieces bufs cs).2, pieceWf t p) := by
  intro cs
  induction cs with
  | nil =>
    intro bufs hb ht
    exact ⟨hb, fun p hp => absurd hp (List.not_mem_nil p)⟩
  | cons c cs ih =>
    intro bufs hb ht
    rw [appendChunkPieces] at ht ⊢
    dsimp only at ht ⊢
    have hnewb : ∀ sb ∈ bufs ++ [(mkChunkPiece bufs.length c).1], sb.Wf := by
      intro sb hsb
      rcases List.mem_append.mp hsb with h | h
      · exact hb sb h
      · rcases List.mem_singleton.mp h with rfl
        exact StringBuffer_new_wf c
    obtain ⟨hw1, hw2⟩ := ih (bufs ++ [(mkChunkPiece bufs.length c).1]) hnewb ht
    refine ⟨hw1, ?_⟩
    intro p hp
    rcases List.mem_cons.mp hp with rfl | h
    · obtain ⟨ext, hext⟩ := appendChunkPieces_buffers cs
        (bufs ++ [(mkChunkPiece bufs.length c).1])
      rw [hext, List.append_assoc, List.singleton_append] at ht
      have hi : bufs.length < t.buffers.length := by
        rw [ht, List.length_append]
        simp
      have hgd : t.buffers.getD bufs.length emptyStringBuffer =
          (mkChunkPiece bufs.length c).1 := by
        rw [ht]
        exact getD_append_at bufs ext _ _
      exact newPiece_wf t ((mkChunkPiece bufs.length c).1) bufs.length hi hgd
        (StringBuffer_new_wf c)
    · exact hw2 p h

theorem createNewPieces_wf (t : PieceTree) (text : List Nat)
    (hb : ∀ sb ∈ t.buffers, sb.Wf) :
    (∀ sb ∈ (t.createNewPieces text).1.buffers, sb.Wf) ∧
    (∀ i, i < t.buffers.length →
      (t.createNewPieces text).1.buffers.getD i emptyStringBuffer =
        t.buffers.getD i emptyStringBuffer) ∧
    t.buffers.length ≤ (t.createNewPieces text).1.buffers.length ∧
    (∀ p ∈ (t.createNewPieces text).2, pieceWf (t.createNewPieces text).1 p) := by
  obtain ⟨ext, hext⟩ := appendChunkPieces_buffers (createChunks text) t.buffers
  have hbuf : (t.createNewPieces text).1.buffers =
      (appendChunkPieces t.buffers (createChunks text)).1 := rfl
  obtain ⟨hw1, hw2⟩ := appendChunkPieces_wf (t.createNewPieces text).1
    (createChunks text) t.buffers hb hbuf
  refine ⟨?_, ?_, ?_, ?_⟩
  · exact hw1
  · intro i hi
    rw [hbuf, hext]
    exact getD_append_left _ _ _ _ hi
  · rw [hbuf, hext, List.length_append]
    omega
  · exact hw2

theorem computeBufferMetadata_wf {t : PieceTree}
    (hb : ∀ sb ∈ t.buffers, sb.Wf) (hp : ∀ p ∈ t.pieces, pieceWf t p) :
    (computeBufferMetadata t).Wf :=
  ⟨hb, hp, rfl⟩

theorem pieceTree_new_wf (chunks : List StringBuffer)
    (hc : ∀ sb ∈ chunks, sb.Wf) : (PieceTree.new chunks).Wf := by
  rw [PieceTree.new]
  by_cases hch : chunks = []
  · rw [if_pos hch]
    refine ⟨?_, ?_, rfl⟩
    · intro sb hsb
      rcases List.mem_singleton.mp hsb with rfl
      exact StringBuffer_new_wf []
    · intro p hp
      exact absurd hp (List.not_mem_nil p)
  · rw [if_neg hch]
    dsimp only
    apply computeBufferMetadata_wf
    · intro sb hsb
      rcases List.mem_append.mp hsb with h | h
      · rcases List.mem_singleton.mp h with rfl
        exact StringBuffer_new_wf []
      · exact hc sb h
    · intro p hp
      obtain ⟨i, hir, hpi⟩ := List.mem_map.mp hp
      have hi : i < chunks.length := List.mem_range.mp hir
      subst hpi
      refine newPiece_wf _ (chunks.getD i emptyStringBuffer) (i + 1) ?_ ?_
        (hc _ (getD_mem_poly hi emptyStringBuffer))
      · simp only [List.length_append, List.length_cons, List.length_nil]
        omega
      · rw [List.singleton_append, List.getD_cons_succ]

theorem mem_of_mem_ite_single {x y : Piece} {c : Prop} [Decidable c]
    (h : x ∈ if c then [y] else []) : x = y := by
  by_cases hc : c
  · rw [if_pos hc] at h
    exact List.mem_singleton.mp h
  · rw [if_neg hc] at h
    exact absurd h (List.not_mem_nil x)

theorem insert_wf {t : PieceTree} (h : t.Wf) (offset : Nat)
    (value : List Nat) : (t.insert offset value).Wf := by
  obtain ⟨hb, hp, hlen⟩ := h
  rw [PieceTree.insert]
  by_cases hv : value = []
  · rw [if_pos hv]
    exact ⟨hb, hp, hlen⟩
  · rw [if_neg hv]
    dsimp only
    generalize (if t.length < offset then t.length else offset) = off2
    obtain ⟨hb', hgd', hlen', hnp⟩ := createNewPieces_wf t value hb
    have hpieq : (t.createNewPieces value).1.pieces = t.pieces := rfl
    set t' := (t.createNewPieces value).1 with ht'
    set nps := (t.createNewPieces value).2 with hnps
    clear_value t' nps
    have hold : ∀ p ∈ t.pieces, pieceWf t' p :=
      fun p hm => pieceWf_of_extend hlen' hgd' (hp p hm)
    by_cases hemp : t'.pieces = []
    · rw [if_pos hemp]
      refine computeBufferMetadata_wf ?_ ?_
      · exact hb'
      · exact hnp
    · rw [if_neg hemp]
      split
      · refine computeBufferMetadata_wf ?_ ?_
        · exact hb'
        · intro p hm
          rcases List.mem_append.mp hm with h1 | h1
          · exact hold p (hpieq ▸ h1)
          · exact hnp p h1
      · rename_i idx rem ns heq
        have hspec := nodeAt_spec heq
        have hnodewf : pieceWf t' (t'.pieces.getD idx emptyPiece) :=
          hold _ (hpieq ▸ getD_mem_poly hspec.1 emptyPiece)
        have hbw : (t'.buffers.getD
            (t'.pieces.getD idx emptyPiece).bufferIdx emptyStringBuffer).Wf :=
          hb' _ (getD_mem_poly hnodewf.1 emptyStringBuffer)
        obtain ⟨hsp1, hsp2, hsp3, hsp4⟩ :=
          positionInBuffer_spec t' hbw hnodewf rem
        split
        · refine computeBufferMetadata_wf ?_ ?_
          · exact hb'
          · intro p hm
            rcases mem_insertManyAt hm with h1 | h1
            · exact hnp p h1
            · exact hold p (hpieq ▸ h1)
        · split
          · refine computeBufferMetadata_wf ?_ ?_
            · exact hb'
            · intro p hm
              rcases List.mem_append.mp hm with h1 | h1
              · rcases List.mem_append.mp h1 with h2 | h2
                · rcases List.mem_append.mp h2 with h3 | h3
                  · rcases List.mem_append.mp h3 with h4 | h4
                    · exact hold p (hpieq ▸ List.mem_of_mem_take h4)
                    · rcases List.mem_singleton.mp h4 with rfl
                      refine pieceFromRange_wf t' _ _ _ hnodewf.1
                        hnodewf.2.1 hsp4 ?_
                      rw [hsp1]
                      exact le_min (Nat.le_add_right _ _) hnodewf.2.2.2.1
                  · exact hnp p h3
                · rcases mem_of_mem_ite_single h2 with rfl
                  refine pieceFromRange_wf t' _ _ _ hnodewf.1
                    hsp4 hnodewf.2.2.1 ?_
                  rw [hsp1]
                  exact min_le_right _ _
              · exact hold p (hpieq ▸ List.mem_of_mem_drop h1)
          · refine computeBufferMetadata_wf ?_ ?_
            · exact hb'
            · intro p hm
              rcases mem_insertManyAt hm with h1 | h1
              · exact hnp p h1
              · exact hold p (hpieq ▸ h1)

theorem positionInBuffer_cursorWf (t : PieceTree) {p : Piece}
    (hw : (t.buffers.getD p.bufferIdx emptyStringBuffer).Wf)
    (hp : pieceWf t p) (rem : Nat) :
    cursorWf (t.buffers.getD p.bufferIdx emptyStringBuffer)
      (t.positionInBuffer p rem) :=
  (positionInBuffer_spec t hw hp rem).2.2.2

theorem positionInBuffer_ord_left (t : PieceTree) {p : Piece}
    (hw : (t.buffers.getD p.bufferIdx emptyStringBuffer).Wf)
    (hp : pieceWf t p) (rem : Nat) :
    t.offsetInBuffer p.bufferIdx p.start ≤
      t.offsetInBuffer p.bufferIdx (t.positionInBuffer p rem) := by
  rw [(positionInBuffer_spec t hw hp rem).1]
  exact le_min (Nat.le_add_right _ _) hp.2.2.2.1

theorem positionInBuffer_ord_right (t : PieceTree) {p : Piece}
    (hw : (t.buffers.getD p.bufferIdx emptyStringBuffer).Wf)
    (hp : pieceWf t p) (rem : Nat) :
    t.offsetInBuffer p.bufferIdx (t.positionInBuffer p rem) ≤
      t.offsetInBuffer p.bufferIdx p.stop := by
  rw [(positionInBuffer_spec t hw hp rem).1]
  exact min_le_right _ _

theorem delete_wf {t : PieceTree} (h : t.Wf) (offset cnt : Nat) :
    (t.delete offset cnt).Wf := by
  obtain ⟨hb, hp, hlen⟩ := h
  rw [PieceTree.delete]
  split
  · exact ⟨hb, hp, hlen⟩
  · rename_i hguard
    push_neg at hguard
    have hne : t.pieces ≠ [] := hguard.2.1
    dsimp only
    generalize (if t.length < offset + cnt then t.length - offset else cnt) = cnt2
    split
    · exact ⟨hb, hp, hlen⟩
    · rename_i startIdx startRem startNS heq
      have hsi : startIdx < t.pieces.length := (nodeAt_spec heq).1
      rcases hEnd : t.nodeAt (offset + cnt2) with _ | ⟨i, r, s⟩
      · simp only [Option.elim]
        have hei : t.pieces.length - 1 < t.pieces.length := by
          have := List.length_pos.mpr hne
          omega
        have hnodewf : pieceWf t (t.pieces.getD startIdx emptyPiece) :=
          hp _ (getD_mem_poly hsi emptyPiece)
        have hbw : (t.buffers.getD
            (t.pieces.getD startIdx emptyPiece).bufferIdx emptyStringBuffer).Wf :=
          hb _ (getD_mem_poly hnodewf.1 emptyStringBuffer)
        have hendw : pieceWf t (t.pieces.getD _ emptyPiece) :=
          hp _ (getD_mem_poly hei emptyPiece)
        have hbwE : (t.buffers.getD
            (t.pieces.getD _ emptyPiece).bufferIdx emptyStringBuffer).Wf :=
          hb _ (getD_mem_poly hendw.1 emptyStringBuffer)
        split
        · split
          · refine computeBufferMetadata_wf ?_ ?_
            · exact hb
            · intro p hm
              rcases List.mem_or_eq_of_mem_set hm with h1 | rfl
              · exact hp p h1
              · exact pieceFromRange_wf t _ _ _ hnodewf.1
                  (positionInBuffer_cursorWf t hbw hnodewf _)
                  (positionInBuffer_cursorWf t hbw hnodewf _) (le_refl _)
          · split
            · refine computeBufferMetadata_wf ?_ ?_
              · exact hb
              · intro p hm
                rcases List.mem_or_eq_of_mem_set hm with h1 | rfl
                · exact hp p h1
                · exact pieceFromRange_wf t _ _ _ hnodewf.1
                    (positionInBuffer_cursorWf t hbw hnodewf _)
                    hnodewf.2.2.1
                    (positionInBuffer_ord_right t hbw hnodewf _)
            · split
              · refine computeBufferMetadata_wf ?_ ?_
                · exact hb
                · intro p hm
                  rcases List.mem_or_eq_of_mem_set hm with h1 | rfl
                  · exact hp p h1
                  · exact pieceFromRange_wf t _ _ _ hnodewf.1
                      hnodewf.2.1
                      (positionInBuffer_cursorWf t hbw hnodewf _)
                      (positionInBuffer_ord_left t hbw hnodewf _)
              · refine computeBufferMetadata_wf ?_ ?_
                · exact hb
                · intro p hm
                  rcases List.mem_append.mp hm with h1 | h1
                  · rcases List.mem_append.mp h1 with h2 | h2
                    · rcases List.mem_append.mp h2 with h3 | h3
                      · exact hp p (List.mem_of_mem_take h3)
                      · rcases List.mem_singleton.mp h3 with rfl
                        exact pieceFromRange_wf t _ _ _ hnodewf.1
                          hnodewf.2.1
                          (positionInBuffer_cursorWf t hbw hnodewf _)
                          (positionInBuffer_ord_left t hbw hnodewf _)
                    · rcases mem_of_mem_ite_single h2 with rfl
                      exact pieceFromRange_wf t _ _ _ hnodewf.1
                        (positionInBuffer_cursorWf t hbw hnodewf _)
                        hnodewf.2.2.1
                        (positionInBuffer_ord_right t hbw hnodewf _)
                  · exact hp p (List.mem_of_mem_drop h1)
        · refine computeBufferMetadata_wf ?_ ?_
          · exact hb
          · intro p hm
            obtain ⟨i, hir, hpi⟩ := List.mem_map.mp hm
            have hiL : i < t.pieces.length := List.mem_range.mp hir
            subst hpi
            have hpiw : pieceWf t (t.pieces.getD i emptyPiece) :=
              hp _ (getD_mem_poly hiL emptyPiece)
            have hbwI : (t.buffers.getD
                (t.pieces.getD i emptyPiece).bufferIdx emptyStringBuffer).Wf :=
              hb _ (getD_mem_poly hpiw.1 emptyStringBuffer)
            split
            · exact pieceFromRange_wf t _ _ _ hnodewf.1
                hnodewf.2.1
                (positionInBuffer_cursorWf t hbw hnodewf _)
                (positionInBuffer_ord_left t hbw hnodewf _)
            · split
              · exact pieceFromRange_wf t _ _ _ hendw.1
                  (positionInBuffer_cursorWf t hbwE hendw _)
                  hendw.2.2.1
                  (positionInBuffer_ord_right t hbwE hendw _)
              · split
                · exact pieceFromRange_wf t _ _ _ hpiw.1
                    (cursorWf_zero hbwI) (cursorWf_zero hbwI) (le_refl _)
                · exact hpiw
      · simp only [Option.elim]
        have hei : i < t.pieces.length := (nodeAt_spec hEnd).1
        have hnodewf : pieceWf t (t.pieces.getD startIdx emptyPiece) :=
          hp _ (getD_mem_poly hsi emptyPiece)
        have hbw : (t.buffers.getD
            (t.pieces.getD startIdx emptyPiece).bufferIdx emptyStringBuffer).Wf :=
          hb _ (getD_mem_poly hnodewf.1 emptyStringBuffer)
        have hendw : pieceWf t (t.pieces.getD _ emptyPiece) :=
          hp _ (getD_mem_poly hei emptyPiece)
        have hbwE : (t.buffers.getD
            (t.pieces.getD _ emptyPiece).bufferIdx emptyStringBuffer).Wf :=
          hb _ (getD_mem_poly hendw.1 emptyStringBuffer)
        split
        · split
          · refine computeBufferMetadata_wf ?_ ?_
            · exact hb
            · intro p hm
              rcases List.mem_or_eq_of_mem_set hm with h1 | rfl
              · exact hp p h1
              · exact pieceFromRange_wf t _ _ _ hnodewf.1
                  (positionInBuffer_cursorWf t hbw hnodewf _)
                  (positionInBuffer_cursorWf t hbw hnodewf _) (le_refl _)
          · split
            · refine computeBufferMetadata_wf ?_ ?_
              · exact hb
              · intro p hm
                rcases List.mem_or_eq_of_mem_set hm with h1 | rfl
                · exact hp p h1
                · exact pieceFromRange_wf t _ _ _ hnodewf.1
                    (positionInBuffer_cursorWf t hbw hnodewf _)
                    hnodewf.2.2.1
                    (positionInBuffer_ord_right t hbw hnodewf _)
            · split
              · refine computeBufferMetadata_wf ?_ ?_
                · exact hb
                · intro p hm
                  rcases List.mem_or_eq_of_mem_set hm with h1 | rfl
                  · exact hp p h1
                  · exact pieceFromRange_wf t _ _ _ hnodewf.1
                      hnodewf.2.1
                      (positionInBuffer_cursorWf t hbw hnodewf _)
                      (positionInBuffer_ord_left t hbw hnodewf _)
              · refine computeBufferMetadata_wf ?_ ?_
                · exact hb
                · intro p hm
                  rcases List.mem_append.mp hm with h1 | h1
                  · rcases List.mem_append.mp h1 with h2 | h2
                    · rcases List.mem_append.mp h2 with h3 | h3
                      · exact hp p (List.mem_of_mem_take h3)
                      · rcases List.mem_singleton.mp h3 with rfl
                        exact pieceFromRange_wf t _ _ _ hnodewf.1
                          hnodewf.2.1
                          (positionInBuffer_cursorWf t hbw hnodewf _)
                          (positionInBuffer_ord_left t hbw hnodewf _)
                    · rcases mem_of_mem_ite_single h2 with rfl
                      exact pieceFromRange_wf t _ _ _ hnodewf.1
                        (positionInBuffer_cursorWf t hbw hnodewf _)
                        hnodewf.2.2.1
                        (positionInBuffer_ord_right t hbw hnodewf _)
                  · exact hp p (List.mem_of_mem_drop h1)
        · refine computeBufferMetadata_wf ?_ ?_
          · exact hb
          · intro p hm
            obtain ⟨i, hir, hpi⟩ := List.mem_map.mp hm
            have hiL : i < t.pieces.length := List.mem_range.mp hir
            subst hpi
            have hpiw : pieceWf t (t.pieces.getD i emptyPiece) :=
              hp _ (getD_mem_poly hiL emptyPiece)
            have hbwI : (t.buffers.getD
                (t.pieces.getD i emptyPiece).bufferIdx emptyStringBuffer).Wf :=
              hb _ (getD_mem_poly hpiw.1 emptyStringBuffer)
            split
            · exact pieceFromRange_wf t _ _ _ hnodewf.1
                hnodewf.2.1
                (positionInBuffer_cursorWf t hbw hnodewf _)
                (positionInBuffer_ord_left t hbw hnodewf _)
            · split
              · exact pieceFromRange_wf t _ _ _ hendw.1
                  (positionInBuffer_cursorWf t hbwE hendw _)
                  hendw.2.2.1
                  (positionInBuffer_ord_right t hbwE hendw _)
              · split
                · exact pieceFromRange_wf t _ _ _ hpiw.1
                    (cursorWf_zero hbwI) (cursorWf_zero hbwI) (le_refl _)
                · exact hpiw

theorem ptReach_wf {t : PieceTree} (h : PTReach t) : t.Wf := by
  induction h with
  | new texts =>
    apply pieceTree_new_wf
    intro sb hsb
    obtain ⟨x, hx, hsx⟩ := List.mem_map.mp hsb
    rw [← hsx]
    exact StringBuffer_new_wf x
  | insert offset value _ ih => exact insert_wf ih offset value
  | delete offset cnt _ ih => exact delete_wf ih offset cnt

/-- C2: on every piece-tree buffer state reachable by inserts and deletes,
for every byte offset `o` in `[0, len]`, feeding the 1-based (line, column)
position returned by `get_position_at o` into `get_offset_at` returns
exactly `o`. -/
theorem c2_offset_position_roundtrip (t : PieceTree) (h : PTReach t)
    (o : Nat) (ho : o ≤ t.length) :
    t.getOffsetAt (t.getPositionAt o).line (t.getPositionAt o).column = o := by
  obtain ⟨hb, hp, hlen⟩ := ptReach_wf h
  rw [PieceTree.getPositionAt]
  have h2 := rt_aux t hb hp t.pieces [] rfl o
    (by rw [← hlen]; exact ho) (Or.inl rfl)
  simp only [List.map_nil, List.sum_nil, Nat.zero_add] at h2
  exact h2

/-- Witness for C2: the state built by loading the chunk `"a\r\nb"` and then
inserting `"x"` at offset 2 (splitting the CRLF across pieces), queried at
offset 2. -/
theorem c2_offset_position_roundtrip_witness :
    2 ≤ ((PieceTree.new ([[97, 13, 10, 98]].map StringBuffer.new)).insert 2
        [120]).length ∧
    ((PieceTree.new ([[97, 13, 10, 98]].map StringBuffer.new)).insert 2
        [120]).getOffsetAt
      (((PieceTree.new ([[97, 13, 10, 98]].map StringBuffer.new)).insert 2
        [120]).getPositionAt 2).line
      (((PieceTree.new ([[97, 13, 10, 98]].map StringBuffer.new)).insert 2
        [120]).getPositionAt 2).column = 2 :=
  ⟨by decide, c2_offset_position_roundtrip _
    (PTReach.insert 2 [120] (PTReach.new [[97, 13, 10, 98]])) 2 (by decide)⟩

end Mditor
